import Mathlib

/-!
Verification of the relsat-rs core solver (src/bitops.rs, src/buffer.rs,
src/shape.rs, src/solver.rs) against its natural-language specification.

The Rust code is shallowly embedded: 2-bit values (`Bit2`) become natural
numbers in `{0,1,2,3}`, the packed 32-bit operator tables become natural
numbers built exactly as the `const fn new` constructors build them, packed
buffers become lists of 32-bit words with explicit masking, and the stateful
iterators and loops become explicit state-passing functions (fuel-indexed
where the Rust loop has no structural termination argument).
-/

namespace Relsat

/-! ### BitOps (src/bitops.rs)

`Bit2` values are naturals in `{0,1,2,3}`.  `Op22` and `Op222` hold the
packed 32-bit table exactly as the Rust `const fn new` builds it; `of` is
the same shift-and-mask. -/

/-- Embeds `Op22` of src/bitops.rs: a unary operator on 2-bit values packed
into one 32-bit word. -/
structure Op22 where
  word : Nat

/-- Embeds `Op22::new`: packs a case list `(a, b)` meaning `op(a) = b`. -/
def Op22.new (cases : List (Nat × Nat)) : Op22 :=
  ⟨cases.foldl (fun v c => v ||| (c.2 <<< (c.1 <<< 1))) 0⟩

/-- Embeds `Op22::of`: `(word >> (a << 1)) & 3`. -/
def Op22.of (op : Op22) (a : Nat) : Nat :=
  (op.word >>> (a <<< 1)) &&& 3

/-- Embeds `Op222` of src/bitops.rs: a binary operator on 2-bit values packed
into one 32-bit word. -/
structure Op222 where
  word : Nat

/-- Embeds `Op222::new`: packs a case list `(a, b, c)` meaning `op(a,b) = c`. -/
def Op222.new (cases : List (Nat × Nat × Nat)) : Op222 :=
  ⟨cases.foldl (fun v c => v ||| (c.2.2 <<< ((c.1 <<< 3) ||| (c.2.1 <<< 1)))) 0⟩

/-- Embeds `Op222::of`: `(word >> ((a << 3) | (b << 1))) & 3`. -/
def Op222.of (op : Op222) (a b : Nat) : Nat :=
  (op.word >>> ((a <<< 3) ||| (b <<< 1))) &&& 3

def BOOL_FALSE : Nat := 0

def BOOL_UNDEF : Nat := 1

def BOOL_TRUE : Nat := 2

def BOOL_MISSING : Nat := 3

/-- Embeds the `BOOL_NOT` table of src/bitops.rs. -/
def BOOL_NOT : Op22 := Op22.new [
  (BOOL_FALSE, BOOL_TRUE),
  (BOOL_UNDEF, BOOL_UNDEF),
  (BOOL_TRUE, BOOL_FALSE),
  (BOOL_MISSING, BOOL_MISSING)]

def EVAL_FALSE : Nat := 0

def EVAL_UNIT : Nat := 1

def EVAL_UNDEF : Nat := 2

def EVAL_TRUE : Nat := 3

/-- Embeds the `FOLD_POS` table of src/bitops.rs. -/
def FOLD_POS : Op222 := Op222.new [
  (EVAL_FALSE, BOOL_FALSE, EVAL_FALSE),
  (EVAL_FALSE, BOOL_UNDEF, EVAL_UNIT),
  (EVAL_FALSE, BOOL_TRUE, EVAL_TRUE),
  (EVAL_FALSE, BOOL_MISSING, EVAL_FALSE),
  (EVAL_UNIT, BOOL_FALSE, EVAL_UNIT),
  (EVAL_UNIT, BOOL_UNDEF, EVAL_UNDEF),
  (EVAL_UNIT, BOOL_TRUE, EVAL_TRUE),
  (EVAL_UNIT, BOOL_MISSING, EVAL_UNIT),
  (EVAL_UNDEF, BOOL_FALSE, EVAL_UNDEF),
  (EVAL_UNDEF, BOOL_UNDEF, EVAL_UNDEF),
  (EVAL_UNDEF, BOOL_TRUE, EVAL_TRUE),
  (EVAL_UNDEF, BOOL_MISSING, EVAL_UNDEF),
  (EVAL_TRUE, BOOL_FALSE, EVAL_TRUE),
  (EVAL_TRUE, BOOL_UNDEF, EVAL_TRUE),
  (EVAL_TRUE, BOOL_TRUE, EVAL_TRUE),
  (EVAL_TRUE, BOOL_MISSING, EVAL_TRUE)]

/-- Embeds the `FOLD_NEG` table of src/bitops.rs. -/
def FOLD_NEG : Op222 := Op222.new [
  (EVAL_FALSE, BOOL_FALSE, EVAL_TRUE),
  (EVAL_FALSE, BOOL_UNDEF, EVAL_UNIT),
  (EVAL_FALSE, BOOL_TRUE, EVAL_FALSE),
  (EVAL_FALSE, BOOL_MISSING, EVAL_FALSE),
  (EVAL_UNIT, BOOL_FALSE, EVAL_TRUE),
  (EVAL_UNIT, BOOL_UNDEF, EVAL_UNDEF),
  (EVAL_UNIT, BOOL_TRUE, EVAL_UNIT),
  (EVAL_UNIT, BOOL_MISSING, EVAL_UNIT),
  (EVAL_UNDEF, BOOL_FALSE, EVAL_TRUE),
  (EVAL_UNDEF, BOOL_UNDEF, EVAL_UNDEF),
  (EVAL_UNDEF, BOOL_TRUE, EVAL_UNDEF),
  (EVAL_UNDEF, BOOL_MISSING, EVAL_UNDEF),
  (EVAL_TRUE, BOOL_FALSE, EVAL_TRUE),
  (EVAL_TRUE, BOOL_UNDEF, EVAL_TRUE),
  (EVAL_TRUE, BOOL_TRUE, EVAL_TRUE),
  (EVAL_TRUE, BOOL_MISSING, EVAL_TRUE)]

/-- Embeds the `EVAL_AND` table of src/bitops.rs. -/
def EVAL_AND : Op222 := Op222.new [
  (EVAL_FALSE, EVAL_FALSE, EVAL_FALSE),
  (EVAL_FALSE, EVAL_UNIT, EVAL_FALSE),
  (EVAL_FALSE, EVAL_UNDEF, EVAL_FALSE),
  (EVAL_FALSE, EVAL_TRUE, EVAL_FALSE),
  (EVAL_UNIT, EVAL_FALSE, EVAL_FALSE),
  (EVAL_UNIT, EVAL_UNIT, EVAL_UNIT),
  (EVAL_UNIT, EVAL_UNDEF, EVAL_UNIT),
  (EVAL_UNIT, EVAL_TRUE, EVAL_UNIT),
  (EVAL_UNDEF, EVAL_FALSE, EVAL_FALSE),
  (EVAL_UNDEF, EVAL_UNIT, EVAL_UNIT),
  (EVAL_UNDEF, EVAL_UNDEF, EVAL_UNDEF),
  (EVAL_UNDEF, EVAL_TRUE, EVAL_UNDEF),
  (EVAL_TRUE, EVAL_FALSE, EVAL_FALSE),
  (EVAL_TRUE, EVAL_UNIT, EVAL_UNIT),
  (EVAL_TRUE, EVAL_UNDEF, EVAL_UNDEF),
  (EVAL_TRUE, EVAL_TRUE, EVAL_TRUE)]

/-! ### Buffer2 (src/buffer.rs)

A vector of two-bit cells packed sixteen to a 32-bit word.  Words are
naturals; the Rust `!mask` on `u32` is modelled as xor with `0xffffffff`. -/

/-- Bitwise complement on a 32-bit word, the Rust `!x` for `x : u32`. -/
def comp32 (x : Nat) : Nat := x ^^^ 0xffffffff

/-- Embeds `Buffer2` of src/buffer.rs: `data` is the `Vec<u32>`. -/
structure Buffer2 where
  data : List Nat
  len : Nat
  deriving DecidableEq

instance : Inhabited Buffer2 := ⟨⟨[], 0⟩⟩

/-- The `Buffer2::FILL` table of broadcast words. -/
def Buffer2.FILL : List Nat := [0x00000000, 0x55555555, 0xaaaaaaaa, 0xffffffff]

/-- Embeds `Buffer2::new`. -/
def Buffer2.new (len val : Nat) : Buffer2 :=
  ⟨List.replicate ((len + 15) / 16) (Buffer2.FILL.getD val 0), len⟩

/-- Embeds `Buffer2::get`: `(data[pos/16] >> (2*(pos%16))) & 3`. -/
def Buffer2.get (b : Buffer2) (pos : Nat) : Nat :=
  (b.data.getD (pos / 16) 0 >>> (2 * (pos % 16))) &&& 3

/-- Embeds `Buffer2::set`: clears the two bits of the cell and ors the value in. -/
def Buffer2.set (b : Buffer2) (pos val : Nat) : Buffer2 :=
  ⟨b.data.set (pos / 16)
    ((b.data.getD (pos / 16) 0 &&& comp32 (3 <<< (2 * (pos % 16)))) |||
      (val <<< (2 * (pos % 16)))),
   b.len⟩

/-- First half of `Buffer2::append`: if the old length is not a multiple of
16 the partially used tail word is merged with the broadcast constant under
the mask of the low `2*(len%16)` bits. -/
def Buffer2.mergeTail (b : Buffer2) (fill : Nat) : List Nat :=
  if b.len % 16 ≠ 0 then
    b.data.set (b.data.length - 1)
      ((b.data.getD (b.data.length - 1) 0 &&& ((1 <<< (2 * (b.len % 16))) - 1)) |||
        (fill &&& comp32 ((1 <<< (2 * (b.len % 16))) - 1)))
  else b.data

/-- Embeds `Buffer2::append`: merge the tail word, then resize the word
vector with the broadcast constant.  The resize can only grow since the new
length is at least the old one, so it is an append of replicated fill
words. -/
def Buffer2.append (b : Buffer2) (len val : Nat) : Buffer2 :=
  let fill := Buffer2.FILL.getD val 0
  let data := b.mergeTail fill
  ⟨data ++ List.replicate ((b.len + len + 15) / 16 - data.length) fill, b.len + len⟩

/-- Embeds `Buffer2::fill`: every word becomes the broadcast constant. -/
def Buffer2.fill (b : Buffer2) (val : Nat) : Buffer2 :=
  ⟨List.replicate b.data.length (Buffer2.FILL.getD val 0), b.len⟩

/-- Embeds `Buffer2::apply`: for each `(pos1, pos2)` of the enumerated
iterator output, `self[pos1] <- op(self[pos1], other[pos2])`. -/
def Buffer2.apply (b : Buffer2) (op : Op222) (other : Buffer2) (ps : List Nat) : Buffer2 :=
  ps.enum.foldl (fun acc ip => acc.set ip.1 (op.of (acc.get ip.1) (other.get ip.2))) b

/-- Well-formedness of a `Buffer2`: the word vector has exactly the length
that `new`/`append` maintain. -/
def Buffer2.Wf (b : Buffer2) : Prop := b.data.length = (b.len + 15) / 16

/-- Number of UNDEF cells of the assignment, the termination measure of
propagation. -/
def Buffer2.undefCount (b : Buffer2) : Nat :=
  (List.range b.len).countP (fun i => b.get i == BOOL_UNDEF)

/-! ### Shape, ShapeView, ShapeIter (src/shape.rs) -/

/-- Embeds `Shape`: a list of side lengths and an offset.  (The Rust struct
caches the volume; here it is the function `Shape.volume`.) -/
structure Shape where
  lengths : List Nat
  offset : Nat
  deriving DecidableEq

instance : Inhabited Shape := ⟨⟨[], 0⟩⟩

/-- Embeds `Shape::new`. -/
def Shape.new (lengths : List Nat) (offset : Nat) : Shape := ⟨lengths, offset⟩

/-- Embeds `Shape::dimension`. -/
def Shape.dimension (s : Shape) : Nat := s.lengths.length

/-- Embeds `Shape::length`. -/
def Shape.length (s : Shape) (axis : Nat) : Nat := s.lengths.getD axis 0

/-- Embeds the volume computation of `Shape::new`: the running product of
all side lengths. -/
def Shape.volume (s : Shape) : Nat := s.lengths.foldl (fun v d => v * d) 1

/-- Embeds `Shape::position`: Horner evaluation of the mixed-radix
coordinates, plus the offset.  The number of coordinates must match the
dimension (the Rust code debug-asserts this). -/
def Shape.position (s : Shape) (coordinates : List Nat) : Nat :=
  s.offset + (coordinates.zip s.lengths).foldl (fun n cd => n * cd.2 + cd.1) 0

/-- Helper of `Shape::coordinates`: peels mixed-radix digits from the last
axis first, returning the digit list and the remaining quotient. -/
def coordsAux : List Nat → Nat → List Nat × Nat
  | [], p => ([], p)
  | d :: rest, p =>
    let r := coordsAux rest p
    (r.2 % d :: r.1, r.2 / d)

/-- Embeds `Shape::coordinates` (written into a fresh list rather than a
caller-provided slice). -/
def Shape.coordinates (s : Shape) (pos : Nat) : List Nat :=
  (coordsAux s.lengths (pos - s.offset)).1

/-- Embeds `ShapeView`: pairs `(length, stride)` plus an offset. -/
structure ShapeView where
  strides : List (Nat × Nat)
  offset : Nat
  deriving DecidableEq

/-- Helper of `ShapeView::new`: canonical strides (last axis fastest) and
the running product. -/
def viewStrides : List Nat → List (Nat × Nat) × Nat
  | [] => ([], 1)
  | d :: rest =>
    let r := viewStrides rest
    ((d, r.2) :: r.1, r.2 * d)

/-- Embeds `ShapeView::new` = `Shape::view`. -/
def Shape.view (s : Shape) : ShapeView := ⟨(viewStrides s.lengths).1, s.offset⟩

/-- Embeds `ShapeView::dimension`. -/
def ShapeView.dimension (v : ShapeView) : Nat := v.strides.length

/-- Embeds `ShapeView::position`: offset plus the stride-weighted sum of the
coordinates. -/
def ShapeView.position (v : ShapeView) (coordinates : List Nat) : Nat :=
  v.offset + (coordinates.zip v.strides).foldl (fun n cs => n + cs.1 * cs.2.2) 0

/-- Embeds `ShapeView::polymer`: start from zero-stride slots shaped by the
target, then add each source stride into the slot its axis maps to. -/
def ShapeView.polymer (v : ShapeView) (shape : Shape) (map : List Nat) : ShapeView :=
  ⟨(map.zip v.strides).foldl
    (fun strides xe =>
      strides.set xe.1 ((strides.getD xe.1 (0, 0)).1, (strides.getD xe.1 (0, 0)).2 + xe.2.2))
    (shape.lengths.map (fun d => (d, 0))), v.offset⟩

/-- Functional form of the compaction loop of `ShapeView::simplify`: `acc`
is the slot at the tail pointer, the list is the remaining heads.  A head of
length zero resets the whole result to `[(0,0)]` (the Rust `break` with
`tail = 0`); a head whose span equals the tail stride is merged; otherwise
the tail slot is committed and the head becomes the new tail. -/
def simplifyList : Nat × Nat → List (Nat × Nat) → List (Nat × Nat)
  | acc, [] => [acc]
  | acc, e :: rest =>
    if e.1 = 0 then [(0, 0)]
    else if e.1 * e.2 = acc.2 then simplifyList (acc.1 * e.1, e.2) rest
    else acc :: simplifyList (e.1, e.2) rest

/-- Embeds `ShapeView::simplify`. -/
def ShapeView.simplify (v : ShapeView) : ShapeView :=
  match v.strides with
  | [] => v
  | a :: rest => ⟨simplifyList a rest, v.offset⟩

/-- Embeds `ShapeIter`: entries are `(coord, dim, stride)` with the fastest
axis first (the Rust constructor reverses the view's axes). -/
structure ShapeIter where
  index : Nat
  entries : List (Nat × Nat × Nat)
  done : Bool
  deriving DecidableEq

/-- Embeds `ShapeIter::new`. -/
def ShapeIter.new (v : ShapeView) : ShapeIter :=
  ⟨v.offset, v.strides.reverse.map (fun ds => (0, ds.1, ds.2)),
    v.strides.reverse.any (fun ds => ds.1 == 0)⟩

/-- The odometer step of `ShapeIter::next`: advance the fastest axis, carry
on overflow.  Returns the updated entries, the updated index and whether the
loop returned early (no full carry). -/
def nextAux : List (Nat × Nat × Nat) → Nat → List (Nat × Nat × Nat) × Nat × Bool
  | [], idx => ([], idx, false)
  | e :: rest, idx =>
    let idx1 := idx + e.2.2
    let c1 := e.1 + 1
    if e.2.1 ≤ c1 then
      let r := nextAux rest (idx1 - c1 * e.2.2)
      ((0, e.2.1, e.2.2) :: r.1, r.2.1, r.2.2)
    else ((c1, e.2.1, e.2.2) :: rest, idx1, true)

/-- Embeds `ShapeIter::next`: save the index, run the odometer, set `done`
when every axis carried. -/
def ShapeIter.next (it : ShapeIter) : Option (Nat × ShapeIter) :=
  if it.done then none
  else
    let r := nextAux it.entries it.index
    some (it.index, ⟨r.2.1, r.1, !r.2.2⟩)

/-- The per-entry loop of `ShapeIter::reset`. -/
def resetAux : List (Nat × Nat × Nat) → Nat → Bool → List (Nat × Nat × Nat) × Nat × Bool
  | [], idx, done => ([], idx, done)
  | e :: rest, idx, done =>
    let r := resetAux rest (idx - e.1 * e.2.2) (done || (e.2.1 == 0))
    ((0, e.2.1, e.2.2) :: r.1, r.2)

/-- Embeds `ShapeIter::reset`. -/
def ShapeIter.reset (it : ShapeIter) : ShapeIter :=
  let r := resetAux it.entries it.index false
  ⟨r.2.1, r.1, r.2.2⟩

/-- Drains an iterator into the list of produced positions, with explicit
fuel (the Rust `for` loop drains the iterator until `None`). -/
def runIter : Nat → ShapeIter → List Nat
  | 0, _ => []
  | fuel + 1, it =>
    match it.next with
    | none => []
    | some pit => pit.1 :: runIter fuel pit.2

/-- The full drain of an iterator: the product of the axis dimensions plus
one is enough fuel for a freshly created or reset iterator. -/
def ShapeIter.collect (it : ShapeIter) : List Nat :=
  runIter (it.entries.foldl (fun a e => a * e.2.1) 1 + 1) it

/-! ### Row-major enumeration: the denotation of `ShapeIter` -/

/-- Row-major positions of a stride list given fastest-varying axis first. -/
def enumPos : List (Nat × Nat) → Nat → List Nat
  | [], idx => [idx]
  | e :: rest, idx =>
    (enumPos rest idx).flatMap (fun base => (List.range e.1).map (fun c => base + c * e.2))

/-- Row-major positions of a stride list given in view order (slowest axis
first, as stored in `ShapeView.strides`). -/
def enumV : List (Nat × Nat) → Nat → List Nat
  | [], idx => [idx]
  | e :: rest, idx => (List.range e.1).flatMap (fun c => enumV rest (idx + c * e.2))

/-- One full sweep of the fastest axis from a base position. -/
def fullSweep (d s b : Nat) : List Nat := (List.range d).map (fun c => b + c * s)

/-- The list of positions a `ShapeIter` in state `(idx, entries)` (not done)
still has to produce: the remainder of the current fastest-axis block, then
full sweeps over the remaining bases of the slower axes. -/
def suffixEnum : List (Nat × Nat × Nat) → Nat → List Nat
  | [], idx => [idx]
  | e :: rest, idx =>
    (List.range (e.2.1 - e.1)).map (fun k => idx + k * e.2.2) ++
      ((suffixEnum rest (idx - e.1 * e.2.2)).tail).flatMap (fullSweep e.2.1 e.2.2)

/-- Iterator entries are well-formed when every coordinate is below its
dimension. -/
def wfEntries (es : List (Nat × Nat × Nat)) : Prop := ∀ e ∈ es, e.1 < e.2.1

/-! ### Coordinates and the stride dot product -/

/-- All coordinate vectors over the given side lengths, row-major (last
coordinate fastest... here first list element is the slowest axis). -/
def allCoords : List Nat → List (List Nat)
  | [] => [[]]
  | d :: rest => (List.range d).flatMap (fun c => (allCoords rest).map (fun cs => c :: cs))

/-- Stride-weighted sum of a coordinate vector. -/
def dotStrides (cs : List Nat) (l : List (Nat × Nat)) : Nat :=
  ((cs.zip l).map (fun p => p.1 * p.2.2)).sum

/-! ### State (src/solver.rs) -/

/-- Embeds `Step`: an assigned boolean variable and the positions that
caused the assignment (empty for initial values and decisions). -/
structure Step where
  bvar : Nat
  reason : List Nat
  deriving DecidableEq

instance : Inhabited Step := ⟨⟨0, []⟩⟩

/-- Embeds `State`: the assignment buffer, the trail of steps and the
decision level stack. -/
structure State where
  assignment : Buffer2
  steps : List Step
  levels : List Nat
  deriving DecidableEq

/-- `State::default()`. -/
def State.empty : State := ⟨⟨[], 0⟩, [], []⟩

instance : Inhabited State := ⟨State.empty⟩

/-- Embeds `State::create_table`: carve a new shape at the end of the
assignment and extend it with UNDEF cells. -/
def State.create_table (s : State) (sizes : List Nat) : Shape × State :=
  let shape := Shape.new sizes s.assignment.len
  (shape, { s with assignment := s.assignment.append shape.volume BOOL_UNDEF })

/-- Embeds `State::assign`.  The Rust code asserts that the cell is UNDEF
(`AlreadyAssigned` contract) and the buffer accessors debug-assert that the
position is in range; both failures are modelled as `none`. -/
def State.assign (s : State) (pos : Nat) (sign : Bool) (reason : List Nat) : Option State :=
  if pos < s.assignment.len ∧ s.assignment.get pos = BOOL_UNDEF then
    some { s with
      assignment := s.assignment.set pos (if sign then BOOL_TRUE else BOOL_FALSE),
      steps := s.steps ++ [⟨pos, reason⟩] }
  else none

/-- Embeds `State::make_decision`: find the lowest UNDEF position, push a
new level, assign it TRUE with an empty reason. -/
def State.make_decision (s : State) : Bool × State :=
  match (List.range s.assignment.len).find? (fun i => s.assignment.get i == BOOL_UNDEF) with
  | some pos =>
    (true, { s with
      levels := s.levels ++ [s.steps.length],
      assignment := s.assignment.set pos BOOL_TRUE,
      steps := s.steps ++ [⟨pos, []⟩] })
  | none => (false, s)

/-- The undo loop of `State::next_decision`: reset the given steps'
positions to UNDEF. -/
def State.undoSteps (assignment : Buffer2) (steps : List Step) : Buffer2 :=
  steps.foldl (fun a st => a.set st.bvar BOOL_UNDEF) assignment

/-- The `while let Some(level) = levels.pop()` loop of
`State::next_decision`, with fuel bounded by the number of levels (each
iteration pops one).  A popped level whose decision is already FALSE is
discarded and the loop retries; otherwise all steps above the level are
undone, the decision is flipped to FALSE and the level is pushed back. -/
def nextDecisionAux : Nat → State → Bool × State
  | 0, s => (false, s)
  | fuel + 1, s =>
    match s.levels.getLast? with
    | none => (false, s)
    | some level =>
      let s0 : State := { s with levels := s.levels.dropLast }
      let bv := (s0.steps.getD level default).bvar
      if s0.assignment.get bv = BOOL_FALSE then
        nextDecisionAux fuel s0
      else
        (true, { s0 with
          assignment :=
            (State.undoSteps s0.assignment (s0.steps.drop (level + 1))).set bv BOOL_FALSE,
          steps := s0.steps.take (level + 1),
          levels := s0.levels ++ [level] })

/-- Embeds `State::next_decision`. -/
def State.next_decision (s : State) : Bool × State :=
  nextDecisionAux s.levels.length s

/-! ### Domain, Variable, Literal, Clause, Exist, Solver (src/solver.rs) -/

/-- Embeds `Domain`. -/
structure Domain where
  name : String
  size : Nat
  deriving DecidableEq

/-- Embeds `Variable` (the Rust field `variable` is a reserved word in
Lean, `var` is used for it throughout). -/
structure Variable where
  shape : Shape
  name : String
  domains : List Domain
  deriving DecidableEq

/-- Embeds `Variable::new`. -/
def Variable.new (s : State) (name : String) (domains : List Domain) :
    Variable × State :=
  let r := s.create_table (domains.map Domain.size)
  (⟨r.1, name, domains⟩, r.2)

/-- Embeds `Literal`: sign, variable, axis map and the precomputed position
iterator. -/
structure Literal where
  var : Variable
  axes : List Nat
  positions : ShapeIter
  sign : Bool
  deriving DecidableEq

/-- Embeds `Literal::new`: precompute the iterator by viewing the
variable's shape, polymerising it onto the clause's shape and
simplifying. -/
def Literal.new (shape : Shape) (sign : Bool) (v : Variable) (axes : List Nat) : Literal :=
  ⟨v, axes, ShapeIter.new ((v.shape.view.polymer shape axes).simplify), sign⟩

/-- Embeds `Literal::evaluate`: reset the iterator and fold the assignment
into the target buffer with `FOLD_POS`/`FOLD_NEG`. -/
def Literal.evaluate (lit : Literal) (st : State) (target : Buffer2) : Buffer2 :=
  target.apply (if lit.sign then FOLD_POS else FOLD_NEG) st.assignment
    ((lit.positions.reset).collect)

/-- Embeds `Literal::position`. -/
def Literal.position (lit : Literal) (coordinates : List Nat) : Nat :=
  lit.var.shape.position (lit.axes.map (fun a => coordinates.getD a 0))

/-- Embeds `Clause`. -/
structure Clause where
  domains : List Domain
  literals : List Literal
  shape : Shape
  buffer : Buffer2
  deriving DecidableEq

instance : Inhabited Clause := ⟨⟨[], [], default, default⟩⟩

/-- Embeds `Clause::new`. -/
def Clause.new (shape : Shape) (domains : List Domain) (literals : List Literal) : Clause :=
  ⟨domains, literals, shape, Buffer2.new shape.volume EVAL_FALSE⟩

/-- Embeds `Clause::evaluate`: fill the buffer with `EVAL_FALSE` and fold
every literal in. -/
def Clause.evaluate (c : Clause) (st : State) : Clause :=
  { c with buffer :=
      c.literals.foldl (fun b lit => lit.evaluate st b) (c.buffer.fill EVAL_FALSE) }

/-- Embeds `Clause::get_status`: the `EVAL_AND` fold of every cell. -/
def Clause.get_status (c : Clause) : Nat :=
  (List.range c.buffer.len).foldl (fun res pos => EVAL_AND.of res (c.buffer.get pos)) EVAL_TRUE

/-- The inner literal scan of `Clause::propagate` at a UNIT cell: find the
undef literal (its position and sign) and collect the other positions as the
reason. -/
def scanLits (st : State) (literals : List Literal) (coordinates : List Nat) :
    Nat × Option Bool × List Nat :=
  literals.foldl (fun acc lit =>
    let bvar := lit.position coordinates
    if st.assignment.get bvar = BOOL_UNDEF then (bvar, some lit.sign, acc.2.2)
    else (acc.1, acc.2.1, acc.2.2 ++ [bvar])) (0, none, [])

/-- The assignment a UNIT cell triggers in `Clause::propagate`: scan the
literals and assign the single undef position with the collected reason.
The `State::assign` assertion cannot fire because `sign` is only set when
the scanned cell was UNDEF, so the `getD` fallback is dead. -/
def unitAssign (st : State) (literals : List Literal) (coordinates : List Nat) : State :=
  match (scanLits st literals coordinates).2.1 with
  | some sg =>
    (st.assign (scanLits st literals coordinates).1 sg
      (scanLits st literals coordinates).2.2).getD st
  | none => st

/-- The state change of one cell of `Clause::propagate`: on a UNIT cell,
decode the coordinates, scan the literals and assign the single undef
position. -/
def Clause.propagateStep (c : Clause) (st : State) (pos : Nat) : State :=
  if c.buffer.get pos = EVAL_UNIT then
    unitAssign st c.literals (c.shape.coordinates pos)
  else st

/-- Embeds `Clause::propagate`: scan every cell, perform the unit
assignments, and return the `EVAL_AND` fold of all cells together with the
final state. -/
def Clause.propagate (c : Clause) (st : State) : Nat × State :=
  (List.range c.buffer.len).foldl
    (fun acc pos => (EVAL_AND.of acc.1 (c.buffer.get pos), c.propagateStep acc.2 pos))
    (EVAL_TRUE, st)

/-- Embeds `Exist`. -/
structure Exist where
  var : Variable
  deriving DecidableEq

/-- The inner fold of `Exist::get_status` over one fiber. -/
def foldFiber (st : State) (pos block : Nat) : Nat :=
  (List.range block).foldl (fun v2 i => FOLD_POS.of v2 (st.assignment.get (pos + i))) EVAL_FALSE

/-- The `while pos < range.end` loop of `Exist::get_status`, fuelled by the
volume (enough since each iteration advances by `block ≥ 1`; a 0-ary
predicate would make the Rust code panic on `dimension() - 1`). -/
def existsAux (st : State) (block stop : Nat) : Nat → Nat → Nat → Nat
  | 0, _, acc => acc
  | fuel + 1, pos, acc =>
    if pos < stop then
      existsAux st block stop fuel (pos + block) (EVAL_AND.of acc (foldFiber st pos block))
    else acc

/-- Embeds `Exist::get_status`: the `EVAL_AND` fold over the fibers of the
last axis, each fiber being the `FOLD_POS` fold of its cells. -/
def Exist.get_status (e : Exist) (st : State) : Nat :=
  let shape := e.var.shape
  let block := shape.lengths.getD (shape.lengths.length - 1) 0
  existsAux st block (shape.offset + shape.volume) shape.volume shape.offset EVAL_TRUE

/-- Embeds `Solver` (the Rust fields `variables` and `exists` are reserved
words in Lean, `varList` and `existsList` are used for them). -/
structure Solver where
  state : State
  domains : List Domain
  varList : List Variable
  clauses : List Clause
  existsList : List Exist
  deriving DecidableEq

/-- Embeds `Solver::set_value`: compute the position of the coordinates in
the variable's shape and force the assignment with an empty reason. -/
def Solver.set_value (s : Solver) (sign : Bool) (v : Variable)
    (coordinates : List Nat) : Option Solver :=
  (s.state.assign (v.shape.position coordinates) sign []).map
    (fun st => { s with state := st })

/-- Embeds `Solver::get_clauses_status`. -/
def Solver.get_clauses_status (s : Solver) : Nat :=
  s.clauses.foldl (fun res cla => EVAL_AND.of res cla.get_status) EVAL_TRUE

/-- Embeds `Solver::get_exists_status`. -/
def Solver.get_exists_status (s : Solver) : Nat :=
  s.existsList.foldl (fun res ext => EVAL_AND.of res (ext.get_status s.state)) EVAL_TRUE

/-- Embeds the round-robin loop of `Solver::propagate`, with explicit fuel
(`none` = fuel exhausted): normalise the index, evaluate and propagate the
clause, then break on FALSE, reset the quiet counter on UNIT, or count the
clause as quiet. -/
def propagateLoop : Nat → Nat → Nat → Nat → List Clause → State →
    Option (Nat × List Clause × State)
  | 0, _, _, _, _, _ => none
  | fuel + 1, num, res, idx, clauses, st =>
    if num < clauses.length then
      let idx := if clauses.length ≤ idx then 0 else idx
      let cla := (clauses.getD idx default).evaluate st
      let pr := cla.propagate st
      let clauses := clauses.set idx cla
      if pr.1 = EVAL_FALSE then some (EVAL_FALSE, clauses, pr.2)
      else if pr.1 = EVAL_UNIT then propagateLoop fuel 0 EVAL_TRUE (idx + 1) clauses pr.2
      else propagateLoop fuel (num + 1) (EVAL_AND.of res pr.1) (idx + 1) clauses pr.2
    else some (res, clauses, st)

/-- Embeds `Solver::propagate` with explicit fuel. -/
def Solver.propagate (s : Solver) (fuel : Nat) : Option (Nat × Solver) :=
  (propagateLoop fuel 0 EVAL_TRUE 0 s.clauses s.state).map
    (fun r => (r.1, { s with clauses := r.2.1, state := r.2.2 }))

/-- The wellformedness a clause acquires from `Solver::add_clause` and
`Literal::new`: offset-0 shape, buffer sized to the shape, literal axis maps
within bounds and matching domain sizes, precomputed iterators, and variable
blocks inside the assignment. -/
def WfClause (len : Nat) (cla : Clause) : Prop :=
  cla.shape.offset = 0 ∧
  cla.buffer.len = cla.shape.volume ∧
  cla.buffer.Wf ∧
  ∀ lit ∈ cla.literals,
    lit.axes.length = lit.var.shape.lengths.length ∧
    (∀ k < lit.axes.length,
      lit.axes.getD k 0 < cla.shape.lengths.length ∧
      lit.var.shape.lengths.getD k 0 = cla.shape.lengths.getD (lit.axes.getD k 0) 0) ∧
    lit.positions = ShapeIter.new ((lit.var.shape.view.polymer cla.shape lit.axes).simplify) ∧
    lit.var.shape.offset + lit.var.shape.volume ≤ len

/-- The wellformedness a solver acquires from the `Solver::add_*`
constructors. -/
def WfSolver (s : Solver) : Prop :=
  s.state.assignment.Wf ∧ ∀ cla ∈ s.clauses, WfClause s.state.assignment.len cla

/-- The clause-side value of cell `i` after `Clause::evaluate`: the fold of
the signed literal values at the positions decoded from the cell index. -/
def cellEval (c : Clause) (st : State) (i : Nat) : Nat :=
  c.literals.foldl (fun a lit =>
    (if lit.sign then FOLD_POS else FOLD_NEG).of a
      (st.assignment.get (lit.position ((coordsAux c.shape.lengths i).1)))) EVAL_FALSE

/-! ### Assignment evolution: assigned cells are stable -/

/-- `st'` extends `st`: same length and every non-UNDEF cell keeps its
value. All state changes of the solver (`State::assign`) only turn UNDEF
cells into TRUE or FALSE. -/
def Extends (st st' : State) : Prop :=
  st'.assignment.len = st.assignment.len ∧
  ∀ p, st.assignment.get p ≠ BOOL_UNDEF → st'.assignment.get p = st.assignment.get p

/-! ### The round-robin loop invariant of `Solver::propagate` -/

/-- The invariant of the `num`/`res`/`idx` loop of `Solver::propagate`: the
wellformedness of the state and clauses, the bounds of the counters, and the
"counted quiet" bookkeeping: the `num` most recently visited clauses (at
positions `(idx + len - num + t) % len`) are stored in evaluated form
against the current state, have status TRUE or UNDEF, and `res` is the
`EVAL_AND` fold of their statuses in visit order. -/
def LoopInv (len num res idx : Nat) (clauses : List Clause) (st : State) : Prop :=
  st.assignment.Wf ∧ st.assignment.len = len ∧
  (∀ cla ∈ clauses, WfClause len cla) ∧
  num ≤ clauses.length ∧ idx ≤ clauses.length ∧
  (∀ t, t < num →
    (clauses.getD ((idx + clauses.length - num + t) % clauses.length) default)
      = (clauses.getD ((idx + clauses.length - num + t) % clauses.length)
          default).evaluate st ∧
    2 ≤ (clauses.getD ((idx + clauses.length - num + t) % clauses.length)
          default).get_status) ∧
  res = (List.range num).foldl (fun r t => EVAL_AND.of r
    ((clauses.getD ((idx + clauses.length - num + t) % clauses.length)
      default).get_status)) EVAL_TRUE

/-- The trail invariant: wellformed buffer, in-range and duplicate-free
trail, trail membership equivalent to a non-UNDEF value, no MISSING values,
and a sorted in-range level stack. -/
def StateInv (s : State) : Prop :=
  s.assignment.Wf ∧
  (∀ st ∈ s.steps, st.bvar < s.assignment.len) ∧
  (s.steps.map Step.bvar).Nodup ∧
  (∀ p, p < s.assignment.len →
    ((∃ st ∈ s.steps, st.bvar = p) ↔ s.assignment.get p ≠ BOOL_UNDEF)) ∧
  (∀ p, p < s.assignment.len → s.assignment.get p ≠ BOOL_MISSING) ∧
  (∀ lvl ∈ s.levels, lvl < s.steps.length) ∧
  s.levels.Pairwise (fun a b => a < b)

/-- The states reachable by the public `State` operations. -/
inductive Reachable : State → Prop
  | empty : Reachable State.empty
  | create_table (s : State) (sizes : List Nat) :
      Reachable s → Reachable (s.create_table sizes).2
  | assign (s s2 : State) (pos : Nat) (sign : Bool) (reason : List Nat) :
      Reachable s → s.assign pos sign reason = some s2 → Reachable s2
  | make_decision (s : State) : Reachable s → Reachable (s.make_decision).2
  | next_decision (s : State) : Reachable s → Reachable (s.next_decision).2

/-! ### Fiber characterisation of `Exist::get_status` -/

/-- The fiber status as the (corrected) specification words it: TRUE when
some cell is TRUE, otherwise keyed by the number of UNDEF cells (zero →
FALSE, one → UNIT, more → UNDEF). This definition follows the natural
language description and is compared against the code's `foldFiber`. -/
def fiberSpecStatus (st : State) (pos block : Nat) : Nat :=
  if BOOL_TRUE ∈ (List.range block).map (fun i => st.assignment.get (pos + i))
  then EVAL_TRUE
  else if ((List.range block).map (fun i => st.assignment.get (pos + i))).countP
      (fun x => x == BOOL_UNDEF) = 0 then EVAL_FALSE
  else if ((List.range block).map (fun i => st.assignment.get (pos + i))).countP
      (fun x => x == BOOL_UNDEF) = 1 then EVAL_UNIT
  else EVAL_UNDEF

/-- On arguments `≤ 3` the packed `EVAL_AND` table is the minimum in the
order FALSE < UNIT < UNDEF < TRUE. -/
theorem evalAnd_eq_min : ∀ a < 4, ∀ b < 4, EVAL_AND.of a b = min a b := by decide

/-- The result of any packed binary table lookup is at most 3. -/
theorem Op222.of_le_three (op : Op222) (a b : Nat) : op.of a b ≤ 3 :=
  Nat.and_le_right

/-! Bit-level helper lemmas for `get`/`set`/`append`. -/

theorem and3_eq_of_testBit {a b : Nat} (h0 : a.testBit 0 = b.testBit 0)
    (h1 : a.testBit 1 = b.testBit 1) : a &&& 3 = b &&& 3 := by
  apply Nat.eq_of_testBit_eq
  intro i
  have h3 : (3 : Nat) = 2 ^ 2 - 1 := by norm_num
  rw [Nat.testBit_land, Nat.testBit_land, h3, Nat.testBit_two_pow_sub_one]
  match i with
  | 0 => simp [h0]
  | 1 => simp [h1]
  | i + 2 => simp

theorem extract2_eq {w1 w2 s : Nat} (h0 : w1.testBit s = w2.testBit s)
    (h1 : w1.testBit (s + 1) = w2.testBit (s + 1)) :
    (w1 >>> s) &&& 3 = (w2 >>> s) &&& 3 := by
  apply and3_eq_of_testBit
  · rw [Nat.testBit_shiftRight, Nat.testBit_shiftRight]
    simpa using h0
  · rw [Nat.testBit_shiftRight, Nat.testBit_shiftRight]
    exact h1

theorem testBit_comp32 {x i : Nat} (hi : i < 32) :
    (comp32 x).testBit i = !x.testBit i := by
  unfold comp32
  have h : (0xffffffff : Nat) = 2 ^ 32 - 1 := by norm_num
  rw [Nat.testBit_xor, h, Nat.testBit_two_pow_sub_one]
  simp [hi, Bool.xor_true]

theorem testBit_small {v i : Nat} (hv : v < 4) (hi : 2 ≤ i) : v.testBit i = false := by
  apply Nat.testBit_lt_two_pow
  calc v < 4 := hv
    _ ≤ 2 ^ i := by
        calc (4 : Nat) = 2 ^ 2 := by norm_num
          _ ≤ 2 ^ i := Nat.pow_le_pow_right (by norm_num) hi

theorem and3_small {v : Nat} (hv : v < 4) : v &&& 3 = v := by
  have : ∀ w < 4, w &&& 3 = w := by decide
  exact this v hv

theorem getD_set_self {l : List Nat} {i : Nat} (h : i < l.length) (a : Nat) :
    (l.set i a).getD i 0 = a := by
  rw [List.getD_eq_getElem?_getD, List.getElem?_set, if_pos rfl, if_pos h]
  rfl

theorem getD_set_ne {l : List Nat} {i j : Nat} (h : i ≠ j) (a : Nat) :
    (l.set i a).getD j 0 = l.getD j 0 := by
  rw [List.getD_eq_getElem?_getD, List.getElem?_set, if_neg h,
    ← List.getD_eq_getElem?_getD]

theorem getD_replicate {n i : Nat} (h : i < n) (a : Nat) :
    (List.replicate n a).getD i 0 = a := by
  rw [List.getD_eq_getElem?_getD, List.getElem?_replicate, if_pos h]
  rfl

/-- Bits of the word written by `Buffer2::set` outside the written cell. -/
theorem setword_testBit_ne {w v sh t : Nat} (hv : v < 4)
    (ht : t < 32) (hcell : t < sh ∨ sh + 2 ≤ t) :
    ((w &&& comp32 (3 <<< sh)) ||| (v <<< sh)).testBit t = w.testBit t := by
  rw [Nat.testBit_lor, Nat.testBit_land, testBit_comp32 ht,
    Nat.testBit_shiftLeft, Nat.testBit_shiftLeft]
  rcases hcell with h | h
  · have h1 : ¬(t ≥ sh) := by omega
    simp [h1]
  · have h1 : t ≥ sh := by omega
    have h2 : (3 : Nat).testBit (t - sh) = false := testBit_small (by norm_num) (by omega)
    have h3 : v.testBit (t - sh) = false := testBit_small hv (by omega)
    simp [h1, h2, h3]

/-- Bits of the tail word merged by `Buffer2::append`: below `2*m` they come
from the old word, above from the broadcast constant. -/
theorem mergeword_testBit {w fill m t : Nat} (ht : t < 32) :
    ((w &&& ((1 <<< (2 * m)) - 1)) ||| (fill &&& comp32 ((1 <<< (2 * m)) - 1))).testBit t
      = if t < 2 * m then w.testBit t else fill.testBit t := by
  have hmask : ((1 <<< (2 * m)) - 1 : Nat) = 2 ^ (2 * m) - 1 := by
    rw [Nat.shiftLeft_eq, one_mul]
  rw [Nat.testBit_lor, Nat.testBit_land, Nat.testBit_land, testBit_comp32 ht,
    hmask, Nat.testBit_two_pow_sub_one]
  by_cases h : t < 2 * m
  · simp [h]
  · simp [h]

/-- Broadcast property of the `FILL` constants: every cell of the broadcast
word for `v` holds `v`. -/
theorem fill_broadcast : ∀ v < 4, ∀ j < 16,
    ((Buffer2.FILL.getD v 0) >>> (2 * j)) &&& 3 = v := by decide

theorem Buffer2.len_set (b : Buffer2) (p v : Nat) : (b.set p v).len = b.len := rfl

theorem Buffer2.data_length_set (b : Buffer2) (p v : Nat) :
    (b.set p v).data.length = b.data.length := List.length_set ..

theorem Buffer2.wf_set {b : Buffer2} (hb : b.Wf) (p v : Nat) : (b.set p v).Wf := by
  unfold Buffer2.Wf at *
  rw [Buffer2.data_length_set, Buffer2.len_set, hb]

theorem Buffer2.get_le_three (b : Buffer2) (p : Nat) : b.get p ≤ 3 :=
  Nat.and_le_right

theorem Buffer2.get_lt_four (b : Buffer2) (p : Nat) : b.get p < 4 :=
  Nat.lt_succ_of_le (b.get_le_three p)

theorem Buffer2.get_set_same {b : Buffer2} {p v : Nat}
    (hw : p / 16 < b.data.length) (hv : v < 4) : (b.set p v).get p = v := by
  have hm : p % 16 < 16 := Nat.mod_lt _ (by norm_num)
  show ((b.data.set (p / 16) _).getD (p / 16) 0 >>> (2 * (p % 16))) &&& 3 = v
  rw [getD_set_self hw]
  have hb : ∀ j, j < 2 →
      (((b.data.getD (p / 16) 0 &&& comp32 (3 <<< (2 * (p % 16)))) |||
        (v <<< (2 * (p % 16)))) >>> (2 * (p % 16))).testBit j = v.testBit j := by
    intro j hj
    rw [Nat.testBit_shiftRight, Nat.testBit_lor, Nat.testBit_land,
      testBit_comp32 (by omega), Nat.testBit_shiftLeft, Nat.testBit_shiftLeft]
    have h1 : 2 * (p % 16) + j - 2 * (p % 16) = j := by omega
    have h2 : (3 : Nat).testBit j = true := by
      rcases j with _ | j
      · decide
      · rcases j with _ | j
        · decide
        · omega
    rw [h1, h2]
    simp [Nat.le_add_right]
  have h3 := and3_eq_of_testBit (hb 0 (by norm_num)) (hb 1 (by norm_num))
  rw [h3, and3_small hv]

theorem Buffer2.get_set_ne {b : Buffer2} {p q v : Nat} (hv : v < 4)
    (hne : q ≠ p) : (b.set p v).get q = b.get q := by
  by_cases hw : p / 16 = q / 16
  · by_cases hlen : p / 16 < b.data.length
    · have hcellne : q % 16 ≠ p % 16 := by omega
      show ((b.data.set (p / 16) _).getD (q / 16) 0 >>> (2 * (q % 16))) &&& 3 = _
      rw [← hw, getD_set_self hlen]
      have hqm : q % 16 < 16 := Nat.mod_lt _ (by norm_num)
      have ht : ∀ t, t = 2 * (q % 16) ∨ t = 2 * (q % 16) + 1 →
          ((b.data.getD (p / 16) 0 &&& comp32 (3 <<< (2 * (p % 16)))) |||
            (v <<< (2 * (p % 16)))).testBit t = (b.data.getD (p / 16) 0).testBit t := by
        intro t htt
        apply setword_testBit_ne hv (by omega)
        have hpm : p % 16 < 16 := Nat.mod_lt _ (by norm_num)
        omega
      have h3 := extract2_eq (ht _ (Or.inl rfl)) (ht _ (Or.inr rfl))
      rw [h3]
      show _ = (b.data.getD (q / 16) 0 >>> (2 * (q % 16))) &&& 3
      rw [← hw]
    · have h4 : b.data.set (p / 16) ((b.data.getD (p / 16) 0 &&&
          comp32 (3 <<< (2 * (p % 16)))) ||| (v <<< (2 * (p % 16)))) = b.data :=
        List.set_eq_of_length_le (by omega)
      show ((b.data.set (p / 16) _).getD (q / 16) 0 >>> (2 * (q % 16))) &&& 3 = _
      rw [h4]
      rfl
  · show ((b.data.set (p / 16) _).getD (q / 16) 0 >>> (2 * (q % 16))) &&& 3 = _
    rw [getD_set_ne hw]
    rfl

theorem Buffer2.len_append (b : Buffer2) (n v : Nat) :
    (b.append n v).len = b.len + n := rfl

theorem Buffer2.mergeTail_length (b : Buffer2) (fill : Nat) :
    (b.mergeTail fill).length = b.data.length := by
  unfold Buffer2.mergeTail
  split
  · rw [List.length_set]
  · rfl

theorem Buffer2.mergeTail_pos {b : Buffer2} (h : b.len % 16 ≠ 0) (fill : Nat) :
    b.mergeTail fill = b.data.set (b.data.length - 1)
      ((b.data.getD (b.data.length - 1) 0 &&& ((1 <<< (2 * (b.len % 16))) - 1)) |||
        (fill &&& comp32 ((1 <<< (2 * (b.len % 16))) - 1))) := by
  unfold Buffer2.mergeTail
  rw [if_pos h]

theorem Buffer2.mergeTail_neg {b : Buffer2} (h : ¬b.len % 16 ≠ 0) (fill : Nat) :
    b.mergeTail fill = b.data := by
  unfold Buffer2.mergeTail
  rw [if_neg h]

theorem Buffer2.append_data (b : Buffer2) (n v : Nat) :
    (b.append n v).data = b.mergeTail (Buffer2.FILL.getD v 0) ++
      List.replicate ((b.len + n + 15) / 16 -
        (b.mergeTail (Buffer2.FILL.getD v 0)).length) (Buffer2.FILL.getD v 0) := rfl

theorem Buffer2.wf_append {b : Buffer2} (hb : b.Wf) (n v : Nat) :
    (b.append n v).Wf := by
  unfold Buffer2.Wf at *
  rw [Buffer2.len_append, Buffer2.append_data, List.length_append,
    List.length_replicate, Buffer2.mergeTail_length]
  omega

theorem Buffer2.get_append_old {b : Buffer2} (hb : b.Wf) {p : Nat}
    (hp : p < b.len) (n v : Nat) : (b.append n v).get p = b.get p := by
  unfold Buffer2.Wf at hb
  have hplen : p / 16 < b.data.length := by omega
  unfold Buffer2.get
  rw [Buffer2.append_data,
    List.getD_append _ _ _ _ (by rw [Buffer2.mergeTail_length]; exact hplen)]
  by_cases h : b.len % 16 ≠ 0
  · rw [Buffer2.mergeTail_pos h]
    by_cases hlast : p / 16 = b.data.length - 1
    · rw [hlast, getD_set_self (by omega)]
      have hq : ∀ t, t = 2 * (p % 16) ∨ t = 2 * (p % 16) + 1 →
          ((b.data.getD (b.data.length - 1) 0 &&& ((1 <<< (2 * (b.len % 16))) - 1)) |||
            (Buffer2.FILL.getD v 0 &&& comp32 ((1 <<< (2 * (b.len % 16))) - 1))).testBit t
          = (b.data.getD (b.data.length - 1) 0).testBit t := by
        intro t htt
        have hpm : p % 16 < 16 := Nat.mod_lt _ (by norm_num)
        have hcell : p % 16 < b.len % 16 := by omega
        rw [mergeword_testBit (by omega), if_pos (by omega)]
      have h3 := extract2_eq (hq _ (Or.inl rfl)) (hq _ (Or.inr rfl))
      rw [h3]
    · rw [getD_set_ne (fun hx => hlast hx.symm)]
  · rw [Buffer2.mergeTail_neg h]

theorem Buffer2.get_append_new {b : Buffer2} (hb : b.Wf) {p n v : Nat}
    (hv : v < 4) (hp1 : b.len ≤ p) (hp2 : p < b.len + n) :
    (b.append n v).get p = v := by
  unfold Buffer2.Wf at hb
  have hpm : p % 16 < 16 := Nat.mod_lt _ (by norm_num)
  unfold Buffer2.get
  rw [Buffer2.append_data]
  by_cases h : b.len % 16 ≠ 0
  · by_cases hlast : p / 16 < b.data.length
    · have hl2 : p / 16 = b.data.length - 1 := by omega
      rw [List.getD_append _ _ _ _ (by rw [Buffer2.mergeTail_length]; exact hlast),
        Buffer2.mergeTail_pos h, hl2, getD_set_self (by omega)]
      have hq : ∀ t, t = 2 * (p % 16) ∨ t = 2 * (p % 16) + 1 →
          ((b.data.getD (b.data.length - 1) 0 &&& ((1 <<< (2 * (b.len % 16))) - 1)) |||
            (Buffer2.FILL.getD v 0 &&& comp32 ((1 <<< (2 * (b.len % 16))) - 1))).testBit t
          = (Buffer2.FILL.getD v 0).testBit t := by
        intro t htt
        have hcell : b.len % 16 ≤ p % 16 := by omega
        rw [mergeword_testBit (by omega), if_neg (by omega)]
      have h3 := extract2_eq (hq _ (Or.inl rfl)) (hq _ (Or.inr rfl))
      rw [h3]
      exact fill_broadcast v hv (p % 16) hpm
    · rw [List.getD_append_right _ _ _ _ (by rw [Buffer2.mergeTail_length]; omega),
        Buffer2.mergeTail_length, getD_replicate (by omega)]
      exact fill_broadcast v hv (p % 16) hpm
  · rw [List.getD_append_right _ _ _ _ (by rw [Buffer2.mergeTail_length]; omega),
      Buffer2.mergeTail_length, getD_replicate (by omega)]
    exact fill_broadcast v hv (p % 16) hpm

theorem Buffer2.len_fill (b : Buffer2) (v : Nat) : (b.fill v).len = b.len := rfl

theorem Buffer2.wf_fill {b : Buffer2} (hb : b.Wf) (v : Nat) : (b.fill v).Wf := by
  unfold Buffer2.Wf at *
  show (List.replicate b.data.length _).length = _
  rw [List.length_replicate]
  exact hb

theorem Buffer2.get_fill {b : Buffer2} (hb : b.Wf) {p : Nat} (hp : p < b.len)
    {v : Nat} (hv : v < 4) : (b.fill v).get p = v := by
  unfold Buffer2.Wf at hb
  show ((List.replicate b.data.length _).getD (p / 16) 0 >>> (2 * (p % 16))) &&& 3 = v
  rw [getD_replicate (by omega)]
  exact fill_broadcast v hv (p % 16) (Nat.mod_lt _ (by norm_num))

theorem Buffer2.len_new (n v : Nat) : (Buffer2.new n v).len = n := rfl

theorem Buffer2.wf_new (n v : Nat) : (Buffer2.new n v).Wf := by
  show (List.replicate ((n + 15) / 16) _).length = _
  rw [List.length_replicate]
  rfl

theorem Buffer2.get_new {n v p : Nat} (hv : v < 4) (hp : p < n) :
    (Buffer2.new n v).get p = v := by
  show ((List.replicate ((n + 15) / 16) _).getD (p / 16) 0 >>> (2 * (p % 16))) &&& 3 = v
  rw [getD_replicate (by omega)]
  exact fill_broadcast v hv (p % 16) (Nat.mod_lt _ (by norm_num))

theorem Buffer2.set_oob {b : Buffer2} {pos v : Nat}
    (h : b.data.length ≤ pos / 16) : b.set pos v = b := by
  unfold Buffer2.set
  rw [List.set_eq_of_length_le h]

theorem countP_lt_of_pointwise {l : List Nat} {p q : Nat → Bool}
    (hpq : ∀ a ∈ l, p a = true → q a = true) {x : Nat} (hx : x ∈ l)
    (hqx : q x = true) (hpx : p x = false) : l.countP p < l.countP q := by
  induction l with
  | nil => cases hx
  | cons a t ih =>
    rw [List.countP_cons, List.countP_cons]
    rcases List.mem_cons.mp hx with rfl | hxt
    · have hle : t.countP p ≤ t.countP q :=
        List.countP_mono_left (fun y hy hpy => hpq y (List.mem_cons_of_mem _ hy) hpy)
      rw [hpx, hqx]
      simp only [Bool.false_eq_true, if_false, if_pos]
      omega
    · have hih := ih (fun y hy hpy => hpq y (List.mem_cons_of_mem _ hy) hpy) hxt
      have hhead : (if p a = true then 1 else 0) ≤ (if q a = true then 1 else 0) := by
        by_cases hpa : p a = true
        · rw [if_pos hpa, if_pos (hpq a (List.mem_cons_self a t) hpa)]
        · rw [if_neg hpa]
          split <;> omega
      omega

theorem Buffer2.undefCount_set_le {b : Buffer2} {pos v : Nat} (hv : v < 4)
    (hvne : v ≠ 1) : (b.set pos v).undefCount ≤ b.undefCount := by
  unfold Buffer2.undefCount
  rw [Buffer2.len_set]
  apply List.countP_mono_left
  intro i hi hp
  by_cases hip : i = pos
  · subst hip
    by_cases hlen : i / 16 < b.data.length
    · rw [Buffer2.get_set_same hlen hv] at hp
      exact absurd (beq_iff_eq.mp hp) hvne
    · rw [Buffer2.set_oob (by omega)] at hp
      exact hp
  · rw [Buffer2.get_set_ne hv hip] at hp
    exact hp

theorem Buffer2.undefCount_set_lt {b : Buffer2} {pos v : Nat} (hb : b.Wf)
    (hpos : pos < b.len) (hg : b.get pos = BOOL_UNDEF) (hv : v < 4)
    (hvne : v ≠ 1) : (b.set pos v).undefCount < b.undefCount := by
  unfold Buffer2.undefCount
  rw [Buffer2.len_set]
  have hlen : pos / 16 < b.data.length := by
    unfold Buffer2.Wf at hb
    omega
  apply countP_lt_of_pointwise (x := pos)
  · intro i hi hp
    by_cases hip : i = pos
    · subst hip
      rw [Buffer2.get_set_same hlen hv] at hp
      exact absurd (beq_iff_eq.mp hp) hvne
    · rw [Buffer2.get_set_ne hv hip] at hp
      exact hp
  · exact List.mem_range.mpr hpos
  · exact beq_iff_eq.mpr hg
  · rw [Buffer2.get_set_same hlen hv]
    exact beq_eq_false_iff_ne.mpr hvne

theorem enumPos_append (es : List (Nat × Nat)) (e : Nat × Nat) (idx : Nat) :
    enumPos (es ++ [e]) idx
      = (List.range e.1).flatMap (fun c => enumPos es (idx + c * e.2)) := by
  induction es generalizing idx with
  | nil =>
    simp only [List.nil_append, enumPos, List.flatMap_cons, List.flatMap_nil,
      List.append_nil]
    exact List.map_eq_flatMap (fun c => idx + c * e.2) (List.range e.1)
  | cons x rest ih =>
    show (enumPos (rest ++ [e]) idx).flatMap _ = _
    rw [ih, List.flatMap_assoc]
    rfl

theorem enumV_eq_enumPos (l : List (Nat × Nat)) (idx : Nat) :
    enumV l idx = enumPos l.reverse idx := by
  induction l generalizing idx with
  | nil => rfl
  | cons e t ih =>
    show (List.range e.1).flatMap (fun c => enumV t (idx + c * e.2))
      = enumPos ((e :: t).reverse) idx
    rw [List.reverse_cons, enumPos_append]
    exact List.flatMap_congr (fun c _ => ih _)

theorem enumPos_of_zero (es : List (Nat × Nat)) (idx : Nat) :
    (∃ e ∈ es, e.1 = 0) → enumPos es idx = [] := by
  induction es generalizing idx with
  | nil =>
    rintro ⟨e, he, _⟩
    exact absurd he (List.not_mem_nil e)
  | cons e t ih =>
    rintro ⟨x, hx, hx0⟩
    rcases List.mem_cons.mp hx with rfl | hxt
    · show (enumPos t idx).flatMap _ = []
      rw [hx0]
      simp
    · show (enumPos t idx).flatMap _ = []
      rw [ih idx ⟨x, hxt, hx0⟩]
      rfl

theorem enumPos_pos_head (es : List (Nat × Nat)) (idx : Nat) :
    (∀ e ∈ es, 0 < e.1) → ∃ tl, enumPos es idx = idx :: tl := by
  induction es generalizing idx with
  | nil => exact fun _ => ⟨[], rfl⟩
  | cons e t ih =>
    intro h
    obtain ⟨tl, htl⟩ := ih idx (fun x hx => h x (List.mem_cons_of_mem _ hx))
    have hd : 0 < e.1 := h e (List.mem_cons_self e t)
    obtain ⟨m, hm⟩ : ∃ m, e.1 = m + 1 := ⟨e.1 - 1, by omega⟩
    refine ⟨(List.map (fun c => idx + c * e.2) (List.map Nat.succ (List.range m))) ++
      tl.flatMap (fun base => (List.range e.1).map (fun c => base + c * e.2)), ?_⟩
    show (enumPos t idx).flatMap (fun base => (List.range e.1).map (fun c => base + c * e.2))
      = _
    rw [htl, List.flatMap_cons]
    nth_rewrite 1 [hm]
    rw [List.range_succ_eq_map, List.map_cons, Nat.zero_mul, Nat.add_zero]
    rfl

theorem length_flatMap_const {α : Type u} {β : Type v} (l : List α) (f : α → List β) (m : Nat)
    (h : ∀ a ∈ l, (f a).length = m) : (l.flatMap f).length = l.length * m := by
  induction l with
  | nil => simp
  | cons a t ih =>
    rw [List.flatMap_cons, List.length_append, h a (List.mem_cons_self a t),
      ih (fun x hx => h x (List.mem_cons_of_mem _ hx)), List.length_cons]
    ring

theorem length_enumPos (es : List (Nat × Nat)) (idx : Nat) :
    (enumPos es idx).length = (es.map Prod.fst).prod := by
  induction es generalizing idx with
  | nil => rfl
  | cons e t ih =>
    show ((enumPos t idx).flatMap _).length = _
    rw [length_flatMap_const _ _ e.1 (fun a _ => by rw [List.length_map, List.length_range]),
      ih idx, List.map_cons, List.prod_cons]
    ring

theorem suffixEnum_head (es : List (Nat × Nat × Nat)) (idx : Nat)
    (h : wfEntries es) : ∃ tl, suffixEnum es idx = idx :: tl := by
  induction es generalizing idx with
  | nil => exact ⟨[], rfl⟩
  | cons e t ih =>
    have hd : e.1 < e.2.1 := h e (List.mem_cons_self e t)
    obtain ⟨m, hm⟩ : ∃ m, e.2.1 - e.1 = m + 1 := ⟨e.2.1 - e.1 - 1, by omega⟩
    have heq : suffixEnum (e :: t) idx = idx ::
        (List.map (fun k => idx + k * e.2.2) (List.map Nat.succ (List.range m)) ++
          ((suffixEnum t (idx - e.1 * e.2.2)).tail).flatMap (fullSweep e.2.1 e.2.2)) := by
      show (List.range (e.2.1 - e.1)).map (fun k => idx + k * e.2.2) ++ _ = _
      rw [hm, List.range_succ_eq_map, List.map_cons, Nat.zero_mul, Nat.add_zero,
        List.cons_append]
    exact ⟨_, heq⟩

theorem nextAux_false (es : List (Nat × Nat × Nat)) (idx : Nat)
    (h : wfEntries es) (hf : (nextAux es idx).2.2 = false) :
    suffixEnum es idx = [idx] := by
  induction es generalizing idx with
  | nil => rfl
  | cons e t ih =>
    have hd : e.1 < e.2.1 := h e (List.mem_cons_self e t)
    by_cases hcd : e.2.1 ≤ e.1 + 1
    · have hbase : idx + e.2.2 - (e.1 + 1) * e.2.2 = idx - e.1 * e.2.2 := by
        rw [Nat.succ_mul]
        omega
      have hf2 : (nextAux t (idx - e.1 * e.2.2)).2.2 = false := by
        have : nextAux (e :: t) idx =
            ((0, e.2.1, e.2.2) :: (nextAux t (idx + e.2.2 - (e.1 + 1) * e.2.2)).1,
              (nextAux t (idx + e.2.2 - (e.1 + 1) * e.2.2)).2.1,
              (nextAux t (idx + e.2.2 - (e.1 + 1) * e.2.2)).2.2) := by
          show (if e.2.1 ≤ e.1 + 1 then _ else _) = _
          rw [if_pos hcd]
        rw [this, hbase] at hf
        exact hf
      have ht2 := ih (idx - e.1 * e.2.2) (fun x hx => h x (List.mem_cons_of_mem _ hx)) hf2
      show (List.range (e.2.1 - e.1)).map (fun k => idx + k * e.2.2) ++
        ((suffixEnum t (idx - e.1 * e.2.2)).tail).flatMap (fullSweep e.2.1 e.2.2) = [idx]
      rw [ht2]
      have h1 : e.2.1 - e.1 = 1 := by omega
      rw [h1]
      simp [List.range_succ]
    · have : (nextAux (e :: t) idx).2.2 = true := by
        show (if e.2.1 ≤ e.1 + 1 then _ else
          ((e.1 + 1, e.2.1, e.2.2) :: t, idx + e.2.2, true)).2.2 = true
        rw [if_neg hcd]
      rw [this] at hf
      cases hf

theorem nextAux_true (es : List (Nat × Nat × Nat)) (idx : Nat)
    (h : wfEntries es) (ht : (nextAux es idx).2.2 = true) :
    wfEntries (nextAux es idx).1 ∧
      suffixEnum es idx = idx :: suffixEnum (nextAux es idx).1 (nextAux es idx).2.1 := by
  induction es generalizing idx with
  | nil => cases ht
  | cons e t ih =>
    have hd : e.1 < e.2.1 := h e (List.mem_cons_self e t)
    by_cases hcd : e.2.1 ≤ e.1 + 1
    · have hc1 : e.1 + 1 = e.2.1 := by omega
      have hbase : idx + e.2.2 - (e.1 + 1) * e.2.2 = idx - e.1 * e.2.2 := by
        rw [Nat.succ_mul]
        omega
      have hform : nextAux (e :: t) idx =
          ((0, e.2.1, e.2.2) :: (nextAux t (idx - e.1 * e.2.2)).1,
            (nextAux t (idx - e.1 * e.2.2)).2.1,
            (nextAux t (idx - e.1 * e.2.2)).2.2) := by
        show (if e.2.1 ≤ e.1 + 1 then _ else _) = _
        rw [if_pos hcd, hbase]
      rw [hform] at ht ⊢
      have htr : (nextAux t (idx - e.1 * e.2.2)).2.2 = true := ht
      obtain ⟨hwf2, heq2⟩ := ih (idx - e.1 * e.2.2)
        (fun x hx => h x (List.mem_cons_of_mem _ hx)) htr
      constructor
      · intro x hx
        rcases List.mem_cons.mp hx with rfl | hx2
        · show (0 : Nat) < e.2.1
          omega
        · exact hwf2 x hx2
      · show (List.range (e.2.1 - e.1)).map (fun k => idx + k * e.2.2) ++
          ((suffixEnum t (idx - e.1 * e.2.2)).tail).flatMap (fullSweep e.2.1 e.2.2) = _
        rw [heq2]
        have h1 : e.2.1 - e.1 = 1 := by omega
        rw [h1]
        obtain ⟨tl, htl⟩ := suffixEnum_head (nextAux t (idx - e.1 * e.2.2)).1
          (nextAux t (idx - e.1 * e.2.2)).2.1 hwf2
        show [idx + 0 * e.2.2] ++
          (suffixEnum (nextAux t (idx - e.1 * e.2.2)).1
            (nextAux t (idx - e.1 * e.2.2)).2.1).flatMap (fullSweep e.2.1 e.2.2) = _
        rw [htl, Nat.zero_mul, Nat.add_zero]
        show idx :: (fullSweep e.2.1 e.2.2 _ ++ tl.flatMap _) = _
        have hrhs : suffixEnum ((0, e.2.1, e.2.2) :: (nextAux t (idx - e.1 * e.2.2)).1)
            (nextAux t (idx - e.1 * e.2.2)).2.1
            = (List.range (e.2.1 - 0)).map
                (fun k => (nextAux t (idx - e.1 * e.2.2)).2.1 + k * e.2.2) ++
              ((suffixEnum (nextAux t (idx - e.1 * e.2.2)).1
                ((nextAux t (idx - e.1 * e.2.2)).2.1 - 0 * e.2.2)).tail).flatMap
                (fullSweep e.2.1 e.2.2) := rfl
        rw [hrhs, Nat.zero_mul, Nat.sub_zero, Nat.sub_zero, htl]
        rfl
    · have hform : nextAux (e :: t) idx =
          ((e.1 + 1, e.2.1, e.2.2) :: t, idx + e.2.2, true) := by
        show (if e.2.1 ≤ e.1 + 1 then _ else _) = _
        rw [if_neg hcd]
      rw [hform]
      constructor
      · intro x hx
        rcases List.mem_cons.mp hx with rfl | hx2
        · show e.1 + 1 < e.2.1
          omega
        · exact h x (List.mem_cons_of_mem _ hx2)
      · show (List.range (e.2.1 - e.1)).map (fun k => idx + k * e.2.2) ++
          ((suffixEnum t (idx - e.1 * e.2.2)).tail).flatMap (fullSweep e.2.1 e.2.2)
          = idx :: ((List.range (e.2.1 - (e.1 + 1))).map (fun k => idx + e.2.2 + k * e.2.2) ++
            ((suffixEnum t (idx + e.2.2 - (e.1 + 1) * e.2.2)).tail).flatMap
              (fullSweep e.2.1 e.2.2))
        have hbase : idx + e.2.2 - (e.1 + 1) * e.2.2 = idx - e.1 * e.2.2 := by
          rw [Nat.succ_mul]
          omega
        rw [hbase]
        have hm : e.2.1 - e.1 = (e.2.1 - (e.1 + 1)) + 1 := by omega
        rw [hm, List.range_succ_eq_map, List.map_cons, Nat.zero_mul, Nat.add_zero,
          List.map_map, List.cons_append]
        have hmap : (List.map ((fun k => idx + k * e.2.2) ∘ Nat.succ)
            (List.range (e.2.1 - (e.1 + 1))))
            = List.map (fun k => idx + e.2.2 + k * e.2.2) (List.range (e.2.1 - (e.1 + 1))) := by
          apply List.map_congr_left
          intro k _
          show idx + (k + 1) * e.2.2 = idx + e.2.2 + k * e.2.2
          rw [Nat.succ_mul]
          omega
        rw [hmap]

theorem runIter_done (fuel : Nat) (it : ShapeIter) (h : it.done = true) :
    runIter fuel it = [] := by
  cases fuel with
  | zero => rfl
  | succ n =>
    show (match it.next with
      | none => []
      | some pit => pit.1 :: runIter n pit.2) = []
    rw [ShapeIter.next, if_pos h]

theorem runIter_spec (fuel : Nat) : ∀ es idx, wfEntries es →
    (suffixEnum es idx).length ≤ fuel →
    runIter fuel ⟨idx, es, false⟩ = suffixEnum es idx := by
  induction fuel with
  | zero =>
    intro es idx hwf hlen
    obtain ⟨tl, htl⟩ := suffixEnum_head es idx hwf
    rw [htl] at hlen
    simp at hlen
  | succ n ih =>
    intro es idx hwf hlen
    have hnext : ShapeIter.next ⟨idx, es, false⟩ =
        some (idx, ⟨(nextAux es idx).2.1, (nextAux es idx).1, !(nextAux es idx).2.2⟩) := by
      rw [ShapeIter.next]
      rfl
    show (match ShapeIter.next ⟨idx, es, false⟩ with
      | none => []
      | some pit => pit.1 :: runIter n pit.2) = _
    rw [hnext]
    by_cases hearly : (nextAux es idx).2.2 = true
    · obtain ⟨hwf2, heq⟩ := nextAux_true es idx hwf hearly
      rw [heq, hearly]
      show idx :: runIter n ⟨(nextAux es idx).2.1, (nextAux es idx).1, false⟩ = _
      have hlen2 : (suffixEnum (nextAux es idx).1 (nextAux es idx).2.1).length ≤ n := by
        rw [heq, List.length_cons] at hlen
        omega
      rw [ih _ _ hwf2 hlen2]
    · have hfalse : (nextAux es idx).2.2 = false := by
        cases hb : (nextAux es idx).2.2
        · rfl
        · exact absurd hb hearly
      rw [nextAux_false es idx hwf hfalse, hfalse]
      show idx :: runIter n ⟨(nextAux es idx).2.1, (nextAux es idx).1, true⟩ = [idx]
      rw [runIter_done n _ rfl]

theorem wfEntries_fresh {es : List (Nat × Nat)} (h : ∀ e ∈ es, 0 < e.1) :
    wfEntries (es.map (fun ds => (0, ds.1, ds.2))) := by
  intro x hx
  obtain ⟨e, he, rfl⟩ := List.mem_map.mp hx
  exact h e he

theorem suffixEnum_fresh (es : List (Nat × Nat)) (idx : Nat)
    (h : ∀ e ∈ es, 0 < e.1) :
    suffixEnum (es.map (fun ds => (0, ds.1, ds.2))) idx = enumPos es idx := by
  induction es generalizing idx with
  | nil => rfl
  | cons e t ih =>
    show (List.range (e.1 - 0)).map (fun k => idx + k * e.2) ++
      ((suffixEnum (t.map _) (idx - 0 * e.2)).tail).flatMap (fullSweep e.1 e.2)
      = (enumPos t idx).flatMap (fun base => (List.range e.1).map (fun c => base + c * e.2))
    rw [Nat.zero_mul, Nat.sub_zero, Nat.sub_zero,
      ih idx (fun x hx => h x (List.mem_cons_of_mem _ hx))]
    obtain ⟨tl, htl⟩ := enumPos_pos_head t idx (fun x hx => h x (List.mem_cons_of_mem _ hx))
    rw [htl, List.flatMap_cons]
    rfl

theorem foldl_mul_init (l : List Nat) (a : Nat) :
    l.foldl (fun x d => x * d) a = a * l.prod := by
  induction l generalizing a with
  | nil => exact (Nat.mul_one a).symm
  | cons d t ih =>
    show t.foldl _ (a * d) = _
    rw [ih (a * d), List.prod_cons, Nat.mul_assoc]

theorem collect_new (v : ShapeView) :
    (ShapeIter.new v).collect = enumPos v.strides.reverse v.offset := by
  by_cases hz : ∃ e ∈ v.strides.reverse, e.1 = 0
  · have hdone : (ShapeIter.new v).done = true := by
      show v.strides.reverse.any (fun ds => ds.1 == 0) = true
      rw [List.any_eq_true]
      obtain ⟨e, he, he0⟩ := hz
      exact ⟨e, he, beq_iff_eq.mpr he0⟩
    rw [ShapeIter.collect, runIter_done _ _ hdone, enumPos_of_zero _ _ hz]
  · have hpos : ∀ e ∈ v.strides.reverse, 0 < e.1 := by
      intro e he
      rcases Nat.eq_zero_or_pos e.1 with h0 | h1
      · exact absurd ⟨e, he, h0⟩ hz
      · exact h1
    have hdone : (ShapeIter.new v).done = false := by
      show v.strides.reverse.any (fun ds => ds.1 == 0) = false
      rw [List.any_eq_false]
      intro e he
      have := hpos e he
      simp only [beq_iff_eq]
      omega
    have hdone2 : (v.strides.reverse.any fun ds => ds.1 == 0) = false := hdone
    have hit : ShapeIter.new v =
        ⟨v.offset, v.strides.reverse.map (fun ds => (0, ds.1, ds.2)), false⟩ := by
      rw [ShapeIter.new, hdone2]
    rw [ShapeIter.collect, hit]
    have hfuel : (v.strides.reverse.map (fun ds => ((0 : Nat), ds.1, ds.2))).foldl
        (fun a e => a * e.2.1) 1 = (v.strides.reverse.map Prod.fst).prod := by
      rw [List.foldl_map]
      show v.strides.reverse.foldl (fun a ds => a * ds.1) 1 = _
      have : v.strides.reverse.foldl (fun a ds => a * ds.1) 1
          = (v.strides.reverse.map Prod.fst).foldl (fun x d => x * d) 1 := by
        rw [List.foldl_map]
      rw [this, foldl_mul_init, Nat.one_mul]
    show runIter _ ⟨v.offset, _, false⟩ = _
    rw [hfuel, ← suffixEnum_fresh v.strides.reverse v.offset hpos]
    apply runIter_spec
    · exact wfEntries_fresh hpos
    · rw [suffixEnum_fresh v.strides.reverse v.offset hpos, length_enumPos]
      omega

theorem resetAux_fresh (es : List (Nat × Nat × Nat)) (idx : Nat) (b : Bool)
    (h : ∀ e ∈ es, e.1 = 0) :
    resetAux es idx b = (es, idx, b || es.any (fun e => e.2.1 == 0)) := by
  induction es generalizing idx b with
  | nil => simp [resetAux]
  | cons e t ih =>
    have he0 : e.1 = 0 := h e (List.mem_cons_self e t)
    show ((0, e.2.1, e.2.2) :: (resetAux t (idx - e.1 * e.2.2) (b || (e.2.1 == 0))).1,
      (resetAux t (idx - e.1 * e.2.2) (b || (e.2.1 == 0))).2) = _
    rw [he0, Nat.zero_mul, Nat.sub_zero,
      ih idx (b || (e.2.1 == 0)) (fun x hx => h x (List.mem_cons_of_mem _ hx))]
    have hee : e = (0, e.2.1, e.2.2) := by
      rw [← he0]
    rw [List.any_cons, ← Bool.or_assoc, ← hee]

theorem reset_new (v : ShapeView) : (ShapeIter.new v).reset = ShapeIter.new v := by
  rw [ShapeIter.reset, ShapeIter.new]
  rw [resetAux_fresh _ _ _ (by
    intro e he
    obtain ⟨x, _, rfl⟩ := List.mem_map.mp he
    rfl)]
  have hany : ∀ l : List (Nat × Nat), (l.map (fun ds => ((0 : Nat), ds.1, ds.2))).any
      (fun e => e.2.1 == 0) = l.any (fun ds => ds.1 == 0) := by
    intro l
    induction l with
    | nil => rfl
    | cons x t ih => rw [List.map_cons, List.any_cons, List.any_cons, ih]
  rw [Bool.false_or, hany]

/-! ### Simplification preserves the enumerated positions -/

theorem range_mul_flatMap (a d : Nat) : List.range (a * d)
    = (List.range a).flatMap (fun c1 => (List.range d).map (fun c2 => c1 * d + c2)) := by
  induction a with
  | zero => simp
  | succ n ih =>
    rw [Nat.succ_mul, List.range_add, ih, List.range_succ, List.flatMap_append]
    congr 1
    rw [List.flatMap_cons, List.flatMap_nil, List.append_nil]

theorem enumV_merge (a d s : Nat) (rest : List (Nat × Nat)) (idx : Nat) :
    enumV ((a * d, s) :: rest) idx = enumV ((a, d * s) :: (d, s) :: rest) idx := by
  show (List.range (a * d)).flatMap (fun c => enumV rest (idx + c * s))
    = (List.range a).flatMap (fun c1 =>
        (List.range d).flatMap (fun c2 => enumV rest (idx + c1 * (d * s) + c2 * s)))
  rw [range_mul_flatMap, List.flatMap_assoc]
  apply List.flatMap_congr
  intro c1 _
  rw [List.flatMap_map]
  apply List.flatMap_congr
  intro c2 _
  have : idx + (c1 * d + c2) * s = idx + c1 * (d * s) + c2 * s := by ring
  rw [this]

theorem enumV_cons_zero (e : Nat × Nat) (rest : List (Nat × Nat)) (idx : Nat)
    (h : e.1 = 0) : enumV (e :: rest) idx = [] := by
  show (List.range e.1).flatMap _ = []
  rw [h]
  rfl

theorem enumV_simplifyList (l : List (Nat × Nat)) : ∀ (acc : Nat × Nat) (idx : Nat),
    enumV (simplifyList acc l) idx = enumV (acc :: l) idx := by
  induction l with
  | nil => intro acc idx; rfl
  | cons e rest ih =>
    intro acc idx
    show enumV (if e.1 = 0 then [(0, 0)] else
      if e.1 * e.2 = acc.2 then simplifyList (acc.1 * e.1, e.2) rest
      else acc :: simplifyList (e.1, e.2) rest) idx = _
    by_cases h0 : e.1 = 0
    · rw [if_pos h0]
      have hz : ∀ i : Nat, enumV (e :: rest) i = [] := fun i => enumV_cons_zero e rest i h0
      show enumV [(0, 0)] idx = enumV (acc :: e :: rest) idx
      have hlhs : enumV [(0, 0)] idx = [] := enumV_cons_zero (0, 0) [] idx rfl
      have hrhs : enumV (acc :: e :: rest) idx = [] := by
        show (List.range acc.1).flatMap (fun c => enumV (e :: rest) (idx + c * acc.2)) = []
        simp [hz]
      rw [hlhs, hrhs]
    · by_cases hm : e.1 * e.2 = acc.2
      · rw [if_neg h0, if_pos hm, ih (acc.1 * e.1, e.2) idx]
        have := enumV_merge acc.1 e.1 e.2 rest idx
        rw [this, hm]
      · rw [if_neg h0, if_neg hm]
        show (List.range acc.1).flatMap
          (fun c => enumV (simplifyList (e.1, e.2) rest) (idx + c * acc.2)) = _
        exact List.flatMap_congr (fun c _ => ih (e.1, e.2) _)

theorem enumV_simplify (v : ShapeView) (idx : Nat) :
    enumV v.simplify.strides idx = enumV v.strides idx := by
  match hv : v.strides with
  | [] =>
    rw [ShapeView.simplify, hv]
    show enumV v.strides idx = enumV [] idx
    rw [hv]
  | a :: rest =>
    have : v.simplify = ⟨simplifyList a rest, v.offset⟩ := by
      rw [ShapeView.simplify, hv]
    rw [this]
    exact enumV_simplifyList rest a idx

theorem dotStrides_cons (c : Nat) (cs : List Nat) (e : Nat × Nat) (l : List (Nat × Nat)) :
    dotStrides (c :: cs) (e :: l) = c * e.2 + dotStrides cs l := by
  unfold dotStrides
  rw [List.zip_cons_cons, List.map_cons, List.sum_cons]

theorem enumV_eq_map_allCoords (l : List (Nat × Nat)) (idx : Nat) :
    enumV l idx = (allCoords (l.map Prod.fst)).map (fun cs => idx + dotStrides cs l) := by
  induction l generalizing idx with
  | nil =>
    show [idx] = [idx + dotStrides [] []]
    rw [show dotStrides [] [] = 0 from rfl, Nat.add_zero]
  | cons e rest ih =>
    show (List.range e.1).flatMap (fun c => enumV rest (idx + c * e.2)) = _
    rw [show (e :: rest).map Prod.fst = e.1 :: rest.map Prod.fst from rfl]
    show _ = ((List.range e.1).flatMap
      (fun c => (allCoords (rest.map Prod.fst)).map (fun cs => c :: cs))).map _
    rw [List.map_flatMap]
    apply List.flatMap_congr
    intro c _
    rw [ih (idx + c * e.2), List.map_map]
    apply List.map_congr_left
    intro cs _
    show idx + c * e.2 + dotStrides cs rest = idx + dotStrides (c :: cs) (e :: rest)
    rw [dotStrides_cons]
    ring

theorem length_allCoords (L : List Nat) : (allCoords L).length = L.prod := by
  induction L with
  | nil => rfl
  | cons d rest ih =>
    show ((List.range d).flatMap _).length = _
    rw [length_flatMap_const _ _ (allCoords rest).length
      (fun c _ => List.length_map _ _), ih, List.length_range, List.prod_cons]

theorem getD_flatMap_range {β : Type u} (n m : Nat) (f : Nat → List β)
    (hm : ∀ c < n, (f c).length = m) (i : Nat) (hi : i < n * m) (dflt : β) :
    ((List.range n).flatMap f).getD i dflt = (f (i / m)).getD (i % m) dflt := by
  induction n generalizing i with
  | zero => omega
  | succ k ih =>
    rw [List.range_succ, List.flatMap_append]
    have hlen : ((List.range k).flatMap f).length = k * m :=
      (length_flatMap_const _ _ m (fun c hc =>
        hm c (by
          have := List.mem_range.mp hc
          omega))).trans (by rw [List.length_range])
    by_cases hik : i < k * m
    · rw [List.getD_append _ _ _ _ (by rw [hlen]; exact hik)]
      exact ih (fun c hc => hm c (by omega)) i hik
    · have hsm : (k + 1) * m = k * m + m := by ring
      have hmk : m * k = k * m := Nat.mul_comm m k
      have hmpos : 0 < m := by
        rcases Nat.eq_zero_or_pos m with h0 | h1
        · omega
        · exact h1
      rw [List.getD_append_right _ _ _ _ (by rw [hlen]; omega), hlen]
      have hflat : ([k] : List Nat).flatMap f = f k ++ [] := rfl
      rw [hflat, List.append_nil]
      obtain ⟨r, hr1, hr2⟩ : ∃ r, i = r + m * k ∧ r < m :=
        ⟨i - k * m, by omega, by omega⟩
      subst hr1
      rw [Nat.add_mul_div_left _ _ hmpos, Nat.add_mul_mod_self_left,
        Nat.div_eq_of_lt hr2, Nat.mod_eq_of_lt hr2, Nat.zero_add]
      have hsub : r + m * k - k * m = r := by omega
      rw [hsub]

theorem getD_map_lt {α : Type u} {β : Type v} (l : List α) (f : α → β) (j : Nat)
    (h : j < l.length) (d1 : β) (d2 : α) : (l.map f).getD j d1 = f (l.getD j d2) := by
  rw [List.getD_eq_getElem?_getD, List.getElem?_map, List.getD_eq_getElem?_getD,
    List.getElem?_eq_getElem h]
  rfl

theorem coordsAux_snd (L : List Nat) (p : Nat) : (coordsAux L p).2 = p / L.prod := by
  induction L generalizing p with
  | nil => exact (Nat.div_one p).symm
  | cons d rest ih =>
    show (coordsAux rest p).2 / d = p / (d :: rest).prod
    rw [ih p, Nat.div_div_eq_div_mul, List.prod_cons, Nat.mul_comm]

theorem coordsAux_length (L : List Nat) (p : Nat) :
    (coordsAux L p).1.length = L.length := by
  induction L generalizing p with
  | nil => rfl
  | cons d rest ih =>
    show ((coordsAux rest p).2 % d :: (coordsAux rest p).1).length = _
    rw [List.length_cons, ih p, List.length_cons]

theorem coordsAux_fst_mod (L : List Nat) (p : Nat) :
    (coordsAux L p).1 = (coordsAux L (p % L.prod)).1 := by
  induction L generalizing p with
  | nil => rfl
  | cons d rest ih =>
    show (coordsAux rest p).2 % d :: (coordsAux rest p).1
      = (coordsAux rest (p % (d :: rest).prod)).2 % d ::
        (coordsAux rest (p % (d :: rest).prod)).1
    have hprod : (d :: rest).prod = rest.prod * d := by
      rw [List.prod_cons, Nat.mul_comm]
    congr 1
    · rw [coordsAux_snd, coordsAux_snd, hprod, Nat.mod_mul_right_div_self,
        Nat.mod_mod_of_dvd _ (dvd_refl d)]
    · rw [ih p, ih (p % (d :: rest).prod), hprod,
        Nat.mod_mod_of_dvd _ (Dvd.intro d rfl)]

theorem pos_of_mul_pos_left {a b : Nat} (h : 0 < a * b) : 0 < a := by
  rcases Nat.eq_zero_or_pos a with h0 | h1
  · rw [h0, Nat.zero_mul] at h
    exact absurd h (lt_irrefl 0)
  · exact h1

theorem pos_of_mul_pos_right {a b : Nat} (h : 0 < a * b) : 0 < b := by
  rw [Nat.mul_comm] at h
  exact pos_of_mul_pos_left h

theorem coords_lt (L : List Nat) (p : Nat) (h : 0 < L.prod) :
    List.Forall₂ (fun c d => c < d) (coordsAux L p).1 L := by
  induction L generalizing p with
  | nil => exact List.Forall₂.nil
  | cons d rest ih =>
    rw [List.prod_cons] at h
    exact List.Forall₂.cons (Nat.mod_lt _ (pos_of_mul_pos_left h))
      (ih p (pos_of_mul_pos_right h))

theorem allCoords_getD (L : List Nat) : ∀ i, i < L.prod →
    (allCoords L).getD i [] = (coordsAux L i).1 := by
  induction L with
  | nil =>
    intro i hi
    have h0 : i = 0 := by
      simp only [List.prod_nil] at hi
      omega
    subst h0
    rfl
  | cons d rest ih =>
    intro i hi
    rw [List.prod_cons] at hi
    have hrpos : 0 < rest.prod := pos_of_mul_pos_right (a := d) (by omega)
    show ((List.range d).flatMap
      (fun c => (allCoords rest).map (fun cs => c :: cs))).getD i [] = _
    rw [getD_flatMap_range d rest.prod _
      (fun c _ => by rw [List.length_map, length_allCoords]) i (by omega) []]
    have hmod : i % rest.prod < (allCoords rest).length := by
      rw [length_allCoords]
      exact Nat.mod_lt _ hrpos
    rw [getD_map_lt _ _ _ hmod [] [], ih (i % rest.prod) (Nat.mod_lt _ hrpos)]
    show _ = (coordsAux rest i).2 % d :: (coordsAux rest i).1
    rw [coordsAux_snd, coordsAux_fst_mod rest i]
    have hdiv : i / rest.prod % d = i / rest.prod := by
      apply Nat.mod_eq_of_lt
      apply Nat.div_lt_of_lt_mul
      rw [Nat.mul_comm]
      exact hi
    rw [hdiv]

/-! ### Polymer views and the position function -/

theorem set_self_getD {α : Type u} (l : List α) (x : Nat) (d : α)
    (h : x < l.length) : l.set x (l.getD x d) = l := by
  apply List.ext_getElem?
  intro n
  rw [List.getElem?_set]
  by_cases hxn : x = n
  · subst hxn
    rw [if_pos rfl, if_pos h, List.getD_eq_getElem?_getD, List.getElem?_eq_getElem h]
    rfl
  · rw [if_neg hxn]

/-- One polymer fold step does not change the lengths components. -/
theorem fold_set_map_fst (pairs : List (Nat × Nat × Nat)) :
    ∀ init : List (Nat × Nat),
    (pairs.foldl (fun strides xe =>
      strides.set xe.1 ((strides.getD xe.1 (0, 0)).1, (strides.getD xe.1 (0, 0)).2 + xe.2.2))
      init).map Prod.fst = init.map Prod.fst := by
  induction pairs with
  | nil => intro init; rfl
  | cons p t ih =>
    intro init
    rw [List.foldl_cons, ih]
    by_cases hx : p.1 < init.length
    · rw [List.map_set]
      have hfst : (init.getD p.1 (0, 0)).1 = (init.map Prod.fst).getD p.1 0 :=
        (getD_map_lt init Prod.fst p.1 hx 0 (0, 0)).symm
      rw [hfst, set_self_getD _ _ _ (by rw [List.length_map]; exact hx)]
    · rw [List.set_eq_of_length_le (by omega)]

theorem dotStrides_set (cs : List Nat) : ∀ (l : List (Nat × Nat)) (x a s : Nat),
    x < cs.length → x < l.length →
    dotStrides cs (l.set x (a, (l.getD x (0, 0)).2 + s))
      = dotStrides cs l + cs.getD x 0 * s := by
  intro l x
  induction x generalizing cs l with
  | zero =>
    intro a s hc hl
    match cs, l, hc, hl with
    | c :: ct, e :: t, _, _ =>
      rw [List.set_cons_zero, dotStrides_cons, dotStrides_cons]
      have h1 : ((e :: t).getD 0 (0, 0)) = e := rfl
      have h2 : ((c :: ct).getD 0 0) = c := rfl
      rw [h1, h2]
      show c * (e.2 + s) + dotStrides ct t = c * e.2 + dotStrides ct t + c * s
      ring
  | succ x ih =>
    intro a s hc hl
    match cs, l, hc, hl with
    | c :: ct, e :: t, hc, hl =>
      rw [List.set_cons_succ, dotStrides_cons, dotStrides_cons]
      have hg : ((e :: t).getD (x + 1) (0, 0)) = t.getD x (0, 0) := rfl
      rw [hg] at *
      rw [ih ct t a s (by simpa using hc) (by simpa using hl)]
      show c * e.2 + (dotStrides ct t + ct.getD x 0 * s)
        = c * e.2 + dotStrides ct t + (c :: ct).getD (x + 1) 0 * s
      have : ((c :: ct).getD (x + 1) 0) = ct.getD x 0 := rfl
      rw [this]
      ring

theorem dotStrides_zero_strides (cs : List Nat) : ∀ L : List Nat,
    dotStrides cs (L.map (fun d => (d, 0))) = 0 := by
  induction cs with
  | nil => intro L; rfl
  | cons c ct ih =>
    intro L
    match L with
    | [] => rfl
    | d :: Lt =>
      show dotStrides (c :: ct) ((d, 0) :: Lt.map _) = 0
      rw [dotStrides_cons, ih Lt]
      ring

theorem polymer_fold_dot (cs : List Nat) (pairs : List (Nat × Nat × Nat)) :
    ∀ init : List (Nat × Nat),
    (∀ p ∈ pairs, p.1 < init.length ∧ p.1 < cs.length) →
    dotStrides cs (pairs.foldl (fun strides xe =>
      strides.set xe.1 ((strides.getD xe.1 (0, 0)).1, (strides.getD xe.1 (0, 0)).2 + xe.2.2))
      init)
      = dotStrides cs init + (pairs.map (fun xe => cs.getD xe.1 0 * xe.2.2)).sum := by
  induction pairs with
  | nil =>
    intro init _
    show dotStrides cs init = dotStrides cs init + 0
    rw [Nat.add_zero]
  | cons p t ih =>
    intro init h
    obtain ⟨h1, h2⟩ := h p (List.mem_cons_self p t)
    rw [List.foldl_cons, List.map_cons, List.sum_cons]
    rw [ih _ (fun q hq => by
      rw [List.length_set]
      exact h q (List.mem_cons_of_mem _ hq))]
    rw [dotStrides_set cs init p.1 _ p.2.2 h2 h1]
    ring

theorem viewStrides_snd (L : List Nat) : (viewStrides L).2 = L.prod := by
  induction L with
  | nil => rfl
  | cons d Lt ih =>
    show (viewStrides Lt).2 * d = (d :: Lt).prod
    rw [ih, List.prod_cons, Nat.mul_comm]

theorem viewStrides_fst (L : List Nat) : (viewStrides L).1.map Prod.fst = L := by
  induction L with
  | nil => rfl
  | cons d Lt ih =>
    show d :: (viewStrides Lt).1.map Prod.fst = d :: Lt
    rw [ih]

theorem viewStrides_length (L : List Nat) : (viewStrides L).1.length = L.length := by
  have := viewStrides_fst L
  calc (viewStrides L).1.length = ((viewStrides L).1.map Prod.fst).length :=
        (List.length_map _ _).symm
    _ = L.length := by rw [this]

theorem hornerAux (L : List Nat) : ∀ (cs : List Nat) (n : Nat), cs.length = L.length →
    (cs.zip L).foldl (fun n cd => n * cd.2 + cd.1) n
      = n * L.prod + dotStrides cs (viewStrides L).1 := by
  induction L with
  | nil =>
    intro cs n h
    match cs, h with
    | [], _ =>
      show n = n * 1 + 0
      ring
  | cons d Lt ih =>
    intro cs n h
    match cs, h with
    | c :: ct, h =>
      rw [List.zip_cons_cons, List.foldl_cons]
      rw [ih ct (n * d + c) (by simpa using h)]
      show (n * d + c) * Lt.prod + dotStrides ct (viewStrides Lt).1
        = n * (d :: Lt).prod + dotStrides (c :: ct) ((d, (viewStrides Lt).2) :: (viewStrides Lt).1)
      rw [dotStrides_cons, viewStrides_snd, List.prod_cons]
      ring

theorem Shape.position_eq (s : Shape) (cs : List Nat) (h : cs.length = s.lengths.length) :
    s.position cs = s.offset + dotStrides cs (viewStrides s.lengths).1 := by
  unfold Shape.position
  rw [hornerAux s.lengths cs 0 h, Nat.zero_mul, Nat.zero_add]

theorem dotStrides_lt {cs L : List Nat} (h : List.Forall₂ (fun c d => c < d) cs L) :
    dotStrides cs (viewStrides L).1 + 1 ≤ L.prod := by
  induction h with
  | nil =>
    show 0 + 1 ≤ 1
    omega
  | @cons c d ct Lt hcd htail ih =>
    show dotStrides (c :: ct) ((d, (viewStrides Lt).2) :: (viewStrides Lt).1) + 1 ≤ _
    rw [dotStrides_cons, viewStrides_snd, List.prod_cons]
    have h1 : c + 1 ≤ d := hcd
    calc c * Lt.prod + dotStrides ct (viewStrides Lt).1 + 1
        ≤ c * Lt.prod + Lt.prod := by omega
      _ = (c + 1) * Lt.prod := by ring
      _ ≤ d * Lt.prod := Nat.mul_le_mul_right _ h1

theorem dot_map_axes (cs : List Nat) (axes : List Nat) : ∀ orig : List (Nat × Nat),
    ((axes.zip orig).map (fun xe => cs.getD xe.1 0 * xe.2.2)).sum
      = dotStrides (axes.map (fun a => cs.getD a 0)) orig := by
  induction axes with
  | nil => intro orig; rfl
  | cons a t ih =>
    intro orig
    match orig with
    | [] => rfl
    | e :: os =>
      rw [List.zip_cons_cons, List.map_cons, List.sum_cons, List.map_cons,
        dotStrides_cons, ih os]

theorem simplify_offset (v : ShapeView) : v.simplify.offset = v.offset := by
  rw [ShapeView.simplify]
  match v.strides with
  | [] => rfl
  | a :: rest => rfl

theorem simplify_strides (v : ShapeView) (idx : Nat) :
    enumV v.simplify.strides idx = enumV v.strides idx := enumV_simplify v idx

theorem polymer_strides_fst (v : ShapeView) (sh : Shape) (mp : List Nat) :
    (v.polymer sh mp).strides.map Prod.fst = sh.lengths := by
  show ((mp.zip v.strides).foldl _ (sh.lengths.map (fun d => (d, 0)))).map Prod.fst = _
  rw [fold_set_map_fst, List.map_map]
  have hid : (Prod.fst ∘ fun d : Nat => (d, (0 : Nat))) = id := rfl
  rw [hid, List.map_id]

theorem Shape.volume_eq (s : Shape) : s.volume = s.lengths.prod := by
  unfold Shape.volume
  rw [foldl_mul_init, Nat.one_mul]

/-- The literal's precomputed iterator (`view`, `polymer`, `simplify`,
`positions` as in `Literal::new`) drains to the list of polymer positions of
all clause coordinate vectors in row-major order. -/
theorem literal_positions_eq (varShape clauseShape : Shape) (axes : List Nat) :
    (ShapeIter.new ((varShape.view.polymer clauseShape axes).simplify)).collect
      = (allCoords clauseShape.lengths).map
          (fun cs => varShape.offset +
            dotStrides cs (varShape.view.polymer clauseShape axes).strides) := by
  rw [collect_new, ← enumV_eq_enumPos, simplify_offset, enumV_simplify]
  have hoff : (varShape.view.polymer clauseShape axes).offset = varShape.offset := rfl
  rw [hoff, enumV_eq_map_allCoords, polymer_strides_fst]

theorem forall₂_getD {cs L : List Nat} (h : List.Forall₂ (fun c d => c < d) cs L) :
    ∀ j < cs.length, cs.getD j 0 < L.getD j 0 := by
  induction h with
  | nil =>
    intro j hj
    exact absurd hj (by simp)
  | @cons c d ct Lt hcd htail ih =>
    intro j hj
    match j with
    | 0 => exact hcd
    | j + 1 =>
      show ct.getD j 0 < Lt.getD j 0
      exact ih j (by simpa using hj)

theorem forall₂_map_of_getD {f : Nat → Nat} {axes L : List Nat}
    (hlen : axes.length = L.length)
    (h : ∀ k < axes.length, f (axes.getD k 0) < L.getD k 0) :
    List.Forall₂ (fun c d => c < d) (axes.map f) L := by
  induction axes generalizing L with
  | nil =>
    match L, hlen with
    | [], _ => exact List.Forall₂.nil
  | cons a t ih =>
    match L, hlen with
    | d :: Lt, hlen =>
      refine List.Forall₂.cons (h 0 (by simp)) (ih (by simpa using hlen) ?_)
      intro k hk
      exact h (k + 1) (by simpa using hk)

/-! ### Clause propagation: result, status, and state effects -/

theorem foldl_pair_fst {α : Type u} (l : List α) (f : Nat → α → Nat)
    (g : State → α → State) (a : Nat) (b : State) :
    (l.foldl (fun p x => (f p.1 x, g p.2 x)) (a, b)).1 = l.foldl f a := by
  induction l generalizing a b with
  | nil => rfl
  | cons x t ih => exact ih (f a x) (g b x)

theorem foldl_pair_snd {α : Type u} (l : List α) (f : Nat → α → Nat)
    (g : State → α → State) (a : Nat) (b : State) :
    (l.foldl (fun p x => (f p.1 x, g p.2 x)) (a, b)).2 = l.foldl g b := by
  induction l generalizing a b with
  | nil => rfl
  | cons x t ih => exact ih (f a x) (g b x)

/-- The result of `Clause::propagate` is exactly `Clause::get_status`: the
`EVAL_AND` fold of all the buffer cells. -/
theorem Clause.propagate_fst (c : Clause) (st : State) :
    (c.propagate st).1 = c.get_status :=
  foldl_pair_fst (List.range c.buffer.len)
    (fun res pos => EVAL_AND.of res (c.buffer.get pos)) c.propagateStep EVAL_TRUE st

theorem Clause.propagate_snd (c : Clause) (st : State) :
    (c.propagate st).2 = (List.range c.buffer.len).foldl c.propagateStep st :=
  foldl_pair_snd (List.range c.buffer.len)
    (fun res pos => EVAL_AND.of res (c.buffer.get pos)) c.propagateStep EVAL_TRUE st

theorem foldl_evalAnd_eq_min {α : Type u} (l : List α) (f : α → Nat)
    (hf : ∀ x ∈ l, f x ≤ 3) : ∀ e ≤ 3,
    l.foldl (fun r x => EVAL_AND.of r (f x)) e = l.foldl (fun r x => min r (f x)) e := by
  induction l with
  | nil => intro e _; rfl
  | cons a t ih =>
    intro e he
    show t.foldl _ (EVAL_AND.of e (f a)) = t.foldl _ (min e (f a))
    rw [evalAnd_eq_min e (by omega) (f a) (by
      have := hf a (List.mem_cons_self a t)
      omega)]
    exact ih (fun x hx => hf x (List.mem_cons_of_mem _ hx)) _ (by
      have := hf a (List.mem_cons_self a t)
      omega)

theorem foldl_min_le_init {α : Type u} (l : List α) (f : α → Nat) (e : Nat) :
    l.foldl (fun r x => min r (f x)) e ≤ e := by
  induction l generalizing e with
  | nil => exact Nat.le_refl e
  | cons a t ih => exact (ih (min e (f a))).trans (Nat.min_le_left _ _)

theorem foldl_min_le_elem {α : Type u} (l : List α) (f : α → Nat) (e : Nat) :
    ∀ x ∈ l, l.foldl (fun r y => min r (f y)) e ≤ f x := by
  induction l generalizing e with
  | nil => intro x hx; exact absurd hx (List.not_mem_nil x)
  | cons a t ih =>
    intro x hx
    rcases List.mem_cons.mp hx with rfl | hxt
    · exact (foldl_min_le_init t f _).trans (Nat.min_le_right _ _)
    · exact ih _ x hxt

theorem foldl_min_eq_or {α : Type u} (l : List α) (f : α → Nat) (e : Nat) :
    l.foldl (fun r x => min r (f x)) e = e ∨
      ∃ x ∈ l, l.foldl (fun r y => min r (f y)) e = f x := by
  induction l generalizing e with
  | nil => exact Or.inl rfl
  | cons a t ih =>
    rcases ih (min e (f a)) with h | ⟨x, hx, hfx⟩
    · rcases Nat.le_total e (f a) with hle | hle
      · exact Or.inl (by
          show t.foldl _ (min e (f a)) = e
          rw [h, Nat.min_eq_left hle])
      · exact Or.inr ⟨a, List.mem_cons_self a t, by
          show t.foldl _ (min e (f a)) = f a
          rw [h, Nat.min_eq_right hle]⟩
    · exact Or.inr ⟨x, List.mem_cons_of_mem _ hx, hfx⟩

theorem foldl_min_ge {α : Type u} (l : List α) (f : α → Nat) (v : Nat) :
    ∀ e, v ≤ e → (∀ x ∈ l, v ≤ f x) → v ≤ l.foldl (fun r x => min r (f x)) e := by
  induction l with
  | nil => intro e he _; exact he
  | cons a t ih =>
    intro e he hf
    exact ih _ (Nat.le_min.mpr ⟨he, hf a (List.mem_cons_self a t)⟩)
      (fun x hx => hf x (List.mem_cons_of_mem _ hx))

theorem foldl_min_zero_of_mem {α : Type u} (l : List α) (f : α → Nat) (e : Nat)
    {x : α} (hx : x ∈ l) (hfx : f x = 0) :
    l.foldl (fun r y => min r (f y)) e = 0 :=
  Nat.le_zero.mp (hfx ▸ foldl_min_le_elem l f e x hx)

/-- `get_status` as a minimum fold. -/
theorem Clause.get_status_min (c : Clause) : c.get_status
    = (List.range c.buffer.len).foldl (fun r p => min r (c.buffer.get p)) EVAL_TRUE :=
  foldl_evalAnd_eq_min _ _ (fun p _ => c.buffer.get_le_three p) EVAL_TRUE (by decide)

theorem Clause.get_status_le_three (c : Clause) : c.get_status ≤ 3 := by
  rw [Clause.get_status_min]
  exact (foldl_min_le_init _ _ _).trans (by decide)

/-- If the status is FALSE, some cell is FALSE. -/
theorem Clause.status_false_cell (c : Clause) (h : c.get_status = EVAL_FALSE) :
    ∃ p ∈ List.range c.buffer.len, c.buffer.get p = EVAL_FALSE := by
  rw [Clause.get_status_min] at h
  rcases foldl_min_eq_or (List.range c.buffer.len) (fun p => c.buffer.get p) EVAL_TRUE with
    he | ⟨p, hp, hfp⟩
  · rw [h] at he
    exact absurd he.symm (by decide)
  · exact ⟨p, hp, by rw [← hfp, h]⟩

/-- If the status is at least UNDEF, every cell is at least UNDEF. -/
theorem Clause.status_ge_cells (c : Clause) (h : 2 ≤ c.get_status) :
    ∀ p ∈ List.range c.buffer.len, 2 ≤ c.buffer.get p := by
  intro p hp
  rw [Clause.get_status_min] at h
  exact h.trans (foldl_min_le_elem _ _ _ p hp)

/-- Cells that are not UNIT trigger no state change. -/
theorem Clause.propagateStep_of_ne (c : Clause) (st : State) (pos : Nat)
    (h : c.buffer.get pos ≠ EVAL_UNIT) : c.propagateStep st pos = st := by
  unfold Clause.propagateStep
  rw [if_neg h]

/-- A clause whose status is at least UNDEF leaves the state unchanged. -/
theorem Clause.propagate_quiet (c : Clause) (st : State)
    (h : 2 ≤ (c.propagate st).1) : (c.propagate st).2 = st := by
  rw [Clause.propagate_fst] at h
  rw [Clause.propagate_snd]
  have hcells := c.status_ge_cells h
  have : ∀ l : List Nat, (∀ p ∈ l, 2 ≤ c.buffer.get p) →
      ∀ s : State, l.foldl c.propagateStep s = s := by
    intro l
    induction l with
    | nil => intro _ s; rfl
    | cons p t ih =>
      intro hl s
      show t.foldl c.propagateStep (c.propagateStep s p) = s
      rw [c.propagateStep_of_ne s p (by
        have h1 := hl p (List.mem_cons_self p t)
        show c.buffer.get p ≠ 1
        omega)]
      exact ih (fun q hq => hl q (List.mem_cons_of_mem _ hq)) s
  exact this _ hcells st

theorem State.assign_len {s s' : State} {pos : Nat} {sign : Bool} {reason : List Nat}
    (h : s.assign pos sign reason = some s') :
    s'.assignment.len = s.assignment.len := by
  unfold State.assign at h
  split at h
  · cases h
    rfl
  · cases h

theorem State.assign_wf {s s' : State} {pos : Nat} {sign : Bool} {reason : List Nat}
    (h : s.assign pos sign reason = some s') (hwf : s.assignment.Wf) :
    s'.assignment.Wf := by
  unfold State.assign at h
  split at h
  · cases h
    exact Buffer2.wf_set hwf _ _
  · cases h

theorem State.assign_undefCount_lt {s s' : State} {pos : Nat} {sign : Bool}
    {reason : List Nat} (h : s.assign pos sign reason = some s')
    (hwf : s.assignment.Wf) :
    s'.assignment.undefCount < s.assignment.undefCount := by
  unfold State.assign at h
  split at h
  · rename_i hcond
    cases h
    exact Buffer2.undefCount_set_lt hwf hcond.1 hcond.2
      (by split <;> decide) (by split <;> decide)
  · cases h

theorem assign_getD_effects (st : State) (p : Nat) (sg : Bool) (r : List Nat) :
    ((st.assign p sg r).getD st).assignment.undefCount ≤ st.assignment.undefCount ∧
    ((st.assign p sg r).getD st).assignment.len = st.assignment.len ∧
    (st.assignment.Wf → ((st.assign p sg r).getD st).assignment.Wf) := by
  unfold State.assign
  split
  · refine ⟨Buffer2.undefCount_set_le (by split <;> decide) (by split <;> decide),
      rfl, ?_⟩
    intro hwf
    exact Buffer2.wf_set hwf _ _
  · exact ⟨Nat.le_refl _, rfl, fun h => h⟩

theorem unitAssign_effects (st : State) (literals : List Literal)
    (coordinates : List Nat) :
    (unitAssign st literals coordinates).assignment.undefCount ≤
      st.assignment.undefCount ∧
    (unitAssign st literals coordinates).assignment.len = st.assignment.len ∧
    (st.assignment.Wf → (unitAssign st literals coordinates).assignment.Wf) := by
  unfold unitAssign
  split
  · exact assign_getD_effects st _ _ _
  · exact ⟨Nat.le_refl _, rfl, fun h => h⟩

/-- One propagation cell step never increases the UNDEF count, and
preserves the assignment length and wellformedness. -/
theorem Clause.propagateStep_effects (c : Clause) (st : State) (pos : Nat) :
    (c.propagateStep st pos).assignment.undefCount ≤ st.assignment.undefCount ∧
    (c.propagateStep st pos).assignment.len = st.assignment.len ∧
    (st.assignment.Wf → (c.propagateStep st pos).assignment.Wf) := by
  unfold Clause.propagateStep
  split
  · exact unitAssign_effects st _ _
  · exact ⟨Nat.le_refl _, rfl, fun h => h⟩

theorem foldl_propagateStep_effects (c : Clause) (l : List Nat) : ∀ st : State,
    (l.foldl c.propagateStep st).assignment.undefCount ≤ st.assignment.undefCount ∧
    (l.foldl c.propagateStep st).assignment.len = st.assignment.len ∧
    (st.assignment.Wf → (l.foldl c.propagateStep st).assignment.Wf) := by
  induction l with
  | nil => intro st; exact ⟨Nat.le_refl _, rfl, fun h => h⟩
  | cons p t ih =>
    intro st
    obtain ⟨h1, h2, h3⟩ := c.propagateStep_effects st p
    obtain ⟨h4, h5, h6⟩ := ih (c.propagateStep st p)
    exact ⟨h4.trans h1, h5.trans h2, fun h => h6 (h3 h)⟩

theorem foldl_propagateStep_id (c : Clause) (l : List Nat)
    (h : ∀ q ∈ l, c.buffer.get q ≠ EVAL_UNIT) : ∀ st : State,
    l.foldl c.propagateStep st = st := by
  induction l with
  | nil => intro st; rfl
  | cons p t ih =>
    intro st
    rw [List.foldl_cons, c.propagateStep_of_ne st p (h p (List.mem_cons_self p t))]
    exact ih (fun q hq => h q (List.mem_cons_of_mem _ hq)) st

/-! ### Buffer2.apply cell characterization -/

theorem applyAux_preserve (op : Op222) (other : Buffer2) (ps : List Nat) :
    ∀ (k : Nat) (b : Buffer2),
    ((ps.enumFrom k).foldl
      (fun acc ip => acc.set ip.1 (op.of (acc.get ip.1) (other.get ip.2))) b).len = b.len ∧
    ((ps.enumFrom k).foldl
      (fun acc ip => acc.set ip.1 (op.of (acc.get ip.1) (other.get ip.2))) b).data.length
      = b.data.length := by
  induction ps with
  | nil => intro k b; exact ⟨rfl, rfl⟩
  | cons p t ih =>
    intro k b
    obtain ⟨h1, h2⟩ := ih (k + 1) (b.set k (op.of (b.get k) (other.get p)))
    exact ⟨h1, h2.trans (Buffer2.data_length_set b _ _)⟩

theorem applyAux_get (op : Op222) (other : Buffer2) (ps : List Nat) :
    ∀ (k : Nat) (b : Buffer2), b.Wf → k + ps.length ≤ b.len →
    ∀ i < b.len,
    ((ps.enumFrom k).foldl
      (fun acc ip => acc.set ip.1 (op.of (acc.get ip.1) (other.get ip.2))) b).get i
      = if k ≤ i ∧ i < k + ps.length
        then op.of (b.get i) (other.get (ps.getD (i - k) 0)) else b.get i := by
  induction ps with
  | nil =>
    intro k b _ _ i _
    have h0 : ([] : List Nat).length = 0 := rfl
    rw [h0, if_neg (by omega)]
    rfl
  | cons p t ih =>
    intro k b hwf hk i hi
    have hklen : k < b.len := by
      have := List.length_cons p t
      omega
    have hv : op.of (b.get k) (other.get p) < 4 :=
      Nat.lt_succ_of_le (Op222.of_le_three op _ _)
    have hb1wf : (b.set k (op.of (b.get k) (other.get p))).Wf := Buffer2.wf_set hwf _ _
    have hb1len : (b.set k (op.of (b.get k) (other.get p))).len = b.len :=
      Buffer2.len_set b _ _
    show ((t.enumFrom (k + 1)).foldl _ (b.set k (op.of (b.get k) (other.get p)))).get i = _
    rw [ih (k + 1) _ hb1wf (by
      rw [hb1len]
      have := List.length_cons p t
      omega) i (by rw [hb1len]; exact hi)]
    by_cases hik : i = k
    · subst hik
      rw [if_neg (by omega), if_pos (by
        constructor
        · exact Nat.le_refl i
        · have := List.length_cons p t
          omega)]
      rw [Buffer2.get_set_same (by
        unfold Buffer2.Wf at hwf
        omega) hv]
      rw [Nat.sub_self]
      rfl
    · rw [Buffer2.get_set_ne hv hik]
      by_cases hrange : k + 1 ≤ i ∧ i < k + 1 + t.length
      · rw [if_pos hrange, if_pos (by
          have := List.length_cons p t
          omega)]
        have hgd : (p :: t).getD (i - k) 0 = t.getD (i - (k + 1)) 0 := by
          obtain ⟨m, hm⟩ : ∃ m, i - k = m + 1 := ⟨i - k - 1, by omega⟩
          rw [hm]
          have : i - (k + 1) = m := by omega
          rw [this]
          rfl
        rw [hgd]
      · rw [if_neg hrange, if_neg (by
          have := List.length_cons p t
          omega)]

theorem Buffer2.apply_len (b : Buffer2) (op : Op222) (other : Buffer2) (ps : List Nat) :
    (b.apply op other ps).len = b.len :=
  (applyAux_preserve op other ps 0 b).1

theorem Buffer2.apply_data_length (b : Buffer2) (op : Op222) (other : Buffer2)
    (ps : List Nat) : (b.apply op other ps).data.length = b.data.length :=
  (applyAux_preserve op other ps 0 b).2

theorem Buffer2.apply_wf {b : Buffer2} (hwf : b.Wf) (op : Op222) (other : Buffer2)
    (ps : List Nat) : (b.apply op other ps).Wf := by
  unfold Buffer2.Wf at *
  rw [Buffer2.apply_data_length, Buffer2.apply_len, hwf]

theorem Buffer2.apply_get {b : Buffer2} (hwf : b.Wf) (op : Op222) (other : Buffer2)
    {ps : List Nat} (hlen : ps.length = b.len) :
    ∀ i < b.len, (b.apply op other ps).get i = op.of (b.get i) (other.get (ps.getD i 0)) := by
  intro i hi
  show ((ps.enumFrom 0).foldl _ b).get i = _
  rw [applyAux_get op other ps 0 b hwf (by omega) i hi, if_pos (by omega)]
  rw [Nat.sub_zero]

/-! ### The literal iterator enumerates `position ∘ coordinates` -/

theorem getD_eq_of_mem {l : List Nat} {x : Nat} (hx : x ∈ l) :
    ∃ k < l.length, l.getD k 0 = x := by
  obtain ⟨k, hk, hval⟩ := List.getElem_of_mem hx
  refine ⟨k, hk, ?_⟩
  rw [List.getD_eq_getElem?_getD, List.getElem?_eq_getElem hk]
  exact hval

theorem literal_collect (lit : Literal) (claShape : Shape)
    (hpos : lit.positions
      = ShapeIter.new ((lit.var.shape.view.polymer claShape lit.axes).simplify)) :
    (lit.positions.reset).collect
      = (allCoords claShape.lengths).map
          (fun cs => lit.var.shape.offset +
            dotStrides cs (lit.var.shape.view.polymer claShape lit.axes).strides) := by
  rw [hpos, reset_new, literal_positions_eq]

theorem literal_collect_length (lit : Literal) (claShape : Shape)
    (hpos : lit.positions
      = ShapeIter.new ((lit.var.shape.view.polymer claShape lit.axes).simplify)) :
    ((lit.positions.reset).collect).length = claShape.lengths.prod := by
  rw [literal_collect lit claShape hpos, List.length_map, length_allCoords]

theorem literal_collect_getD (lit : Literal) (claShape : Shape)
    (hpos : lit.positions
      = ShapeIter.new ((lit.var.shape.view.polymer claShape lit.axes).simplify))
    (haxlen : lit.axes.length = lit.var.shape.lengths.length)
    (hax : ∀ k < lit.axes.length, lit.axes.getD k 0 < claShape.lengths.length)
    (i : Nat) (hi : i < claShape.lengths.prod) :
    ((lit.positions.reset).collect).getD i 0
      = lit.var.shape.position
          (lit.axes.map (fun a => ((coordsAux claShape.lengths i).1).getD a 0)) := by
  rw [literal_collect lit claShape hpos]
  rw [getD_map_lt _ _ i (by rw [length_allCoords]; exact hi) 0 []]
  rw [allCoords_getD _ i hi]
  rw [Shape.position_eq _ _ (by rw [List.length_map]; exact haxlen)]
  congr 1
  have hcslen : (coordsAux claShape.lengths i).1.length = claShape.lengths.length :=
    coordsAux_length _ _
  have hcond : ∀ p ∈ lit.axes.zip lit.var.shape.view.strides,
      p.1 < (claShape.lengths.map (fun d => (d, (0 : Nat)))).length ∧
      p.1 < (coordsAux claShape.lengths i).1.length := by
    intro p hp
    obtain ⟨hp1, _⟩ := List.of_mem_zip hp
    obtain ⟨k, hk, hkv⟩ := getD_eq_of_mem hp1
    have := hax k hk
    rw [hkv] at this
    rw [List.length_map, hcslen]
    exact ⟨this, this⟩
  show dotStrides _ ((lit.axes.zip lit.var.shape.view.strides).foldl _ _) = _
  rw [polymer_fold_dot _ _ _ hcond, dotStrides_zero_strides, Nat.zero_add,
    dot_map_axes]
  rfl

theorem literal_position_bound (lit : Literal) (claShape : Shape)
    (haxlen : lit.axes.length = lit.var.shape.lengths.length)
    (hax : ∀ k < lit.axes.length,
      lit.axes.getD k 0 < claShape.lengths.length ∧
      lit.var.shape.lengths.getD k 0 = claShape.lengths.getD (lit.axes.getD k 0) 0)
    (i : Nat) (hi : i < claShape.lengths.prod) :
    lit.position ((coordsAux claShape.lengths i).1)
      < lit.var.shape.offset + lit.var.shape.volume := by
  unfold Literal.position
  rw [Shape.position_eq _ _ (by rw [List.length_map]; exact haxlen)]
  have hprodpos : 0 < claShape.lengths.prod := by omega
  have hdigits := coords_lt claShape.lengths i hprodpos
  have hfa : List.Forall₂ (fun c d => c < d)
      (lit.axes.map (fun a => ((coordsAux claShape.lengths i).1).getD a 0))
      lit.var.shape.lengths := by
    apply forall₂_map_of_getD haxlen
    intro k hk
    obtain ⟨hb, he⟩ := hax k hk
    rw [he]
    apply forall₂_getD hdigits
    rw [coordsAux_length]
    exact hb
  have := dotStrides_lt hfa
  rw [Shape.volume_eq]
  omega

theorem eval_fold_preserve (st : State) (lits : List Literal) : ∀ b : Buffer2,
    (lits.foldl (fun bb lit => lit.evaluate st bb) b).len = b.len ∧
    (lits.foldl (fun bb lit => lit.evaluate st bb) b).data.length = b.data.length := by
  induction lits with
  | nil => intro b; exact ⟨rfl, rfl⟩
  | cons lit t ih =>
    intro b
    obtain ⟨h1, h2⟩ := ih (lit.evaluate st b)
    exact ⟨h1.trans (Buffer2.apply_len _ _ _ _), h2.trans (Buffer2.apply_data_length _ _ _ _)⟩

theorem eval_fold_get (st : State) (claShape : Shape) (lits : List Literal)
    (hlits : ∀ lit ∈ lits,
      lit.positions = ShapeIter.new ((lit.var.shape.view.polymer claShape lit.axes).simplify) ∧
      lit.axes.length = lit.var.shape.lengths.length ∧
      ∀ k < lit.axes.length, lit.axes.getD k 0 < claShape.lengths.length) :
    ∀ b : Buffer2, b.Wf → b.len = claShape.lengths.prod →
    ∀ i < b.len, (lits.foldl (fun bb lit => lit.evaluate st bb) b).get i
      = lits.foldl (fun a lit =>
          (if lit.sign then FOLD_POS else FOLD_NEG).of a
            (st.assignment.get (lit.position ((coordsAux claShape.lengths i).1))))
          (b.get i) := by
  induction lits with
  | nil => intro b _ _ i _; rfl
  | cons lit t ih =>
    intro b hwf hblen i hi
    obtain ⟨hpos, haxlen, hax⟩ := hlits lit (List.mem_cons_self lit t)
    have hpslen : ((lit.positions.reset).collect).length = b.len := by
      rw [literal_collect_length lit claShape hpos, hblen]
    have hb1wf : (lit.evaluate st b).Wf := Buffer2.apply_wf hwf _ _ _
    have hb1len : (lit.evaluate st b).len = b.len := Buffer2.apply_len _ _ _ _
    rw [List.foldl_cons, List.foldl_cons]
    rw [ih (fun l hl => hlits l (List.mem_cons_of_mem _ hl)) (lit.evaluate st b) hb1wf
      (hb1len.trans hblen) i (by rw [hb1len]; exact hi)]
    show t.foldl _ ((b.apply _ st.assignment _).get i) = _
    rw [Buffer2.apply_get hwf _ _ hpslen i hi]
    rw [literal_collect_getD lit claShape hpos haxlen hax i (by rw [← hblen]; exact hi)]
    rfl

/-- Cell `i` of the buffer after `Clause::evaluate` equals `cellEval`. -/
theorem Clause.evaluate_get (c : Clause) (st : State) {len : Nat}
    (hwf : WfClause len c) : ∀ i < c.buffer.len,
    (c.evaluate st).buffer.get i = cellEval c st i := by
  intro i hi
  obtain ⟨hoff, hblen, hbwf, hlits⟩ := hwf
  have hprod : c.shape.volume = c.shape.lengths.prod := Shape.volume_eq _
  have hfillwf : (c.buffer.fill EVAL_FALSE).Wf := Buffer2.wf_fill hbwf _
  have hfilllen : (c.buffer.fill EVAL_FALSE).len = c.buffer.len := rfl
  show (c.literals.foldl (fun bb lit => lit.evaluate st bb) (c.buffer.fill EVAL_FALSE)).get i
    = _
  rw [eval_fold_get st c.shape c.literals
    (fun lit hl => by
      obtain ⟨h1, h2, h3, _⟩ := hlits lit hl
      exact ⟨h3, h1, fun k hk => (h2 k hk).1⟩)
    (c.buffer.fill EVAL_FALSE) hfillwf (by rw [hfilllen, hblen, hprod]) i
    (by rw [hfilllen]; exact hi)]
  rw [Buffer2.get_fill hbwf hi (by decide)]
  rfl

theorem Clause.evaluate_buffer_len (c : Clause) (st : State) :
    (c.evaluate st).buffer.len = c.buffer.len :=
  (eval_fold_preserve st c.literals _).1

theorem Clause.evaluate_buffer_wf (c : Clause) (st : State) (h : c.buffer.Wf) :
    (c.evaluate st).buffer.Wf := by
  unfold Buffer2.Wf at *
  rw [Clause.evaluate_buffer_len]
  show (c.literals.foldl _ (c.buffer.fill EVAL_FALSE)).data.length = _
  rw [(eval_fold_preserve st c.literals _).2]
  show (List.replicate c.buffer.data.length _).length = _
  rw [List.length_replicate, h]

theorem Clause.evaluate_fields (c : Clause) (st : State) :
    (c.evaluate st).literals = c.literals ∧ (c.evaluate st).shape = c.shape ∧
    (c.evaluate st).domains = c.domains := ⟨rfl, rfl, rfl⟩

theorem Clause.evaluate_wf {len : Nat} (c : Clause) (st : State)
    (hwf : WfClause len c) : WfClause len (c.evaluate st) := by
  obtain ⟨h1, h2, h3, h4⟩ := hwf
  exact ⟨h1, (c.evaluate_buffer_len st).trans h2, c.evaluate_buffer_wf st h3, h4⟩

/-! ### Characterisation of FOLD_POS folds -/

theorem foldPos_of_true (l : List Nat) (hx : ∀ x ∈ l, x ≤ 3) :
    l.foldl (fun a b => FOLD_POS.of a b) 3 = 3 := by
  induction l with
  | nil => rfl
  | cons b t ih =>
    have hb := hx b (List.mem_cons_self b t)
    have h3 : ∀ b ≤ 3, FOLD_POS.of 3 b = 3 := by decide
    show t.foldl _ (FOLD_POS.of 3 b) = 3
    rw [h3 b hb]
    exact ih (fun x hxx => hx x (List.mem_cons_of_mem _ hxx))

theorem foldPos_mem_true (l : List Nat) (hx : ∀ x ∈ l, x ≤ 3) (h2 : 2 ∈ l) :
    ∀ e ≤ 3, l.foldl (fun a b => FOLD_POS.of a b) e = 3 := by
  induction l with
  | nil => exact absurd h2 (List.not_mem_nil 2)
  | cons b t ih =>
    intro e he
    have hb := hx b (List.mem_cons_self b t)
    show t.foldl _ (FOLD_POS.of e b) = 3
    rcases List.mem_cons.mp h2 with hb2 | h2t
    · have ht : ∀ e ≤ 3, FOLD_POS.of e 2 = 3 := by decide
      rw [← hb2, ht e he]
      exact foldPos_of_true t (fun x hxx => hx x (List.mem_cons_of_mem _ hxx))
    · exact ih (fun x hxx => hx x (List.mem_cons_of_mem _ hxx)) h2t _
        (Op222.of_le_three _ _ _)

theorem foldPos_no_true (l : List Nat) (hx : ∀ x ∈ l, x ≤ 3) (h2 : ¬2 ∈ l) :
    ∀ e ≤ 2, l.foldl (fun a b => FOLD_POS.of a b) e
      = min 2 (e + l.countP (fun x => x == 1)) := by
  induction l with
  | nil =>
    intro e he
    show e = min 2 (e + List.countP _ [])
    rw [List.countP_nil]
    omega
  | cons b t ih =>
    intro e he
    have hb := hx b (List.mem_cons_self b t)
    have hb2 : b ≠ 2 := fun hc => h2 (hc ▸ List.mem_cons_self b t)
    have h2t : ¬2 ∈ t := fun hc => h2 (List.mem_cons_of_mem _ hc)
    have ihr := ih (fun x hxx => hx x (List.mem_cons_of_mem _ hxx)) h2t
    show t.foldl _ (FOLD_POS.of e b) = min 2 (e + List.countP _ (b :: t))
    rw [List.countP_cons]
    interval_cases b
    · have hf : ∀ e ≤ 2, FOLD_POS.of e 0 = e := by decide
      rw [hf e he, ihr e he]
      simp
    · have hf : ∀ e ≤ 2, FOLD_POS.of e 1 = min 2 (e + 1) := by decide
      rw [hf e he, ihr _ (by omega)]
      simp only [show (((1 : Nat) == 1) = true) = True by simp, if_true]
      omega
    · exact absurd rfl hb2
    · have hf : ∀ e ≤ 2, FOLD_POS.of e 3 = e := by decide
      rw [hf e he, ihr e he]
      simp

theorem foldPos_unit_count (l : List Nat) (hx : ∀ x ∈ l, x ≤ 3)
    (h : l.foldl (fun a b => FOLD_POS.of a b) EVAL_FALSE = EVAL_UNIT) :
    l.countP (fun x => x == 1) = 1 := by
  by_cases h2 : 2 ∈ l
  · rw [foldPos_mem_true l hx h2 EVAL_FALSE (by decide)] at h
    exact absurd h (by decide)
  · rw [foldPos_no_true l hx h2 EVAL_FALSE (by decide)] at h
    have h0 : EVAL_FALSE = 0 := rfl
    have h1 : EVAL_UNIT = 1 := rfl
    rw [h0, h1] at h
    omega

/-- Conversion of the signed fold of a clause cell into a `FOLD_POS` fold
over the signed boolean values. -/
theorem sigma_fold_eq_svs (st : State) (coords : List Nat) (lits : List Literal) :
    ∀ e ≤ 3,
    lits.foldl (fun a lit => (if lit.sign then FOLD_POS else FOLD_NEG).of a
      (st.assignment.get (lit.position coords))) e
    = (lits.map (fun lit => if lit.sign then st.assignment.get (lit.position coords)
        else BOOL_NOT.of (st.assignment.get (lit.position coords)))).foldl
        (fun a b => FOLD_POS.of a b) e := by
  induction lits with
  | nil => intro e _; rfl
  | cons lit t ih =>
    intro e he
    rw [List.map_cons, List.foldl_cons, List.foldl_cons]
    have hneg : ∀ a ≤ 3, ∀ b ≤ 3, FOLD_NEG.of a b = FOLD_POS.of a (BOOL_NOT.of b) := by
      decide
    by_cases hs : lit.sign
    · rw [if_pos hs, if_pos hs]
      exact ih _ (Op222.of_le_three _ _ _)
    · rw [if_neg hs, if_neg hs,
        hneg e he _ (st.assignment.get_le_three _)]
      exact ih _ (Op222.of_le_three _ _ _)

/-- A UNIT cell of an evaluated clause has a literal whose position is
UNDEF in the assignment. -/
theorem unit_cell_exists_undef (c : Clause) (st : State) (i : Nat)
    (hcell : cellEval c st i = EVAL_UNIT) :
    ∃ lit ∈ c.literals,
      st.assignment.get (lit.position ((coordsAux c.shape.lengths i).1)) = BOOL_UNDEF := by
  unfold cellEval at hcell
  rw [sigma_fold_eq_svs st _ c.literals EVAL_FALSE (by decide)] at hcell
  set coords := (coordsAux c.shape.lengths i).1 with hcoords
  have hsv3 : ∀ x ∈ c.literals.map (fun lit => if lit.sign then
      st.assignment.get (lit.position coords)
      else BOOL_NOT.of (st.assignment.get (lit.position coords))), x ≤ 3 := by
    intro x hxx
    obtain ⟨lit, _, rfl⟩ := List.mem_map.mp hxx
    split
    · exact st.assignment.get_le_three _
    · exact Nat.and_le_right
  have hcount := foldPos_unit_count _ hsv3 hcell
  rw [List.countP_map] at hcount
  have hpos : 0 < c.literals.countP ((fun x => x == 1) ∘ (fun lit =>
      if lit.sign then st.assignment.get (lit.position coords)
      else BOOL_NOT.of (st.assignment.get (lit.position coords)))) := by omega
  obtain ⟨lit, hmem, hp⟩ := List.countP_pos_iff.mp hpos
  refine ⟨lit, hmem, ?_⟩
  have hraw := st.assignment.get_le_three (lit.position coords)
  have hconv : ∀ sg : Bool, ∀ r, r ≤ 3 →
      (((if sg then r else BOOL_NOT.of r) == 1) = true) → r = 1 := by
    intro sg r hr
    interval_cases r <;> cases sg <;> decide
  exact hconv lit.sign _ hraw hp

/-! ### The literal scan of `Clause::propagate` finds an undef literal -/

theorem scanLits_invariant (st : State) (coords : List Nat) (L : List Literal) :
    ∀ (lits : List Literal), (∀ lit ∈ lits, lit ∈ L) →
    ∀ acc : Nat × Option Bool × List Nat,
    ((∃ lit ∈ L, acc.1 = lit.position coords ∧
        st.assignment.get acc.1 = BOOL_UNDEF ∧ acc.2.1.isSome) ∨
      (∃ lit ∈ lits, st.assignment.get (lit.position coords) = BOOL_UNDEF)) →
    ∃ lit ∈ L,
      (lits.foldl (fun acc lit =>
        if st.assignment.get (lit.position coords) = BOOL_UNDEF
        then (lit.position coords, some lit.sign, acc.2.2)
        else (acc.1, acc.2.1, acc.2.2 ++ [lit.position coords])) acc).1
        = lit.position coords ∧
      st.assignment.get ((lits.foldl (fun acc lit =>
        if st.assignment.get (lit.position coords) = BOOL_UNDEF
        then (lit.position coords, some lit.sign, acc.2.2)
        else (acc.1, acc.2.1, acc.2.2 ++ [lit.position coords])) acc).1)
        = BOOL_UNDEF ∧
      ((lits.foldl (fun acc lit =>
        if st.assignment.get (lit.position coords) = BOOL_UNDEF
        then (lit.position coords, some lit.sign, acc.2.2)
        else (acc.1, acc.2.1, acc.2.2 ++ [lit.position coords])) acc).2.1).isSome := by
  intro lits
  induction lits with
  | nil =>
    intro _ acc hh
    rcases hh with ⟨lit, hmem, h1, h2, h3⟩ | ⟨lit, hmem, _⟩
    · exact ⟨lit, hmem, h1, h2, h3⟩
    · exact absurd hmem (List.not_mem_nil lit)
  | cons a t ih =>
    intro hsub acc hh
    rw [List.foldl_cons]
    by_cases ha : st.assignment.get (a.position coords) = BOOL_UNDEF
    · rw [if_pos ha]
      exact ih (fun lit hl => hsub lit (List.mem_cons_of_mem _ hl)) _
        (Or.inl ⟨a, hsub a (List.mem_cons_self a t), rfl, ha, rfl⟩)
    · rw [if_neg ha]
      refine ih (fun lit hl => hsub lit (List.mem_cons_of_mem _ hl)) _ ?_
      rcases hh with ⟨lit, hmem, h1, h2, h3⟩ | ⟨lit, hmem, hu⟩
      · exact Or.inl ⟨lit, hmem, h1, h2, h3⟩
      · rcases List.mem_cons.mp hmem with rfl | hmt
        · exact absurd hu ha
        · exact Or.inr ⟨lit, hmt, hu⟩

theorem scanLits_found (st : State) (lits : List Literal) (coords : List Nat)
    (h : ∃ lit ∈ lits, st.assignment.get (lit.position coords) = BOOL_UNDEF) :
    ∃ lit ∈ lits, (scanLits st lits coords).1 = lit.position coords ∧
      st.assignment.get ((scanLits st lits coords).1) = BOOL_UNDEF ∧
      ((scanLits st lits coords).2.1).isSome :=
  scanLits_invariant st coords lits lits (fun _ hl => hl) (0, none, []) (Or.inr h)

/-- When some literal of the cell is UNDEF and all literal positions are in
range, the unit assignment strictly decreases the number of UNDEF cells. -/
theorem unitAssign_decreases (st : State) (lits : List Literal)
    (coords : List Nat) (hwf : st.assignment.Wf)
    (hbound : ∀ lit ∈ lits, lit.position coords < st.assignment.len)
    (h : ∃ lit ∈ lits, st.assignment.get (lit.position coords) = BOOL_UNDEF) :
    (unitAssign st lits coords).assignment.undefCount
      < st.assignment.undefCount := by
  obtain ⟨lit, hmem, heq, hund, hsome⟩ := scanLits_found st lits coords h
  obtain ⟨sg, hsg⟩ := Option.isSome_iff_exists.mp hsome
  unfold unitAssign
  rw [hsg]
  show ((st.assign (scanLits st lits coords).1 sg
    (scanLits st lits coords).2.2).getD st).assignment.undefCount < _
  have hguard : (scanLits st lits coords).1 < st.assignment.len ∧
      st.assignment.get ((scanLits st lits coords).1) = BOOL_UNDEF :=
    ⟨heq ▸ hbound lit hmem, hund⟩
  have hassign : st.assign ((scanLits st lits coords).1) sg
      ((scanLits st lits coords).2.2)
      = some { st with
          assignment := st.assignment.set ((scanLits st lits coords).1)
            (if sg then BOOL_TRUE else BOOL_FALSE),
          steps := st.steps ++ [⟨(scanLits st lits coords).1,
            (scanLits st lits coords).2.2⟩] } := by
    unfold State.assign
    rw [if_pos hguard]
  rw [hassign]
  exact State.assign_undefCount_lt hassign hwf

/-- The key step of the termination argument: when the freshly evaluated
clause propagates to UNIT, the number of UNDEF assignment cells strictly
decreases. -/
theorem propagate_unit_decreases {len : Nat} (c : Clause) (st : State)
    (hwf : WfClause len c) (hswf : st.assignment.Wf)
    (hlen : st.assignment.len = len)
    (hstatus : ((c.evaluate st).propagate st).1 = EVAL_UNIT) :
    ((c.evaluate st).propagate st).2.assignment.undefCount
      < st.assignment.undefCount := by
  obtain ⟨hoff, hblen, hbwf, hlits⟩ := hwf
  rw [Clause.propagate_fst, Clause.get_status_min] at hstatus
  have hex : ∃ n, n < (c.evaluate st).buffer.len ∧
      (c.evaluate st).buffer.get n = EVAL_UNIT := by
    rcases foldl_min_eq_or (List.range (c.evaluate st).buffer.len)
        ((c.evaluate st).buffer.get) EVAL_TRUE with hcase | ⟨p, hp, hfp⟩
    · rw [hcase] at hstatus
      exact absurd hstatus (by decide)
    · rw [hfp] at hstatus
      exact ⟨p, List.mem_range.mp hp, hstatus⟩
  have hi := Nat.find_spec hex
  have hmin : ∀ q, q < Nat.find hex → ¬(q < (c.evaluate st).buffer.len ∧
      (c.evaluate st).buffer.get q = EVAL_UNIT) := fun q hq => Nat.find_min hex hq
  rw [Clause.propagate_snd]
  have hr : (c.evaluate st).buffer.len
      = Nat.find hex + ((c.evaluate st).buffer.len - Nat.find hex) := by omega
  rw [hr, List.range_add, List.foldl_append]
  have hpre : (List.range (Nat.find hex)).foldl (c.evaluate st).propagateStep st
      = st := by
    refine foldl_propagateStep_id _ _ (fun q hq => ?_) st
    have hqlt := List.mem_range.mp hq
    exact fun hcell => hmin q hqlt ⟨Nat.lt_trans hqlt hi.1, hcell⟩
  rw [hpre]
  have hk : (c.evaluate st).buffer.len - Nat.find hex
      = ((c.evaluate st).buffer.len - Nat.find hex - 1) + 1 := by omega
  rw [hk, List.range_succ_eq_map, List.map_cons, List.foldl_cons, Nat.add_zero]
  have hstep : (c.evaluate st).propagateStep st (Nat.find hex)
      = unitAssign st c.literals (c.shape.coordinates (Nat.find hex)) := by
    unfold Clause.propagateStep
    rw [if_pos hi.2]
    rfl
  have hilt : Nat.find hex < c.shape.lengths.prod := by
    have h1 : (c.evaluate st).buffer.len = c.buffer.len :=
      Clause.evaluate_buffer_len c st
    have h2 := Shape.volume_eq c.shape
    omega
  have hcoords : c.shape.coordinates (Nat.find hex)
      = (coordsAux c.shape.lengths (Nat.find hex)).1 := by
    unfold Shape.coordinates
    rw [hoff, Nat.sub_zero]
  have hdec : (unitAssign st c.literals
      (c.shape.coordinates (Nat.find hex))).assignment.undefCount
      < st.assignment.undefCount := by
    refine unitAssign_decreases st c.literals _ hswf ?_ ?_
    · intro lit hmem
      obtain ⟨haxlen, hax, _, hvb⟩ := hlits lit hmem
      rw [hcoords]
      have := literal_position_bound lit c.shape haxlen hax (Nat.find hex) hilt
      omega
    · have hcell : cellEval c st (Nat.find hex) = EVAL_UNIT := by
        rw [← Clause.evaluate_get c st ⟨hoff, hblen, hbwf, hlits⟩ (Nat.find hex)
          (by
            have h1 : (c.evaluate st).buffer.len = c.buffer.len :=
              Clause.evaluate_buffer_len c st
            omega)]
        exact hi.2
      obtain ⟨lit, hmem, hund⟩ := unit_cell_exists_undef c st (Nat.find hex) hcell
      refine ⟨lit, hmem, ?_⟩
      rw [hcoords]
      exact hund
  calc ((List.map (fun x => Nat.find hex + x)
        (List.map Nat.succ (List.range ((c.evaluate st).buffer.len
          - Nat.find hex - 1)))).foldl (c.evaluate st).propagateStep
        ((c.evaluate st).propagateStep st (Nat.find hex))).assignment.undefCount
      ≤ ((c.evaluate st).propagateStep st (Nat.find hex)).assignment.undefCount :=
        (foldl_propagateStep_effects _ _ _).1
    _ < st.assignment.undefCount := by rw [hstep]; exact hdec

theorem Extends.refl (st : State) : Extends st st := ⟨rfl, fun _ _ => rfl⟩

theorem Extends.trans {st1 st2 st3 : State} (h12 : Extends st1 st2)
    (h23 : Extends st2 st3) : Extends st1 st3 :=
  ⟨h23.1.trans h12.1, fun p hp => (h23.2 p (fun hc => hp ((h12.2 p hp) ▸ hc))).trans
    (h12.2 p hp)⟩

theorem assign_getD_extends (st : State) (p : Nat) (sg : Bool) (r : List Nat) :
    Extends st ((st.assign p sg r).getD st) := by
  unfold State.assign
  split
  · rename_i hcond
    refine ⟨rfl, fun q hq => ?_⟩
    show (st.assignment.set p _).get q = st.assignment.get q
    have hqp : q ≠ p := fun hc => hq (hc ▸ hcond.2)
    exact Buffer2.get_set_ne (by split <;> decide) hqp
  · exact Extends.refl st

theorem unitAssign_extends (st : State) (lits : List Literal)
    (coords : List Nat) : Extends st (unitAssign st lits coords) := by
  unfold unitAssign
  split
  · exact assign_getD_extends st _ _ _
  · exact Extends.refl st

theorem propagateStep_extends (c : Clause) (st : State) (pos : Nat) :
    Extends st (c.propagateStep st pos) := by
  unfold Clause.propagateStep
  split
  · exact unitAssign_extends st _ _
  · exact Extends.refl st

theorem foldl_propagateStep_extends (c : Clause) (l : List Nat) :
    ∀ st : State, Extends st (l.foldl c.propagateStep st) := by
  induction l with
  | nil => intro st; exact Extends.refl st
  | cons p t ih =>
    intro st
    exact (propagateStep_extends c st p).trans (ih (c.propagateStep st p))

theorem Clause.propagate_extends (c : Clause) (st : State) :
    Extends st (c.propagate st).2 := by
  rw [Clause.propagate_snd]
  exact foldl_propagateStep_extends c _ st

/-- `Clause::evaluate` recomputes the buffer from scratch, so evaluating an
already evaluated clause against any state is the same as evaluating the
original clause. -/
theorem Clause.evaluate_stable (c : Clause) (st st' : State) :
    (c.evaluate st).evaluate st' = c.evaluate st' := by
  have h1 : (c.evaluate st).buffer.data.length = c.buffer.data.length := by
    refine ((eval_fold_preserve st c.literals _).2).trans ?_
    show (List.replicate c.buffer.data.length _).length = _
    exact List.length_replicate _ _
  have h2 : (c.evaluate st).buffer.len = c.buffer.len := Clause.evaluate_buffer_len c st
  have hbuf : (c.evaluate st).buffer.fill EVAL_FALSE = c.buffer.fill EVAL_FALSE := by
    show (⟨List.replicate (c.evaluate st).buffer.data.length _,
      (c.evaluate st).buffer.len⟩ : Buffer2) = _
    rw [h1, h2]
    rfl
  show Clause.mk c.domains c.literals c.shape
      (c.literals.foldl (fun b lit => lit.evaluate st' b)
        ((c.evaluate st).buffer.fill EVAL_FALSE))
    = Clause.mk c.domains c.literals c.shape
      (c.literals.foldl (fun b lit => lit.evaluate st' b) (c.buffer.fill EVAL_FALSE))
  rw [hbuf]

/-- A FALSE cell only depends on non-UNDEF literal values, so it stays
FALSE under any assignment extension. -/
theorem cellEval_false_mono (c : Clause) (st st' : State) (hext : Extends st st')
    (i : Nat) (h : cellEval c st i = EVAL_FALSE) : cellEval c st' i = EVAL_FALSE := by
  have hkey : ∀ lit ∈ c.literals,
      st.assignment.get (lit.position ((coordsAux c.shape.lengths i).1)) ≠ BOOL_UNDEF := by
    unfold cellEval at h
    rw [sigma_fold_eq_svs st _ c.literals EVAL_FALSE (by decide)] at h
    set coords := (coordsAux c.shape.lengths i).1 with hcoords
    have hsv3 : ∀ x ∈ c.literals.map (fun lit => if lit.sign then
        st.assignment.get (lit.position coords)
        else BOOL_NOT.of (st.assignment.get (lit.position coords))), x ≤ 3 := by
      intro x hxx
      obtain ⟨lit, _, rfl⟩ := List.mem_map.mp hxx
      split
      · exact st.assignment.get_le_three _
      · exact Nat.and_le_right
    by_cases h2 : 2 ∈ c.literals.map (fun lit => if lit.sign then
        st.assignment.get (lit.position coords)
        else BOOL_NOT.of (st.assignment.get (lit.position coords)))
    · rw [foldPos_mem_true _ hsv3 h2 EVAL_FALSE (by decide)] at h
      exact absurd h (by decide)
    · rw [foldPos_no_true _ hsv3 h2 EVAL_FALSE (by decide)] at h
      have hcz : (c.literals.map (fun lit => if lit.sign then
          st.assignment.get (lit.position coords)
          else BOOL_NOT.of (st.assignment.get (lit.position coords)))).countP
          (fun x => x == 1) = 0 := by
        have h0 : EVAL_FALSE = 0 := rfl
        rw [h0] at h
        omega
      intro lit hmem hund
      have hsvmem : (if lit.sign then st.assignment.get (lit.position coords)
          else BOOL_NOT.of (st.assignment.get (lit.position coords)))
          ∈ c.literals.map (fun lit => if lit.sign then
            st.assignment.get (lit.position coords)
            else BOOL_NOT.of (st.assignment.get (lit.position coords))) :=
        List.mem_map_of_mem _ hmem
      have hsv1 : (if lit.sign then st.assignment.get (lit.position coords)
          else BOOL_NOT.of (st.assignment.get (lit.position coords))) = 1 := by
        rw [hund]
        cases lit.sign <;> decide
      have := List.countP_eq_zero.mp hcz _ hsvmem
      rw [hsv1] at this
      exact absurd (by decide) this
  unfold cellEval at h ⊢
  have hsame : ∀ lit ∈ c.literals,
      st'.assignment.get (lit.position ((coordsAux c.shape.lengths i).1))
        = st.assignment.get (lit.position ((coordsAux c.shape.lengths i).1)) := by
    intro lit hmem
    exact hext.2 _ (hkey lit hmem)
  have hgen : ∀ (L : List Literal),
      (∀ lit ∈ L, st'.assignment.get (lit.position ((coordsAux c.shape.lengths i).1))
        = st.assignment.get (lit.position ((coordsAux c.shape.lengths i).1))) →
      ∀ e : Nat,
      L.foldl (fun a lit => (if lit.sign then FOLD_POS else FOLD_NEG).of a
        (st'.assignment.get (lit.position ((coordsAux c.shape.lengths i).1)))) e
      = L.foldl (fun a lit => (if lit.sign then FOLD_POS else FOLD_NEG).of a
        (st.assignment.get (lit.position ((coordsAux c.shape.lengths i).1)))) e := by
    intro L
    induction L with
    | nil => intro _ e; rfl
    | cons lit t ih =>
      intro hs e
      rw [List.foldl_cons, List.foldl_cons, hs lit (List.mem_cons_self lit t)]
      exact ih (fun x hx => hs x (List.mem_cons_of_mem _ hx)) _
  exact (hgen c.literals hsame EVAL_FALSE).trans h

/-- A clause that evaluates to FALSE stays FALSE under any extension of the
assignment. -/
theorem Clause.status_false_mono {len : Nat} (c : Clause) (st st' : State)
    (hwf : WfClause len c) (hext : Extends st st')
    (h : (c.evaluate st).get_status = EVAL_FALSE) :
    (c.evaluate st').get_status = EVAL_FALSE := by
  rw [Clause.get_status_min] at h ⊢
  rcases foldl_min_eq_or (List.range (c.evaluate st).buffer.len)
      ((c.evaluate st).buffer.get) EVAL_TRUE with hc | ⟨p, hp, hfp⟩
  · rw [hc] at h
    exact absurd h (by decide)
  · rw [hfp] at h
    have hplt := List.mem_range.mp hp
    have hlen1 : (c.evaluate st).buffer.len = c.buffer.len :=
      Clause.evaluate_buffer_len c st
    have hcell : cellEval c st p = EVAL_FALSE := by
      rw [← Clause.evaluate_get c st hwf p (by omega)]
      exact h
    have hcell' := cellEval_false_mono c st st' hext p hcell
    have hlen2 : (c.evaluate st').buffer.len = c.buffer.len :=
      Clause.evaluate_buffer_len c st'
    have hget' : (c.evaluate st').buffer.get p = EVAL_FALSE := by
      rw [Clause.evaluate_get c st' hwf p (by omega)]
      exact hcell'
    exact foldl_min_zero_of_mem _ _ _ (List.mem_range.mpr (by omega)) hget'

/-! ### Generic list and fold helpers for the round-robin loop -/

theorem listGetD_set_ne {α : Type u} [Inhabited α] {l : List α} {i j : Nat}
    (h : i ≠ j) (a : α) : (l.set i a).getD j default = l.getD j default := by
  rw [List.getD_eq_getElem?_getD, List.getElem?_set, if_neg h,
    ← List.getD_eq_getElem?_getD]

theorem listGetD_set_self {α : Type u} [Inhabited α] {l : List α} {i : Nat}
    (h : i < l.length) (a : α) : (l.set i a).getD i default = a := by
  rw [List.getD_eq_getElem?_getD, List.getElem?_set, if_pos rfl, if_pos h]
  rfl

theorem listGetD_mem {α : Type u} [Inhabited α] {l : List α} {j : Nat}
    (h : j < l.length) : l.getD j default ∈ l := by
  rw [List.getD_eq_getElem l default h]
  exact List.getElem_mem h

theorem add_mod_ne_self {L j off : Nat} (hL : j < L) (h1 : 1 ≤ off)
    (h2 : off < L) : (j + off) % L ≠ j := by
  by_cases hc : j + off < L
  · rw [Nat.mod_eq_of_lt hc]
    omega
  · have heq : (j + off) % L = j + off - L := by
      rw [Nat.mod_eq_sub_mod (by omega), Nat.mod_eq_of_lt (by omega)]
    omega

theorem foldl_fn_congr {α : Type u} (l : List α) (g : Nat → Nat → Nat)
    (f1 f2 : α → Nat) (h : ∀ x ∈ l, f1 x = f2 x) : ∀ e : Nat,
    l.foldl (fun r x => g r (f1 x)) e = l.foldl (fun r x => g r (f2 x)) e := by
  induction l with
  | nil => intro e; rfl
  | cons a t ih =>
    intro e
    rw [List.foldl_cons, List.foldl_cons, h a (List.mem_cons_self a t)]
    exact ih (fun x hx => h x (List.mem_cons_of_mem _ hx)) _

theorem foldl_min_perm {α : Type u} {l1 l2 : List α} (f : α → Nat)
    (p : List.Perm l1 l2) (e : Nat) :
    l1.foldl (fun r x => min r (f x)) e = l2.foldl (fun r x => min r (f x)) e := by
  rw [← List.foldl_map f (fun r x => min r x) l1 e,
    ← List.foldl_map f (fun r x => min r x) l2 e]
  exact @List.Perm.foldl_eq _ _ _ _ _ ⟨fun a b c => by omega⟩ (p.map f) e

theorem visitList_eq_rotate {α : Type u} [Inhabited α] (l : List α) (j : Nat)
    (hl : 0 < l.length) :
    (List.range l.length).map (fun t => l.getD ((j + t) % l.length) default)
      = l.rotate j := by
  refine List.ext_getElem ?_ ?_
  · rw [List.length_map, List.length_range, List.length_rotate]
  · intro n h1 h2
    rw [List.getElem_map, List.getElem_range, List.getElem_rotate]
    rw [List.getD_eq_getElem l default (Nat.mod_lt _ hl)]
    congr 1
    rw [Nat.add_comm]

/-- One-step unfolding of the loop. -/
theorem propagateLoop_succ (fuel num res idx : Nat) (clauses : List Clause)
    (st : State) :
    propagateLoop (fuel + 1) num res idx clauses st
    = if num < clauses.length then
        if (((clauses.getD (if clauses.length ≤ idx then 0 else idx)
              default).evaluate st).propagate st).1 = EVAL_FALSE then
          some (EVAL_FALSE,
            clauses.set (if clauses.length ≤ idx then 0 else idx)
              ((clauses.getD (if clauses.length ≤ idx then 0 else idx)
                default).evaluate st),
            (((clauses.getD (if clauses.length ≤ idx then 0 else idx)
              default).evaluate st).propagate st).2)
        else if (((clauses.getD (if clauses.length ≤ idx then 0 else idx)
              default).evaluate st).propagate st).1 = EVAL_UNIT then
          propagateLoop fuel 0 EVAL_TRUE
            ((if clauses.length ≤ idx then 0 else idx) + 1)
            (clauses.set (if clauses.length ≤ idx then 0 else idx)
              ((clauses.getD (if clauses.length ≤ idx then 0 else idx)
                default).evaluate st))
            (((clauses.getD (if clauses.length ≤ idx then 0 else idx)
              default).evaluate st).propagate st).2
        else
          propagateLoop fuel (num + 1)
            (EVAL_AND.of res (((clauses.getD (if clauses.length ≤ idx then 0
              else idx) default).evaluate st).propagate st).1)
            ((if clauses.length ≤ idx then 0 else idx) + 1)
            (clauses.set (if clauses.length ≤ idx then 0 else idx)
              ((clauses.getD (if clauses.length ≤ idx then 0 else idx)
                default).evaluate st))
            (((clauses.getD (if clauses.length ≤ idx then 0 else idx)
              default).evaluate st).propagate st).2
      else some (res, clauses, st) := rfl

theorem loopInv_j_lt {num idx : Nat} {clauses : List Clause}
    (hnum : num < clauses.length) {j : Nat}
    (hj : j = if clauses.length ≤ idx then 0 else idx) : j < clauses.length := by
  rw [hj]
  split
  · omega
  · rename_i hlt
    omega

/-- Invariant preservation when a clause propagates to UNIT: the counter and
result reset. -/
theorem loopStep_inv_reset {len num res idx : Nat} {clauses : List Clause}
    {st : State} (inv : LoopInv len num res idx clauses st)
    (hnum : num < clauses.length) {j : Nat}
    (hj : j = if clauses.length ≤ idx then 0 else idx) {cla : Clause}
    (hcla : cla = (clauses.getD j default).evaluate st) :
    LoopInv len 0 EVAL_TRUE (j + 1) (clauses.set j cla) (cla.propagate st).2 := by
  obtain ⟨hW, hL, hC, hn, hi, hq, hr⟩ := inv
  have hj_lt : j < clauses.length := loopInv_j_lt hnum hj
  have heff := foldl_propagateStep_effects cla (List.range cla.buffer.len) st
  refine ⟨?_, ?_, ?_, Nat.zero_le _, ?_, ?_, rfl⟩
  · rw [Clause.propagate_snd]
    exact heff.2.2 hW
  · rw [Clause.propagate_snd, heff.2.1]
    exact hL
  · intro c hmem
    rcases List.mem_or_eq_of_mem_set hmem with hold | rfl
    · exact hC c hold
    · rw [hcla]
      exact Clause.evaluate_wf _ st (hC _ (listGetD_mem hj_lt))
  · rw [List.length_set]
    omega
  · intro t ht
    exact absurd ht (Nat.not_lt_zero t)

/-- Invariant preservation when a clause propagates quietly (TRUE or
UNDEF): the clause is counted, its status enters the result, and the state
does not change. -/
theorem loopStep_inv_quiet {len num res idx : Nat} {clauses : List Clause}
    {st : State} (inv : LoopInv len num res idx clauses st)
    (hnum : num < clauses.length) {j : Nat}
    (hj : j = if clauses.length ≤ idx then 0 else idx) {cla : Clause}
    (hcla : cla = (clauses.getD j default).evaluate st)
    (hq2 : 2 ≤ (cla.propagate st).1) :
    LoopInv len (num + 1) (EVAL_AND.of res (cla.propagate st).1) (j + 1)
      (clauses.set j cla) st := by
  obtain ⟨hW, hL, hC, hn, hi, hq, hr⟩ := inv
  have hj_lt : j < clauses.length := loopInv_j_lt hnum hj
  have hjmod : ∀ X, (j + X) % clauses.length = (idx + X) % clauses.length := by
    intro X
    rw [hj]
    split
    · rename_i hge
      have hidx : idx = clauses.length := by omega
      rw [hidx, Nat.zero_add, Nat.add_comm clauses.length X, Nat.add_mod_right]
    · rfl
  have hgetD : ∀ t, t < num →
      (clauses.set j cla).getD
        ((j + 1 + clauses.length - (num + 1) + t) % clauses.length) default
      = clauses.getD ((idx + clauses.length - num + t) % clauses.length)
          default := by
    intro t ht
    have h1 : j + 1 + clauses.length - (num + 1) + t
        = j + (clauses.length - num + t) := by omega
    have hne : (j + (clauses.length - num + t)) % clauses.length ≠ j :=
      add_mod_ne_self hj_lt (by omega) (by omega)
    have h2 : idx + (clauses.length - num + t)
        = idx + clauses.length - num + t := by omega
    rw [h1, listGetD_set_ne (Ne.symm hne), hjmod, h2]
  have hlast : (clauses.set j cla).getD
      ((j + 1 + clauses.length - (num + 1) + num) % clauses.length) default
      = cla := by
    have h1 : j + 1 + clauses.length - (num + 1) + num = j + clauses.length := by
      omega
    rw [h1, Nat.add_mod_right, Nat.mod_eq_of_lt hj_lt, listGetD_set_self hj_lt]
  refine ⟨hW, hL, ?_, ?_, ?_, ?_, ?_⟩
  · intro c hmem
    rcases List.mem_or_eq_of_mem_set hmem with hold | rfl
    · exact hC c hold
    · rw [hcla]
      exact Clause.evaluate_wf _ st (hC _ (listGetD_mem hj_lt))
  · rw [List.length_set]
    omega
  · rw [List.length_set]
    omega
  · intro t ht
    simp only [List.length_set]
    rcases Nat.lt_or_ge t num with htn | htn
    · rw [hgetD t htn]
      exact hq t htn
    · have htn2 : t = num := by omega
      rw [htn2, hlast]
      constructor
      · rw [hcla]
        exact (Clause.evaluate_stable _ st st).symm
      · rw [← Clause.propagate_fst cla st]
        exact hq2
  · simp only [List.length_set]
    rw [List.range_succ, List.foldl_append, List.foldl_cons, List.foldl_nil,
      hlast]
    have hcongr := foldl_fn_congr (List.range num) (fun r x => EVAL_AND.of r x)
      (fun t => ((clauses.set j cla).getD
        ((j + 1 + clauses.length - (num + 1) + t) % clauses.length)
        default).get_status)
      (fun t => (clauses.getD ((idx + clauses.length - num + t) %
        clauses.length) default).get_status)
      (fun t htm => congrArg Clause.get_status (hgetD t (List.mem_range.mp htm)))
      EVAL_TRUE
    rw [hcongr, ← hr, Clause.propagate_fst]

/-- At the quiet exit (`num` reached the clause count) the result is not
UNIT and equals the status fold of the stored clauses, which are exactly
the evaluations against the final state. -/
theorem loopInv_exit {len num res idx : Nat} {clauses : List Clause}
    {st : State} (inv : LoopInv len num res idx clauses st)
    (hnum : ¬num < clauses.length) :
    res ≠ EVAL_UNIT ∧
    res = clauses.foldl (fun r cla => EVAL_AND.of r cla.get_status) EVAL_TRUE ∧
    res = clauses.foldl (fun r cla =>
      EVAL_AND.of r ((cla.evaluate st).get_status)) EVAL_TRUE := by
  obtain ⟨hW, hL, hC, hn, hi, hq, hr⟩ := inv
  have hnum_eq : num = clauses.length := by omega
  by_cases hL0 : clauses.length = 0
  · have hnil : clauses = [] := List.eq_nil_of_length_eq_zero hL0
    subst hnil
    have hn0 : num = 0 := by omega
    subst hn0
    refine ⟨?_, hr, hr⟩
    rw [hr]
    show (3 : Nat) ≠ 1
    decide
  · have hL0' : 0 < clauses.length := Nat.pos_of_ne_zero hL0
    have hall : ∀ jj, jj < clauses.length →
        clauses.getD jj default = (clauses.getD jj default).evaluate st ∧
        2 ≤ (clauses.getD jj default).get_status := by
      intro jj hjj
      have hr' : idx % clauses.length < clauses.length := Nat.mod_lt _ hL0'
      have ht : ∃ t, t < num ∧
          (idx + clauses.length - num + t) % clauses.length = jj := by
        refine ⟨if idx % clauses.length ≤ jj then jj - idx % clauses.length
          else jj + clauses.length - idx % clauses.length, by split <;> omega, ?_⟩
        have hix : ∀ t, idx + clauses.length - num + t = idx + t := by
          intro t
          omega
        rw [hix, ← Nat.mod_add_mod]
        split
        · rename_i hle
          have h1 : idx % clauses.length +
              (jj - idx % clauses.length) = jj := by omega
          rw [h1, Nat.mod_eq_of_lt hjj]
        · rename_i hgt
          have h1 : idx % clauses.length +
              (jj + clauses.length - idx % clauses.length)
              = jj + clauses.length := by omega
          rw [h1, Nat.add_mod_right, Nat.mod_eq_of_lt hjj]
      obtain ⟨t, htn, hteq⟩ := ht
      have := hq t htn
      rw [hteq] at this
      exact this
    have hmem_eval : ∀ cla ∈ clauses, cla = cla.evaluate st ∧
        2 ≤ cla.get_status := by
      intro cla hmem
      obtain ⟨jj, hjj, hje⟩ := List.mem_iff_getElem.mp hmem
      rw [← List.getD_eq_getElem clauses default hjj] at hje
      rw [← hje]
      exact hall jj hjj
    have hstored : res = clauses.foldl
        (fun r cla => EVAL_AND.of r cla.get_status) EVAL_TRUE := by
      rw [hr]
      have hix : ∀ t ∈ List.range num,
          ((clauses.getD ((idx + clauses.length - num + t) % clauses.length)
            default).get_status)
          = ((clauses.getD ((idx + t) % clauses.length)
            default).get_status) := by
        intro t _
        have h1 : idx + clauses.length - num + t = idx + t := by omega
        rw [h1]
      rw [foldl_fn_congr (List.range num) (fun r x => EVAL_AND.of r x) _ _ hix
        EVAL_TRUE]
      rw [hnum_eq]
      rw [← List.foldl_map
        (fun t => clauses.getD ((idx + t) % clauses.length) default)
        (fun r cla => EVAL_AND.of r cla.get_status) (List.range clauses.length)
        EVAL_TRUE]
      rw [visitList_eq_rotate clauses idx hL0']
      rw [foldl_evalAnd_eq_min (clauses.rotate idx) Clause.get_status
        (fun x _ => x.get_status_le_three) EVAL_TRUE (by decide)]
      rw [foldl_min_perm Clause.get_status (List.rotate_perm clauses idx)
        EVAL_TRUE]
      rw [← foldl_evalAnd_eq_min clauses Clause.get_status
        (fun x _ => x.get_status_le_three) EVAL_TRUE (by decide)]
    refine ⟨?_, hstored, ?_⟩
    · have h2 : 2 ≤ res := by
        rw [hstored, foldl_evalAnd_eq_min clauses Clause.get_status
          (fun x _ => x.get_status_le_three) EVAL_TRUE (by decide)]
        exact foldl_min_ge clauses Clause.get_status 2 EVAL_TRUE (by decide)
          (fun x hx => (hmem_eval x hx).2)
      show res ≠ 1
      omega
    · rw [hstored]
      exact foldl_fn_congr clauses (fun r x => EVAL_AND.of r x)
        Clause.get_status (fun cla => (cla.evaluate st).get_status)
        (fun cla hmem => congrArg Clause.get_status (hmem_eval cla hmem).1)
        EVAL_TRUE

/-- At the FALSE exit the returned status is the fold of the stored
clauses, and also of their evaluations against the final state. -/
theorem loopStep_false_post {len num res idx : Nat} {clauses : List Clause}
    {st : State} (inv : LoopInv len num res idx clauses st)
    (hnum : num < clauses.length) {j : Nat}
    (hj : j = if clauses.length ≤ idx then 0 else idx) {cla : Clause}
    (hcla : cla = (clauses.getD j default).evaluate st)
    (hfalse : (cla.propagate st).1 = EVAL_FALSE) :
    EVAL_FALSE = (clauses.set j cla).foldl
      (fun r c => EVAL_AND.of r c.get_status) EVAL_TRUE ∧
    EVAL_FALSE = (clauses.set j cla).foldl (fun r c =>
      EVAL_AND.of r ((c.evaluate (cla.propagate st).2).get_status))
      EVAL_TRUE := by
  obtain ⟨hW, hL, hC, hn, hi, hq, hr⟩ := inv
  have hj_lt : j < clauses.length := loopInv_j_lt hnum hj
  have hmem : cla ∈ clauses.set j cla := List.mem_set clauses j hj_lt cla
  have hstat : cla.get_status = EVAL_FALSE := by
    rw [← Clause.propagate_fst cla st]
    exact hfalse
  have hwf0 : WfClause len (clauses.getD j default) :=
    hC _ (listGetD_mem hj_lt)
  constructor
  · rw [foldl_evalAnd_eq_min (clauses.set j cla) Clause.get_status
      (fun x _ => x.get_status_le_three) EVAL_TRUE (by decide)]
    exact (foldl_min_zero_of_mem _ _ _ hmem hstat).symm
  · set st2 := (cla.propagate st).2 with hst2
    rw [foldl_evalAnd_eq_min (clauses.set j cla)
      (fun c => (c.evaluate st2).get_status)
      (fun x _ => (x.evaluate _).get_status_le_three) EVAL_TRUE (by decide)]
    have hext : Extends st st2 := Clause.propagate_extends cla st
    have h0 : ((clauses.getD j default).evaluate st).get_status = EVAL_FALSE := by
      rw [← hcla]
      exact hstat
    have hmono := Clause.status_false_mono (clauses.getD j default) st st2
      hwf0 hext h0
    have hfval : (cla.evaluate st2).get_status = EVAL_FALSE := by
      rw [hcla, Clause.evaluate_stable]
      exact hmono
    exact (foldl_min_zero_of_mem _ _ _ hmem hfval).symm

/-- The postcondition of the round-robin loop: on normal return the result
is never UNIT, and it equals the `EVAL_AND` fold of the statuses of the
returned clauses — both of the stored buffers and of fresh evaluations
against the returned state. -/
theorem propagateLoop_post (len : Nat) : ∀ (fuel num res idx : Nat)
    (clauses : List Clause) (st : State) (out : Nat × List Clause × State),
    LoopInv len num res idx clauses st →
    propagateLoop fuel num res idx clauses st = some out →
    out.1 ≠ EVAL_UNIT ∧
    out.1 = out.2.1.foldl (fun r cla => EVAL_AND.of r cla.get_status) EVAL_TRUE ∧
    out.1 = out.2.1.foldl (fun r cla =>
      EVAL_AND.of r ((cla.evaluate out.2.2).get_status)) EVAL_TRUE := by
  intro fuel
  induction fuel with
  | zero =>
    intro num res idx clauses st out _ h
    exact Option.noConfusion h
  | succ fuel ih =>
    intro num res idx clauses st out inv h
    rw [propagateLoop_succ] at h
    by_cases hnum : num < clauses.length
    · rw [if_pos hnum] at h
      set j := if clauses.length ≤ idx then 0 else idx with hj
      set cla := (clauses.getD j default).evaluate st with hcla
      by_cases hfalse : (cla.propagate st).1 = EVAL_FALSE
      · rw [if_pos hfalse] at h
        injection h with h2
        subst h2
        obtain ⟨hs, he⟩ := loopStep_false_post inv hnum hj hcla hfalse
        exact ⟨fun hcon => absurd (show (0 : Nat) = 1 from hcon) (by decide),
          hs, he⟩
      · rw [if_neg hfalse] at h
        by_cases hunit : (cla.propagate st).1 = EVAL_UNIT
        · rw [if_pos hunit] at h
          exact ih 0 EVAL_TRUE (j + 1) (clauses.set j cla) (cla.propagate st).2
            out (loopStep_inv_reset inv hnum hj hcla) h
        · rw [if_neg hunit] at h
          have hle : (cla.propagate st).1 ≤ 3 := by
            rw [Clause.propagate_fst]
            exact cla.get_status_le_three
          have h0 : (cla.propagate st).1 ≠ 0 := hfalse
          have h1 : (cla.propagate st).1 ≠ 1 := hunit
          have hq2 : 2 ≤ (cla.propagate st).1 := by omega
          have hquiet : (cla.propagate st).2 = st := Clause.propagate_quiet cla st hq2
          rw [hquiet] at h
          exact ih (num + 1) (EVAL_AND.of res (cla.propagate st).1) (j + 1)
            (clauses.set j cla) st out (loopStep_inv_quiet inv hnum hj hcla hq2) h
    · rw [if_neg hnum] at h
      injection h with h2
      subst h2
      exact loopInv_exit inv hnum

/-- Termination of the round-robin loop: the measure
`undefCount * (len + 1) + (len - num)` bounds the required fuel, because a
UNIT visit strictly decreases `undefCount` and a quiet visit increases
`num`. -/
theorem propagateLoop_some (len : Nat) : ∀ (bound num res idx : Nat)
    (clauses : List Clause) (st : State),
    LoopInv len num res idx clauses st →
    st.assignment.undefCount * (clauses.length + 1) + (clauses.length - num)
      ≤ bound →
    (propagateLoop (bound + 1) num res idx clauses st).isSome = true := by
  intro bound
  induction bound using Nat.strong_induction_on with
  | _ bound ih =>
    intro num res idx clauses st inv hmeas
    rw [propagateLoop_succ]
    by_cases hnum : num < clauses.length
    · rw [if_pos hnum]
      set j := if clauses.length ≤ idx then 0 else idx with hj
      set cla := (clauses.getD j default).evaluate st with hcla
      by_cases hfalse : (cla.propagate st).1 = EVAL_FALSE
      · rw [if_pos hfalse]
        rfl
      · rw [if_neg hfalse]
        by_cases hunit : (cla.propagate st).1 = EVAL_UNIT
        · rw [if_pos hunit]
          have hinv2 := loopStep_inv_reset inv hnum hj hcla
          have hdec : (cla.propagate st).2.assignment.undefCount
              < st.assignment.undefCount := by
            rw [hcla]
            rw [hcla] at hunit
            exact propagate_unit_decreases (clauses.getD j default) st
              (inv.2.2.1 _ (listGetD_mem (loopInv_j_lt hnum hj))) inv.1 inv.2.1
              hunit
          have hkey : (cla.propagate st).2.assignment.undefCount
                * (clauses.length + 1) + (clauses.length + 1)
              ≤ st.assignment.undefCount * (clauses.length + 1) := by
            have hmul : ((cla.propagate st).2.assignment.undefCount + 1)
                * (clauses.length + 1)
                ≤ st.assignment.undefCount * (clauses.length + 1) :=
              Nat.mul_le_mul_right _ hdec
            have hring : ((cla.propagate st).2.assignment.undefCount + 1)
                * (clauses.length + 1)
                = (cla.propagate st).2.assignment.undefCount
                  * (clauses.length + 1) + (clauses.length + 1) := by ring
            omega
          obtain ⟨b2, rfl⟩ : ∃ b2, bound = b2 + 1 := ⟨bound - 1, by omega⟩
          exact ih b2 (by omega) 0 EVAL_TRUE (j + 1) (clauses.set j cla)
            (cla.propagate st).2 hinv2 (by rw [List.length_set]; omega)
        · rw [if_neg hunit]
          have hle : (cla.propagate st).1 ≤ 3 := by
            rw [Clause.propagate_fst]
            exact cla.get_status_le_three
          have h0 : (cla.propagate st).1 ≠ 0 := hfalse
          have h1 : (cla.propagate st).1 ≠ 1 := hunit
          have hq2 : 2 ≤ (cla.propagate st).1 := by omega
          have hquiet : (cla.propagate st).2 = st := Clause.propagate_quiet cla st hq2
          rw [hquiet]
          have hinv2 := loopStep_inv_quiet inv hnum hj hcla hq2
          obtain ⟨b2, rfl⟩ : ∃ b2, bound = b2 + 1 := ⟨bound - 1, by omega⟩
          exact ih b2 (by omega) (num + 1) (EVAL_AND.of res (cla.propagate st).1)
            (j + 1) (clauses.set j cla) st hinv2 (by rw [List.length_set]; omega)
    · rw [if_neg hnum]
      rfl

/-- The loop invariant holds at the start of `Solver::propagate`. -/
theorem loopInv_init (s : Solver) (hwf : WfSolver s) :
    LoopInv s.state.assignment.len 0 EVAL_TRUE 0 s.clauses s.state :=
  ⟨hwf.1, rfl, hwf.2, Nat.zero_le _, Nat.zero_le _,
    fun t ht => absurd ht (Nat.not_lt_zero t), rfl⟩

/-- Solver-level postcondition of `Solver::propagate` (the two `assert!`s
and the spec's reading with freshly evaluated statuses). -/
theorem Solver.propagate_post {s : Solver} {fuel res : Nat} {s2 : Solver}
    (hwf : WfSolver s) (h : s.propagate fuel = some (res, s2)) :
    res ≠ EVAL_UNIT ∧ res = s2.get_clauses_status ∧
    res = s2.clauses.foldl (fun r cla =>
      EVAL_AND.of r ((cla.evaluate s2.state).get_status)) EVAL_TRUE := by
  unfold Solver.propagate at h
  cases hopt : propagateLoop fuel 0 EVAL_TRUE 0 s.clauses s.state with
  | none =>
    rw [hopt] at h
    exact Option.noConfusion h
  | some out =>
    rw [hopt] at h
    injection h with h2
    have hres : out.1 = res := congrArg Prod.fst h2
    have hs2 : ({ s with clauses := out.2.1, state := out.2.2 } : Solver) = s2 :=
      congrArg Prod.snd h2
    obtain ⟨ha, hb, hc⟩ := propagateLoop_post s.state.assignment.len fuel 0
      EVAL_TRUE 0 s.clauses s.state out (loopInv_init s hwf) hopt
    subst hres
    rw [← hs2]
    exact ⟨ha, hb, hc⟩

/-- Solver-level termination of `Solver::propagate`: the measure-derived
fuel suffices. -/
theorem Solver.propagate_some (s : Solver) (hwf : WfSolver s) :
    (s.propagate (s.state.assignment.undefCount * (s.clauses.length + 1)
      + s.clauses.length + 1)).isSome = true := by
  unfold Solver.propagate
  rw [Option.isSome_map']
  exact propagateLoop_some s.state.assignment.len
    (s.state.assignment.undefCount * (s.clauses.length + 1) + s.clauses.length)
    0 EVAL_TRUE 0 s.clauses s.state (loopInv_init s hwf) (by omega)

/-! ### The trail invariant of `State` (spec invariant T1) -/

theorem listGetD_take {α : Type u} [Inhabited α] (l : List α) {n i : Nat}
    (h : i < n) : (l.take n).getD i default = l.getD i default := by
  rw [List.getD_eq_getElem?_getD, List.getD_eq_getElem?_getD,
    List.getElem?_take, if_pos h]

theorem State.undoSteps_len (a : Buffer2) (steps : List Step) :
    (State.undoSteps a steps).len = a.len := by
  induction steps generalizing a with
  | nil => rfl
  | cons st t ih => exact ih (a.set st.bvar BOOL_UNDEF)

theorem State.undoSteps_data_length (a : Buffer2) (steps : List Step) :
    (State.undoSteps a steps).data.length = a.data.length := by
  induction steps generalizing a with
  | nil => rfl
  | cons st t ih =>
    exact (ih (a.set st.bvar BOOL_UNDEF)).trans (Buffer2.data_length_set a _ _)

theorem State.undoSteps_wf {a : Buffer2} (hw : a.Wf) (steps : List Step) :
    (State.undoSteps a steps).Wf := by
  unfold Buffer2.Wf at *
  rw [State.undoSteps_data_length, State.undoSteps_len]
  exact hw

theorem State.undoSteps_get_not_mem (a : Buffer2) (steps : List Step) {p : Nat}
    (h : ∀ st ∈ steps, st.bvar ≠ p) :
    (State.undoSteps a steps).get p = a.get p := by
  induction steps generalizing a with
  | nil => rfl
  | cons st t ih =>
    refine (ih _ (fun x hx => h x (List.mem_cons_of_mem _ hx))).trans ?_
    exact Buffer2.get_set_ne (by decide)
      (fun hc => h st (List.mem_cons_self st t) (hc ▸ rfl))

theorem State.undoSteps_get_mem {a : Buffer2} (ha : a.Wf) (steps : List Step)
    (hb : ∀ st ∈ steps, st.bvar < a.len) {p : Nat}
    (h : ∃ st ∈ steps, st.bvar = p) :
    (State.undoSteps a steps).get p = BOOL_UNDEF := by
  induction steps generalizing a with
  | nil =>
    obtain ⟨st, hmem, _⟩ := h
    exact absurd hmem (List.not_mem_nil st)
  | cons st t ih =>
    by_cases ht : ∃ st2 ∈ t, st2.bvar = p
    · exact ih (Buffer2.wf_set ha _ _)
        (fun x hx => (Buffer2.len_set a _ _).symm ▸ hb x (List.mem_cons_of_mem _ hx))
        ht
    · obtain ⟨st2, hmem, hbv⟩ := h
      rcases List.mem_cons.mp hmem with rfl | hmem2
      · have hnm : ∀ x ∈ t, x.bvar ≠ p :=
          fun x hx hc => ht ⟨x, hx, hc⟩
        refine (State.undoSteps_get_not_mem _ t hnm).trans ?_
        rw [← hbv]
        refine Buffer2.get_set_same ?_ (by decide)
        have hlt := hb st2 (List.mem_cons_self st2 t)
        have hwl : a.data.length = (a.len + 15) / 16 := ha
        omega
      · exact absurd ⟨st2, hmem2, hbv⟩ ht

theorem stateInv_empty : StateInv State.empty := by
  refine ⟨rfl, ?_, List.nodup_nil, ?_, ?_, ?_, List.Pairwise.nil⟩
  · intro st hst
    exact absurd hst (List.not_mem_nil st)
  · intro p hp
    exact absurd hp (Nat.not_lt_zero p)
  · intro p hp
    exact absurd hp (Nat.not_lt_zero p)
  · intro lvl hlvl
    exact absurd hlvl (List.not_mem_nil lvl)

theorem stateInv_create_table {s : State} (inv : StateInv s) (sizes : List Nat) :
    StateInv (s.create_table sizes).2 := by
  obtain ⟨hW, hB, hN, hT, hM, hL, hS⟩ := inv
  show StateInv { s with
    assignment := s.assignment.append (Shape.new sizes s.assignment.len).volume
      BOOL_UNDEF }
  have hlen : (s.assignment.append (Shape.new sizes s.assignment.len).volume
      BOOL_UNDEF).len
      = s.assignment.len + (Shape.new sizes s.assignment.len).volume :=
    Buffer2.len_append _ _ _
  refine ⟨Buffer2.wf_append hW _ _, ?_, hN, ?_, ?_, hL, hS⟩
  · intro st hst
    rw [hlen]
    exact Nat.lt_of_lt_of_le (hB st hst) (Nat.le_add_right _ _)
  · intro p hp
    rw [hlen] at hp
    by_cases hpo : p < s.assignment.len
    · rw [Buffer2.get_append_old hW hpo]
      exact hT p hpo
    · rw [Buffer2.get_append_new hW (by decide) (by omega) (by omega)]
      constructor
      · intro ⟨st, hmem, hbv⟩
        exact absurd (hbv ▸ hB st hmem) hpo
      · intro hc
        exact absurd rfl hc
  · intro p hp
    rw [hlen] at hp
    by_cases hpo : p < s.assignment.len
    · rw [Buffer2.get_append_old hW hpo]
      exact hM p hpo
    · rw [Buffer2.get_append_new hW (by decide) (by omega) (by omega)]
      decide

theorem stateInv_assign {s s2 : State} (inv : StateInv s) {pos : Nat}
    {sign : Bool} {reason : List Nat} (h : s.assign pos sign reason = some s2) :
    StateInv s2 := by
  obtain ⟨hW, hB, hN, hT, hM, hL, hS⟩ := inv
  unfold State.assign at h
  split at h
  case isFalse => exact Option.noConfusion h
  case isTrue hcond =>
    injection h with h2
    subst h2
    have hv4 : (if sign then BOOL_TRUE else BOOL_FALSE) < 4 := by
      split <;> decide
    have hpos_not : ∀ st ∈ s.steps, st.bvar ≠ pos := by
      intro st hst hc
      exact ((hT pos hcond.1).mp ⟨st, hst, hc⟩) hcond.2
    refine ⟨Buffer2.wf_set hW _ _, ?_, ?_, ?_, ?_, ?_, hS⟩
    · intro st hst
      rw [Buffer2.len_set]
      rcases List.mem_append.mp hst with hst | hst
      · exact hB st hst
      · rcases List.mem_singleton.mp hst with rfl
        exact hcond.1
    · rw [List.map_append, List.nodup_append]
      refine ⟨hN, List.nodup_singleton _, ?_⟩
      intro a ha hb
      rcases List.mem_singleton.mp hb with rfl
      obtain ⟨st, hst, hbv⟩ := List.mem_map.mp ha
      exact hpos_not st hst hbv
    · intro p hp
      rw [Buffer2.len_set] at hp
      by_cases hpe : p = pos
      · subst hpe
        rw [Buffer2.get_set_same (by
            have hwl : s.assignment.data.length = (s.assignment.len + 15) / 16 := hW
            have := hcond.1
            omega) hv4]
        constructor
        · intro _
          split <;> decide
        · intro _
          exact ⟨⟨p, reason⟩, List.mem_append.mpr (Or.inr (List.mem_singleton.mpr rfl)),
            rfl⟩
      · rw [Buffer2.get_set_ne hv4 hpe]
        constructor
        · intro ⟨st, hst, hbv⟩
          rcases List.mem_append.mp hst with hst | hst
          · exact (hT p hp).mp ⟨st, hst, hbv⟩
          · rcases List.mem_singleton.mp hst with rfl
            exact absurd (show p = pos from hbv.symm) hpe
        · intro hu
          obtain ⟨st, hst, hbv⟩ := (hT p hp).mpr hu
          exact ⟨st, List.mem_append.mpr (Or.inl hst), hbv⟩
    · intro p hp
      rw [Buffer2.len_set] at hp
      by_cases hpe : p = pos
      · subst hpe
        rw [Buffer2.get_set_same (by
            have hwl : s.assignment.data.length = (s.assignment.len + 15) / 16 := hW
            have := hcond.1
            omega) hv4]
        split <;> decide
      · rw [Buffer2.get_set_ne hv4 hpe]
        exact hM p hp
    · intro lvl hlvl
      rw [List.length_append]
      exact Nat.lt_of_lt_of_le (hL lvl hlvl) (Nat.le_add_right _ _)

theorem stateInv_make_decision {s : State} (inv : StateInv s) :
    StateInv (s.make_decision).2 := by
  obtain ⟨hW, hB, hN, hT, hM, hL, hS⟩ := inv
  unfold State.make_decision
  cases hfind : (List.range s.assignment.len).find?
      (fun i => s.assignment.get i == BOOL_UNDEF) with
  | none => exact ⟨hW, hB, hN, hT, hM, hL, hS⟩
  | some pos =>
    have hplt : pos < s.assignment.len :=
      List.mem_range.mp (List.mem_of_find?_eq_some hfind)
    have hfs := List.find?_some hfind
    have hundef : s.assignment.get pos = BOOL_UNDEF := beq_iff_eq.mp hfs
    have hpos_not : ∀ st ∈ s.steps, st.bvar ≠ pos := by
      intro st hst hc
      exact ((hT pos hplt).mp ⟨st, hst, hc⟩) hundef
    have hdiv : pos / 16 < s.assignment.data.length := by
      have hwl : s.assignment.data.length = (s.assignment.len + 15) / 16 := hW
      omega
    refine ⟨Buffer2.wf_set hW _ _, ?_, ?_, ?_, ?_, ?_, ?_⟩
    · intro st hst
      rw [Buffer2.len_set]
      rcases List.mem_append.mp hst with hst | hst
      · exact hB st hst
      · rcases List.mem_singleton.mp hst with rfl
        exact hplt
    · rw [List.map_append, List.nodup_append]
      refine ⟨hN, List.nodup_singleton _, ?_⟩
      intro a ha hb
      rcases List.mem_singleton.mp hb with rfl
      obtain ⟨st, hst, hbv⟩ := List.mem_map.mp ha
      exact hpos_not st hst hbv
    · intro p hp
      rw [Buffer2.len_set] at hp
      by_cases hpe : p = pos
      · subst hpe
        rw [Buffer2.get_set_same hdiv (by decide)]
        constructor
        · intro _
          decide
        · intro _
          exact ⟨⟨p, []⟩, List.mem_append.mpr (Or.inr (List.mem_singleton.mpr rfl)),
            rfl⟩
      · rw [Buffer2.get_set_ne (by decide) hpe]
        constructor
        · intro ⟨st, hst, hbv⟩
          rcases List.mem_append.mp hst with hst | hst
          · exact (hT p hp).mp ⟨st, hst, hbv⟩
          · rcases List.mem_singleton.mp hst with rfl
            exact absurd (show p = pos from hbv.symm) hpe
        · intro hu
          obtain ⟨st, hst, hbv⟩ := (hT p hp).mpr hu
          exact ⟨st, List.mem_append.mpr (Or.inl hst), hbv⟩
    · intro p hp
      rw [Buffer2.len_set] at hp
      by_cases hpe : p = pos
      · subst hpe
        rw [Buffer2.get_set_same hdiv (by decide)]
        decide
      · rw [Buffer2.get_set_ne (by decide) hpe]
        exact hM p hp
    · intro lvl hlvl
      rw [List.length_append]
      rcases List.mem_append.mp hlvl with hlvl | hlvl
      · exact Nat.lt_of_lt_of_le (hL lvl hlvl) (Nat.le_add_right _ _)
      · rcases List.mem_singleton.mp hlvl with rfl
        exact Nat.lt_succ_self _
    · exact List.pairwise_append.mpr ⟨hS, List.pairwise_singleton _ _,
        fun a ha b hb => by
          rcases List.mem_singleton.mp hb with rfl
          exact hL a ha⟩

/-- One-step unfolding of the `next_decision` loop. -/
theorem nextDecisionAux_succ (fuel : Nat) (s : State) :
    nextDecisionAux (fuel + 1) s
    = match s.levels.getLast? with
      | none => (false, s)
      | some level =>
        if s.assignment.get ((s.steps.getD level default).bvar) = BOOL_FALSE then
          nextDecisionAux fuel { s with levels := s.levels.dropLast }
        else
          (true, { s with
            assignment := (State.undoSteps s.assignment
              (s.steps.drop (level + 1))).set
              ((s.steps.getD level default).bvar) BOOL_FALSE,
            steps := s.steps.take (level + 1),
            levels := s.levels.dropLast ++ [level] }) := rfl

theorem nextDecisionAux_succ_none (fuel : Nat) (s : State)
    (h : s.levels.getLast? = none) :
    nextDecisionAux (fuel + 1) s = (false, s) := by
  rw [nextDecisionAux_succ, h]

theorem nextDecisionAux_succ_some (fuel : Nat) (s : State) (level : Nat)
    (h : s.levels.getLast? = some level) :
    nextDecisionAux (fuel + 1) s
    = if s.assignment.get ((s.steps.getD level default).bvar) = BOOL_FALSE then
        nextDecisionAux fuel { s with levels := s.levels.dropLast }
      else
        (true, { s with
          assignment := (State.undoSteps s.assignment
            (s.steps.drop (level + 1))).set
            ((s.steps.getD level default).bvar) BOOL_FALSE,
          steps := s.steps.take (level + 1),
          levels := s.levels.dropLast ++ [level] }) := by
  rw [nextDecisionAux_succ, h]

theorem stateInv_nextDecisionAux : ∀ (fuel : Nat) (s : State), StateInv s →
    StateInv (nextDecisionAux fuel s).2 := by
  intro fuel
  induction fuel with
  | zero => intro s inv; exact inv
  | succ fuel ih =>
    intro s inv
    obtain ⟨hW, hB, hN, hT, hM, hL, hS⟩ := inv
    cases hlast : s.levels.getLast? with
    | none =>
      rw [nextDecisionAux_succ_none fuel s hlast]
      exact ⟨hW, hB, hN, hT, hM, hL, hS⟩
    | some level =>
      rw [nextDecisionAux_succ_some fuel s level hlast]
      have hlvl_mem : level ∈ s.levels := List.mem_of_mem_getLast? hlast
      have hlvl_lt : level < s.steps.length := hL level hlvl_mem
      by_cases hbf : s.assignment.get ((s.steps.getD level default).bvar)
          = BOOL_FALSE
      · rw [if_pos hbf]
        exact ih _ ⟨hW, hB, hN, hT, hM,
          fun lvl hlvl => hL lvl (List.mem_of_mem_dropLast hlvl),
          List.Pairwise.sublist (List.dropLast_sublist _) hS⟩
      · rw [if_neg hbf]
        have hstep_mem : s.steps.getD level default ∈ s.steps :=
          listGetD_mem hlvl_lt
        have hbv_lt : (s.steps.getD level default).bvar < s.assignment.len :=
          hB _ hstep_mem
        have hwl : s.assignment.data.length = (s.assignment.len + 15) / 16 := hW
        have hlenA : ((State.undoSteps s.assignment
            (s.steps.drop (level + 1))).set
            ((s.steps.getD level default).bvar) BOOL_FALSE).len
            = s.assignment.len := by
          rw [Buffer2.len_set, State.undoSteps_len]
        have hUdiv : (s.steps.getD level default).bvar / 16
            < (State.undoSteps s.assignment
                (s.steps.drop (level + 1))).data.length := by
          rw [State.undoSteps_data_length]
          omega
        have hTlen : (s.steps.take (level + 1)).length = level + 1 := by
          rw [List.length_take]
          omega
        have hbv_in_T : s.steps.getD level default ∈ s.steps.take (level + 1) := by
          have h1 : (s.steps.take (level + 1)).getD level default
              = s.steps.getD level default :=
            listGetD_take _ (Nat.lt_succ_self level)
          have h2 := listGetD_mem (l := s.steps.take (level + 1))
            (j := level) (by rw [hTlen]; exact Nat.lt_succ_self level)
          rw [h1] at h2
          exact h2
        have hN2 : ((s.steps.take (level + 1)).map Step.bvar
            ++ (s.steps.drop (level + 1)).map Step.bvar).Nodup := by
          rw [← List.map_append, List.take_append_drop]
          exact hN
        have hdisj : ∀ a ∈ (s.steps.take (level + 1)).map Step.bvar,
            a ∉ (s.steps.drop (level + 1)).map Step.bvar :=
          fun a ha hb => (List.nodup_append.mp hN2).2.2 ha hb
        have hDnot : ∀ p : Nat, (∃ st ∈ s.steps.take (level + 1), st.bvar = p) →
            ∀ st2 ∈ s.steps.drop (level + 1), st2.bvar ≠ p := by
          intro p hex st2 hst2 hc
          obtain ⟨st, hst, hbvp⟩ := hex
          exact hdisj p (List.mem_map.mpr ⟨st, hst, hbvp⟩)
            (List.mem_map.mpr ⟨st2, hst2, hc⟩)
        have hsplit_mem : ∀ st : Step, st ∈ s.steps ↔
            st ∈ s.steps.take (level + 1) ∨ st ∈ s.steps.drop (level + 1) := by
          intro st
          rw [← List.mem_append, List.take_append_drop]
        have hlast_split : s.levels.dropLast ++ [level] = s.levels :=
          List.dropLast_append_getLast? level hlast
        have hcross : ∀ a ∈ s.levels.dropLast, a < level := by
          have hS2 := hS
          rw [← hlast_split] at hS2
          exact fun a ha => (List.pairwise_append.mp hS2).2.2 a ha level
            (List.mem_singleton.mpr rfl)
        refine ⟨Buffer2.wf_set (State.undoSteps_wf hW _) _ _, ?_, ?_, ?_, ?_,
          ?_, ?_⟩
        · intro st hst
          rw [hlenA]
          exact hB st (List.mem_of_mem_take hst)
        · show ((s.steps.take (level + 1)).map Step.bvar).Nodup
          rw [List.map_take]
          exact List.Nodup.sublist (List.take_sublist _ _) hN
        · intro p hp
          rw [hlenA] at hp
          by_cases hpbv : p = (s.steps.getD level default).bvar
          · subst hpbv
            show _ ↔ ((State.undoSteps s.assignment
              (s.steps.drop (level + 1))).set
              ((s.steps.getD level default).bvar) BOOL_FALSE).get
              ((s.steps.getD level default).bvar) ≠ BOOL_UNDEF
            rw [Buffer2.get_set_same hUdiv (by decide)]
            exact ⟨fun _ => by decide, fun _ => ⟨_, hbv_in_T, rfl⟩⟩
          · show _ ↔ ((State.undoSteps s.assignment
              (s.steps.drop (level + 1))).set
              ((s.steps.getD level default).bvar) BOOL_FALSE).get p ≠ BOOL_UNDEF
            rw [Buffer2.get_set_ne (by decide) hpbv]
            by_cases hpT : ∃ st ∈ s.steps.take (level + 1), st.bvar = p
            · rw [State.undoSteps_get_not_mem _ _ (hDnot _ hpT)]
              refine ⟨fun _ => ?_, fun _ => hpT⟩
              obtain ⟨st, hst, hbvp⟩ := hpT
              exact (hT p hp).mp ⟨st, List.mem_of_mem_take hst, hbvp⟩
            · refine ⟨fun hc => absurd hc hpT, fun hc => absurd ?_ hc⟩
              by_cases hpD : ∃ st ∈ s.steps.drop (level + 1), st.bvar = p
              · exact State.undoSteps_get_mem hW _
                  (fun st hst => hB st (List.mem_of_mem_drop hst)) hpD
              · have hnot_steps : ¬∃ st ∈ s.steps, st.bvar = p := by
                  intro ⟨st, hst, hbvp⟩
                  rcases (hsplit_mem st).mp hst with h1 | h1
                  · exact hpT ⟨st, h1, hbvp⟩
                  · exact hpD ⟨st, h1, hbvp⟩
                have hold : s.assignment.get p = BOOL_UNDEF := by
                  by_contra hc2
                  exact hnot_steps ((hT p hp).mpr hc2)
                rw [State.undoSteps_get_not_mem _ _
                  (fun st hst hc2 => hpD ⟨st, hst, hc2⟩), hold]
        · intro p hp
          rw [hlenA] at hp
          by_cases hpbv : p = (s.steps.getD level default).bvar
          · subst hpbv
            show ((State.undoSteps s.assignment
              (s.steps.drop (level + 1))).set
              ((s.steps.getD level default).bvar) BOOL_FALSE).get
              ((s.steps.getD level default).bvar) ≠ BOOL_MISSING
            rw [Buffer2.get_set_same hUdiv (by decide)]
            decide
          · show ((State.undoSteps s.assignment
              (s.steps.drop (level + 1))).set
              ((s.steps.getD level default).bvar) BOOL_FALSE).get p ≠ BOOL_MISSING
            rw [Buffer2.get_set_ne (by decide) hpbv]
            by_cases hpD : ∃ st ∈ s.steps.drop (level + 1), st.bvar = p
            · rw [State.undoSteps_get_mem hW _
                (fun st hst => hB st (List.mem_of_mem_drop hst)) hpD]
              decide
            · rw [State.undoSteps_get_not_mem _ _
                (fun st hst hc2 => hpD ⟨st, hst, hc2⟩)]
              exact hM p hp
        · intro lvl hlvl
          show lvl < (s.steps.take (level + 1)).length
          rw [hTlen]
          rcases List.mem_append.mp hlvl with h1 | h1
          · exact Nat.lt_succ_of_lt (hcross lvl h1)
          · rcases List.mem_singleton.mp h1 with rfl
            exact Nat.lt_succ_self _
        · exact List.pairwise_append.mpr
            ⟨List.Pairwise.sublist (List.dropLast_sublist _) hS,
             List.pairwise_singleton _ _,
             fun a ha b hb => by
               rcases List.mem_singleton.mp hb with rfl
               exact hcross a ha⟩

theorem stateInv_next_decision {s : State} (inv : StateInv s) :
    StateInv (s.next_decision).2 :=
  stateInv_nextDecisionAux s.levels.length s inv

theorem reachable_inv {s : State} (h : Reachable s) : StateInv s := by
  induction h with
  | empty => exact stateInv_empty
  | create_table s sizes _ ih => exact stateInv_create_table ih sizes
  | assign s s2 pos sign reason _ heq ih => exact stateInv_assign ih heq
  | make_decision s _ ih => exact stateInv_make_decision ih
  | next_decision s _ ih => exact stateInv_next_decision ih

theorem foldFiber_char (st : State) (pos block : Nat) :
    foldFiber st pos block
    = if 2 ∈ (List.range block).map (fun i => st.assignment.get (pos + i))
      then EVAL_TRUE
      else min 2 (((List.range block).map
        (fun i => st.assignment.get (pos + i))).countP (fun x => x == 1)) := by
  unfold foldFiber
  rw [← List.foldl_map (fun i => st.assignment.get (pos + i))
    (fun a b => FOLD_POS.of a b) (List.range block) EVAL_FALSE]
  have hb : ∀ x ∈ (List.range block).map (fun i => st.assignment.get (pos + i)),
      x ≤ 3 := by
    intro x hx
    obtain ⟨i, _, rfl⟩ := List.mem_map.mp hx
    exact st.assignment.get_le_three _
  by_cases h2 : 2 ∈ (List.range block).map (fun i => st.assignment.get (pos + i))
  · rw [if_pos h2]
    exact foldPos_mem_true _ hb h2 EVAL_FALSE (by decide)
  · rw [if_neg h2]
    rw [foldPos_no_true _ hb h2 EVAL_FALSE (by decide)]
    show min 2 (0 + _) = _
    rw [Nat.zero_add]

theorem foldFiber_eq_spec (st : State) (pos block : Nat) :
    foldFiber st pos block = fiberSpecStatus st pos block := by
  rw [foldFiber_char]
  unfold fiberSpecStatus
  by_cases h2 : (2 : Nat) ∈ (List.range block).map
      (fun i => st.assignment.get (pos + i))
  · have h2b : BOOL_TRUE ∈ (List.range block).map
        (fun i => st.assignment.get (pos + i)) := h2
    rw [if_pos h2, if_pos h2b]
  · have h2b : ¬BOOL_TRUE ∈ (List.range block).map
        (fun i => st.assignment.get (pos + i)) := h2
    rw [if_neg h2, if_neg h2b]
    by_cases hc0 : ((List.range block).map
        (fun i => st.assignment.get (pos + i))).countP (fun x => x == 1) = 0
    · have hc0b : ((List.range block).map
          (fun i => st.assignment.get (pos + i))).countP
          (fun x => x == BOOL_UNDEF) = 0 := hc0
      rw [if_pos hc0b, hc0]
      decide
    · have hc0b : ¬((List.range block).map
          (fun i => st.assignment.get (pos + i))).countP
          (fun x => x == BOOL_UNDEF) = 0 := hc0
      rw [if_neg hc0b]
      by_cases hc1 : ((List.range block).map
          (fun i => st.assignment.get (pos + i))).countP (fun x => x == 1) = 1
      · have hc1b : ((List.range block).map
            (fun i => st.assignment.get (pos + i))).countP
            (fun x => x == BOOL_UNDEF) = 1 := hc1
        rw [if_pos hc1b, hc1]
        decide
      · have hc1b : ¬((List.range block).map
            (fun i => st.assignment.get (pos + i))).countP
            (fun x => x == BOOL_UNDEF) = 1 := hc1
        rw [if_neg hc1b]
        show min 2 _ = 2
        omega

/-- Unrolling of the `while pos < range.end` loop of `Exist::get_status`
into a fold over the fibers, for a positive block size. -/
theorem existsAux_eq (st : State) (block stop : Nat) (hb : 0 < block) :
    ∀ (n fuel pos acc : Nat), stop = pos + n * block → n ≤ fuel →
    existsAux st block stop fuel pos acc
    = (List.range n).foldl
        (fun v1 k => EVAL_AND.of v1 (foldFiber st (pos + k * block) block))
        acc := by
  intro n
  induction n with
  | zero =>
    intro fuel pos acc hstop _
    cases fuel with
    | zero => rfl
    | succ f =>
      show (if pos < stop then _ else acc) = _
      rw [if_neg (by omega)]
      rfl
  | succ n ih =>
    intro fuel pos acc hstop hfuel
    cases fuel with
    | zero => omega
    | succ f =>
      have hmul : (n + 1) * block = n * block + block := by ring
      show (if pos < stop then existsAux st block stop f (pos + block)
        (EVAL_AND.of acc (foldFiber st pos block)) else acc) = _
      rw [if_pos (by omega)]
      rw [ih f (pos + block) _ (by omega) (by omega)]
      rw [List.range_succ_eq_map, List.foldl_cons, List.foldl_map]
      have hinit : pos + 0 * block = pos := by omega
      rw [hinit]
      refine foldl_fn_congr (List.range n) (fun r x => EVAL_AND.of r x)
        (fun k => foldFiber st (pos + block + k * block) block)
        (fun k => foldFiber st (pos + Nat.succ k * block) block)
        (fun k _ => ?_) _
      have hks : Nat.succ k * block = k * block + block := Nat.succ_mul _ _
      have hidx : pos + block + k * block = pos + Nat.succ k * block := by omega
      exact congrArg (fun q => foldFiber st q block) hidx

theorem prod_dropLast_getD (l : List Nat) (h : l ≠ []) :
    l.prod = l.dropLast.prod * l.getD (l.length - 1) 0 := by
  have hlen : l.length - 1 < l.length := by
    cases l with
    | nil => exact absurd rfl h
    | cons a t => simp
  rw [List.getD_eq_getElem l 0 hlen, ← List.getLast_eq_getElem l h]
  conv_lhs => rw [← List.dropLast_concat_getLast h]
  rw [List.prod_append, List.prod_singleton]

/-- `Exist::get_status` computes the `EVAL_AND` fold over the last-axis
fibers of the fiber statuses, where each fiber status is TRUE with a TRUE
cell, and otherwise FALSE, UNIT or UNDEF according to the number of UNDEF
cells (zero, one, more). -/
theorem Exist.get_status_eq (e : Exist) (st : State)
    (hne : e.var.shape.lengths ≠ [])
    (hpos : 0 < e.var.shape.lengths.getD (e.var.shape.lengths.length - 1) 0) :
    e.get_status st
    = (List.range e.var.shape.lengths.dropLast.prod).foldl
        (fun v1 k => EVAL_AND.of v1 (fiberSpecStatus st
          (e.var.shape.offset + k * e.var.shape.lengths.getD
            (e.var.shape.lengths.length - 1) 0)
          (e.var.shape.lengths.getD (e.var.shape.lengths.length - 1) 0)))
        EVAL_TRUE := by
  have hvol : e.var.shape.volume
      = e.var.shape.lengths.dropLast.prod
        * e.var.shape.lengths.getD (e.var.shape.lengths.length - 1) 0 := by
    rw [Shape.volume_eq, prod_dropLast_getD _ hne]
  show existsAux st (e.var.shape.lengths.getD (e.var.shape.lengths.length - 1) 0)
      (e.var.shape.offset + e.var.shape.volume) e.var.shape.volume
      e.var.shape.offset EVAL_TRUE = _
  rw [existsAux_eq st _ _ hpos e.var.shape.lengths.dropLast.prod
    e.var.shape.volume e.var.shape.offset EVAL_TRUE (by rw [hvol])
    (by rw [hvol]; exact Nat.le_mul_of_pos_right _ hpos)]
  exact foldl_fn_congr _ (fun r x => EVAL_AND.of r x)
    (fun k => foldFiber st (e.var.shape.offset + k * e.var.shape.lengths.getD
      (e.var.shape.lengths.length - 1) 0) (e.var.shape.lengths.getD
      (e.var.shape.lengths.length - 1) 0))
    (fun k => fiberSpecStatus st (e.var.shape.offset + k * e.var.shape.lengths.getD
      (e.var.shape.lengths.length - 1) 0) (e.var.shape.lengths.getD
      (e.var.shape.lengths.length - 1) 0))
    (fun k _ => foldFiber_eq_spec st _ _) _

/-! ### The claims -/

/-- C1: on every wellformed solver, a returning call of `Solver::propagate`
yields a status that is never `EVAL_UNIT`, and that status equals the
`EVAL_AND` fold of the `Clause::get_status` values of all clauses as
evaluated against the assignment at the moment the call returns (and also
of the stored clause buffers, which is what `get_clauses_status` reads). -/
theorem c1_propagate_postcondition (s : Solver) (fuel res : Nat) (s2 : Solver)
    (hwf : WfSolver s) (h : s.propagate fuel = some (res, s2)) :
    res ≠ EVAL_UNIT ∧
    res = s2.clauses.foldl (fun r cla =>
      EVAL_AND.of r ((cla.evaluate s2.state).get_status)) EVAL_TRUE ∧
    res = s2.get_clauses_status := by
  obtain ⟨h1, h2, h3⟩ := Solver.propagate_post hwf h
  exact ⟨h1, h3, h2⟩

/-- C1 witness: the empty solver propagates in one step to `EVAL_TRUE`. -/
theorem c1_propagate_postcondition_witness :
    WfSolver ⟨State.empty, [], [], [], []⟩ ∧
    ((EVAL_TRUE : Nat) ≠ EVAL_UNIT ∧
     EVAL_TRUE = (⟨State.empty, [], [], [], []⟩ : Solver).clauses.foldl
       (fun r cla => EVAL_AND.of r
         ((cla.evaluate (⟨State.empty, [], [], [], []⟩ : Solver).state).get_status))
       EVAL_TRUE ∧
     EVAL_TRUE = (⟨State.empty, [], [], [], []⟩ : Solver).get_clauses_status) := by
  have hwf : WfSolver ⟨State.empty, [], [], [], []⟩ :=
    ⟨rfl, fun cla h => absurd h (List.not_mem_nil cla)⟩
  exact ⟨hwf, c1_propagate_postcondition ⟨State.empty, [], [], [], []⟩ 1 EVAL_TRUE
    ⟨State.empty, [], [], [], []⟩ hwf rfl⟩

/-- C2 counterexample: a solver whose single exists axiom has a fiber with
exactly one UNDEF cell and no TRUE cell; `Solver::propagate` (the engine's
only propagation) returns without assigning that position: the solver is
returned unchanged, the cell stays UNDEF and no step is appended. -/
theorem c2_counterexample :
    (((List.range 1).map (fun i =>
        (⟨⟨[1], 1⟩, [], []⟩ : State).assignment.get (0 + i))).countP
      (fun x => x == BOOL_UNDEF) = 1 ∧
     ¬BOOL_TRUE ∈ (List.range 1).map (fun i =>
        (⟨⟨[1], 1⟩, [], []⟩ : State).assignment.get (0 + i))) ∧
    (⟨⟨⟨[1], 1⟩, [], []⟩, [⟨"y", 1⟩], [⟨Shape.new [1] 0, "e", [⟨"y", 1⟩]⟩], [],
      [⟨⟨Shape.new [1] 0, "e", [⟨"y", 1⟩]⟩⟩]⟩ : Solver).propagate 1
      = some (EVAL_TRUE,
        (⟨⟨⟨[1], 1⟩, [], []⟩, [⟨"y", 1⟩], [⟨Shape.new [1] 0, "e", [⟨"y", 1⟩]⟩],
          [], [⟨⟨Shape.new [1] 0, "e", [⟨"y", 1⟩]⟩⟩]⟩ : Solver)) := by
  exact ⟨⟨by decide, by decide⟩, by decide⟩

/-- C2 amended: the code contains no exists-propagation at all —
`Solver::propagate` reads only the clauses and the state, so its behaviour
is oblivious to the exists axioms: replacing the exists list leaves the
propagation result unchanged apart from carrying the new list. -/
theorem c2_no_exists_propagation (s : Solver) (E : List Exist) (fuel : Nat) :
    ({ s with existsList := E } : Solver).propagate fuel
    = (s.propagate fuel).map (fun r => (r.1, { r.2 with existsList := E })) := by
  unfold Solver.propagate
  cases hopt : propagateLoop fuel 0 EVAL_TRUE 0 s.clauses s.state with
  | none => rfl
  | some out => rfl

/-- C3 counterexample: a clause whose cell 0 is FALSE and cell 1 is UNIT;
`Clause::propagate` does not stop at the FALSE cell: it still performs the
unit assignment of the later cell (position 1 becomes TRUE and a step is
appended), refuting the claimed early exit. -/
theorem c3_counterexample :
    ((Clause.new (Shape.new [2] 0) [⟨"x", 2⟩]
        [Literal.new (Shape.new [2] 0) true ⟨Shape.new [2] 0, "p", [⟨"x", 2⟩]⟩
          [0]]).evaluate ⟨⟨[4], 2⟩, [], []⟩).buffer.get 0 = EVAL_FALSE ∧
    (((Clause.new (Shape.new [2] 0) [⟨"x", 2⟩]
        [Literal.new (Shape.new [2] 0) true ⟨Shape.new [2] 0, "p", [⟨"x", 2⟩]⟩
          [0]]).evaluate ⟨⟨[4], 2⟩, [], []⟩).propagate
        ⟨⟨[4], 2⟩, [], []⟩).1 = EVAL_FALSE ∧
    (((Clause.new (Shape.new [2] 0) [⟨"x", 2⟩]
        [Literal.new (Shape.new [2] 0) true ⟨Shape.new [2] 0, "p", [⟨"x", 2⟩]⟩
          [0]]).evaluate ⟨⟨[4], 2⟩, [], []⟩).propagate
        ⟨⟨[4], 2⟩, [], []⟩).2.assignment.get 1 = BOOL_TRUE ∧
    (((Clause.new (Shape.new [2] 0) [⟨"x", 2⟩]
        [Literal.new (Shape.new [2] 0) true ⟨Shape.new [2] 0, "p", [⟨"x", 2⟩]⟩
          [0]]).evaluate ⟨⟨[4], 2⟩, [], []⟩).propagate
        ⟨⟨[4], 2⟩, [], []⟩).2.steps.length = 1 := by
  exact ⟨by decide, by decide, by decide, by decide⟩

/-- C3 amended: `Clause::propagate` inspects every cell of the buffer with
no early exit — its returned status is the `EVAL_AND` fold of all cells
(`Clause::get_status`), and its state is the fold of the per-cell unit
assignment step over the whole position range. -/
theorem c3_propagate_full_scan (c : Clause) (st : State) :
    (c.propagate st).1 = c.get_status ∧
    (c.propagate st).2 = (List.range c.buffer.len).foldl c.propagateStep st :=
  ⟨Clause.propagate_fst c st, Clause.propagate_snd c st⟩

/-- C4: in every state reachable by `create_table`, `assign`,
`make_decision` and `next_decision` from the default state, a position is
the `bvar` of a trail step exactly when its assignment value is FALSE or
TRUE, and every position off the trail is UNDEF. -/
theorem c4_trail_invariant (s : State) (h : Reachable s) :
    ∀ p, p < s.assignment.len →
      ((∃ st ∈ s.steps, st.bvar = p) ↔
        (s.assignment.get p = BOOL_FALSE ∨ s.assignment.get p = BOOL_TRUE)) ∧
      ((¬∃ st ∈ s.steps, st.bvar = p) → s.assignment.get p = BOOL_UNDEF) := by
  obtain ⟨hW, hB, hN, hT, hM, hL, hS⟩ := reachable_inv h
  intro p hp
  have hle : s.assignment.get p ≤ 3 := s.assignment.get_le_three p
  have hm : s.assignment.get p ≠ 3 := hM p hp
  constructor
  · rw [hT p hp]
    show s.assignment.get p ≠ 1 ↔ (s.assignment.get p = 0 ∨ s.assignment.get p = 2)
    omega
  · intro hnot
    have := (hT p hp).mpr
    show s.assignment.get p = 1
    by_contra hc
    exact hnot (this hc)

/-- C4 witness: after creating one table of two cells, position 0 is off
the trail and UNDEF. -/
theorem c4_trail_invariant_witness :
    Reachable (State.empty.create_table [2]).2 ∧
    0 < (State.empty.create_table [2]).2.assignment.len ∧
    (((∃ st ∈ (State.empty.create_table [2]).2.steps, st.bvar = 0) ↔
      ((State.empty.create_table [2]).2.assignment.get 0 = BOOL_FALSE ∨
       (State.empty.create_table [2]).2.assignment.get 0 = BOOL_TRUE)) ∧
     ((¬∃ st ∈ (State.empty.create_table [2]).2.steps, st.bvar = 0) →
      (State.empty.create_table [2]).2.assignment.get 0 = BOOL_UNDEF)) :=
  ⟨Reachable.create_table _ [2] Reachable.empty, by decide,
   c4_trail_invariant _ (Reachable.create_table _ [2] Reachable.empty) 0
     (by decide)⟩

/-- C5: `Solver::propagate` terminates on every wellformed solver — the
fuel `undefCount * (len + 1) + len + 1` always suffices — because every
clause visit that resets the quiet counter (a UNIT result) strictly
decreases the number of UNDEF cells of the assignment. -/
theorem c5_propagate_terminates (s : Solver) (hwf : WfSolver s) :
    (s.propagate (s.state.assignment.undefCount * (s.clauses.length + 1)
      + s.clauses.length + 1)).isSome = true ∧
    ∀ (c : Clause) (st : State), WfClause s.state.assignment.len c →
      st.assignment.Wf → st.assignment.len = s.state.assignment.len →
      ((c.evaluate st).propagate st).1 = EVAL_UNIT →
      ((c.evaluate st).propagate st).2.assignment.undefCount
        < st.assignment.undefCount := by
  refine ⟨Solver.propagate_some s hwf, ?_⟩
  intro c st hc hst hlen hunit
  exact propagate_unit_decreases c st hc hst hlen hunit

/-- C5 witness: the empty solver with the measure-derived fuel. -/
theorem c5_propagate_terminates_witness :
    WfSolver ⟨State.empty, [], [], [], []⟩ ∧
    (((⟨State.empty, [], [], [], []⟩ : Solver).propagate
      ((⟨State.empty, [], [], [], []⟩ : Solver).state.assignment.undefCount
        * ((⟨State.empty, [], [], [], []⟩ : Solver).clauses.length + 1)
        + (⟨State.empty, [], [], [], []⟩ : Solver).clauses.length + 1)).isSome
      = true ∧
     ∀ (c : Clause) (st : State),
      WfClause (⟨State.empty, [], [], [], []⟩ : Solver).state.assignment.len c →
      st.assignment.Wf →
      st.assignment.len
        = (⟨State.empty, [], [], [], []⟩ : Solver).state.assignment.len →
      ((c.evaluate st).propagate st).1 = EVAL_UNIT →
      ((c.evaluate st).propagate st).2.assignment.undefCount
        < st.assignment.undefCount) := by
  have hwf : WfSolver ⟨State.empty, [], [], [], []⟩ :=
    ⟨rfl, fun cla h => absurd h (List.not_mem_nil cla)⟩
  exact ⟨hwf, c5_propagate_terminates ⟨State.empty, [], [], [], []⟩ hwf⟩

/-- C6 counterexample: a one-cell fiber holding a single UNDEF and no TRUE;
`Exist::get_status` computes `EVAL_UNIT` for it, not the `EVAL_UNDEF` the
claim's three-valued description requires. -/
theorem c6_counterexample :
    (((List.range 1).map (fun i =>
        (⟨⟨[1], 1⟩, [], []⟩ : State).assignment.get (0 + i))).countP
      (fun x => x == BOOL_UNDEF) = 1 ∧
     ¬BOOL_TRUE ∈ (List.range 1).map (fun i =>
        (⟨⟨[1], 1⟩, [], []⟩ : State).assignment.get (0 + i))) ∧
    (⟨⟨Shape.new [1] 0, "e", [⟨"y", 1⟩]⟩⟩ : Exist).get_status
      ⟨⟨[1], 1⟩, [], []⟩ = EVAL_UNIT ∧
    (EVAL_UNIT : Nat) ≠ EVAL_UNDEF := by
  exact ⟨⟨by decide, by decide⟩, by decide, by decide⟩

/-- C6 amended: the fiber status of `Exist::get_status` is four-valued —
TRUE with a TRUE cell, else FALSE, UNIT or UNDEF as the fiber holds zero,
one, or more UNDEF cells — and the axiom's status is the `EVAL_AND` fold of
the fiber statuses. -/
theorem c6_exist_status (e : Exist) (st : State)
    (hne : e.var.shape.lengths ≠ [])
    (hpos : 0 < e.var.shape.lengths.getD (e.var.shape.lengths.length - 1) 0) :
    e.get_status st
    = (List.range e.var.shape.lengths.dropLast.prod).foldl
        (fun v1 k => EVAL_AND.of v1 (fiberSpecStatus st
          (e.var.shape.offset + k * e.var.shape.lengths.getD
            (e.var.shape.lengths.length - 1) 0)
          (e.var.shape.lengths.getD (e.var.shape.lengths.length - 1) 0)))
        EVAL_TRUE :=
  Exist.get_status_eq e st hne hpos

/-- C6 witness: the amended statement at the concrete one-fiber axiom. -/
theorem c6_exist_status_witness :
    (⟨⟨Shape.new [1] 0, "e", [⟨"y", 1⟩]⟩⟩ : Exist).var.shape.lengths ≠ [] ∧
    0 < (⟨⟨Shape.new [1] 0, "e", [⟨"y", 1⟩]⟩⟩ : Exist).var.shape.lengths.getD
      ((⟨⟨Shape.new [1] 0, "e", [⟨"y", 1⟩]⟩⟩ : Exist).var.shape.lengths.length - 1)
      0 ∧
    (⟨⟨Shape.new [1] 0, "e", [⟨"y", 1⟩]⟩⟩ : Exist).get_status
      ⟨⟨[1], 1⟩, [], []⟩
    = (List.range (⟨⟨Shape.new [1] 0, "e", [⟨"y", 1⟩]⟩⟩ :
        Exist).var.shape.lengths.dropLast.prod).foldl
        (fun v1 k => EVAL_AND.of v1 (fiberSpecStatus ⟨⟨[1], 1⟩, [], []⟩
          ((⟨⟨Shape.new [1] 0, "e", [⟨"y", 1⟩]⟩⟩ : Exist).var.shape.offset
            + k * (⟨⟨Shape.new [1] 0, "e", [⟨"y", 1⟩]⟩⟩ :
              Exist).var.shape.lengths.getD
              ((⟨⟨Shape.new [1] 0, "e", [⟨"y", 1⟩]⟩⟩ :
                Exist).var.shape.lengths.length - 1) 0)
          ((⟨⟨Shape.new [1] 0, "e", [⟨"y", 1⟩]⟩⟩ : Exist).var.shape.lengths.getD
            ((⟨⟨Shape.new [1] 0, "e", [⟨"y", 1⟩]⟩⟩ :
              Exist).var.shape.lengths.length - 1) 0)))
        EVAL_TRUE :=
  ⟨by decide, by decide,
   c6_exist_status ⟨⟨Shape.new [1] 0, "e", [⟨"y", 1⟩]⟩⟩ ⟨⟨[1], 1⟩, [], []⟩
     (by decide) (by decide)⟩

/-- C7: on the full 2-bit domain (MISSING included), folding a negative
literal is folding the positive literal of the negated value, and the
positive fold is commutative in its last two arguments. -/
theorem c7_fold_algebra : ∀ a, a < 4 → ∀ b, b < 4 → ∀ c, c < 4 →
    FOLD_NEG.of a b = FOLD_POS.of a (BOOL_NOT.of b) ∧
    FOLD_POS.of (FOLD_POS.of a b) c = FOLD_POS.of (FOLD_POS.of a c) b := by
  decide

/-- C7 witness: the algebra at `a = 1`, `b = 2`, `c = 3`. -/
theorem c7_fold_algebra_witness :
    (1 : Nat) < 4 ∧ (2 : Nat) < 4 ∧ (3 : Nat) < 4 ∧
    (FOLD_NEG.of 1 2 = FOLD_POS.of 1 (BOOL_NOT.of 2) ∧
     FOLD_POS.of (FOLD_POS.of 1 2) 3 = FOLD_POS.of (FOLD_POS.of 1 3) 2) :=
  ⟨by decide, by decide, by decide,
   c7_fold_algebra 1 (by decide) 2 (by decide) 3 (by decide)⟩

/-- C8: for every shape view (zero strides and zero lengths included), the
iterator of the simplified view enumerates exactly the same position list —
hence the same multiset — as the iterator of the view itself. -/
theorem c8_simplify_positions (v : ShapeView) :
    (ShapeIter.new v.simplify).collect = (ShapeIter.new v).collect ∧
    ((ShapeIter.new v.simplify).collect : Multiset Nat)
      = ((ShapeIter.new v).collect : Multiset Nat) := by
  have h : (ShapeIter.new v.simplify).collect = (ShapeIter.new v).collect := by
    rw [collect_new, collect_new, ← enumV_eq_enumPos, ← enumV_eq_enumPos,
      simplify_offset]
    exact enumV_simplify v v.offset
  exact ⟨h, by rw [h]⟩

/-- C9: `Buffer2::append` extends the length, preserves every previously
written cell (also across a partially used tail word) and fills the new
cells with the given 2-bit value. -/
theorem c9_append_preserves (b : Buffer2) (hwf : b.Wf) (n v : Nat)
    (hv : v < 4) :
    (b.append n v).len = b.len + n ∧
    (∀ p, p < b.len → (b.append n v).get p = b.get p) ∧
    (∀ p, b.len ≤ p → p < b.len + n → (b.append n v).get p = v) :=
  ⟨Buffer2.len_append b n v, fun _ hp => Buffer2.get_append_old hwf hp n v,
   fun _ h1 h2 => Buffer2.get_append_new hwf hv h1 h2⟩

/-- C9 witness: a two-cell buffer (one partial word) extended by three
cells of value 2. -/
theorem c9_append_preserves_witness :
    (⟨[4], 2⟩ : Buffer2).Wf ∧ (2 : Nat) < 4 ∧
    ((⟨[4], 2⟩ : Buffer2).append 3 2).len = (⟨[4], 2⟩ : Buffer2).len + 3 ∧
    (∀ p, p < (⟨[4], 2⟩ : Buffer2).len →
      ((⟨[4], 2⟩ : Buffer2).append 3 2).get p = (⟨[4], 2⟩ : Buffer2).get p) ∧
    (∀ p, (⟨[4], 2⟩ : Buffer2).len ≤ p → p < (⟨[4], 2⟩ : Buffer2).len + 3 →
      ((⟨[4], 2⟩ : Buffer2).append 3 2).get p = 2) :=
  ⟨rfl, by decide, c9_append_preserves ⟨[4], 2⟩ rfl 3 2 (by decide)⟩

/-- C10: `set_value` on a cell that is not UNDEF fails as `State::assign`
refuses the assignment (`AlreadyAssigned`): no updated state is produced,
so the assignment buffer and the trail are left exactly as before. -/
theorem c10_already_assigned (s : Solver) (sign : Bool) (v : Variable)
    (coords : List Nat)
    (h : s.state.assignment.get (v.shape.position coords) ≠ BOOL_UNDEF) :
    s.set_value sign v coords = none ∧
    s.state.assign (v.shape.position coords) sign [] = none := by
  have h2 : s.state.assign (v.shape.position coords) sign [] = none := by
    unfold State.assign
    rw [if_neg (fun hc => h hc.2)]
  constructor
  · unfold Solver.set_value
    rw [h2]
    rfl
  · exact h2

/-- C10 witness: assigning position 0 of a one-cell variable whose cell is
already TRUE fails. -/
theorem c10_already_assigned_witness :
    (⟨⟨⟨[2], 1⟩, [⟨0, []⟩], []⟩, [⟨"y", 1⟩], [⟨Shape.new [1] 0, "q", [⟨"y", 1⟩]⟩],
      [], []⟩ : Solver).state.assignment.get
      ((Shape.new [1] 0).position [0]) ≠ BOOL_UNDEF ∧
    ((⟨⟨⟨[2], 1⟩, [⟨0, []⟩], []⟩, [⟨"y", 1⟩], [⟨Shape.new [1] 0, "q", [⟨"y", 1⟩]⟩],
      [], []⟩ : Solver).set_value true ⟨Shape.new [1] 0, "q", [⟨"y", 1⟩]⟩ [0]
      = none ∧
     (⟨⟨⟨[2], 1⟩, [⟨0, []⟩], []⟩, [⟨"y", 1⟩], [⟨Shape.new [1] 0, "q", [⟨"y", 1⟩]⟩],
      [], []⟩ : Solver).state.assign ((Shape.new [1] 0).position [0]) true []
      = none) :=
  ⟨by decide,
   c10_already_assigned _ true ⟨Shape.new [1] 0, "q", [⟨"y", 1⟩]⟩ [0] (by decide)⟩

end Relsat

